import Mathlib

/-!
# jwt-http-router: a shallow embedding

The repository is an HTTP request router (a per-method prefix tree with
parameter and catch-all tokens) with a JWT collaborator that turns the
`Authorization` header of a request into a claims value.

* `jwt.go` is embedded function by function (`Split`, `GetJWTPayload`,
  `DecodeJWTSegment`, `GetJWTPayloadAndValidate`, `Router.jwt`).  The Go
  standard library pieces it calls (`encoding/base64`, `encoding/json`,
  the `jwt-go` parser) are library code: base64 is modelled after RFC 4648 as
  the Go decoder implements it, the other two are parameters (`Env`).
* `router.go` and `tree.go` are not among the sources; the router and its
  tree follow the specification, and their definitions are marked
  `Modelled from the spec:`.

Go strings are byte sequences.  A `GoString` is a list of characters in which
every character stands for one byte, so `List.length` is Go's `len`.
-/

namespace JwtHttpRouter

/-! ## Strings -/

/-- A Go `string`: a sequence of bytes, one `Char` per byte. -/
abbrev GoString := List Char

/-- A Go `[]byte` holding decoded binary data: one `Nat` below 256 per byte. -/
abbrev Bytes := List Nat

/-- Go `strings.Split(s, sep)` for a one-byte separator: the pieces of `s`
between the occurrences of `sep`, in order; `n` occurrences give `n + 1`
pieces and the empty string gives one empty piece. -/
def Split : GoString → Char → List GoString
  | [], _ => [[]]
  | c :: cs, sep =>
    if c = sep then [] :: Split cs sep
    else
      match Split cs sep with
      | [] => [[c]]
      | p :: ps => (c :: p) :: ps

/-! ## `encoding/base64`, URL alphabet with padding -/

namespace base64

/-- The URL-safe alphabet of RFC 4648 (`encodeURL` in the Go library). -/
def encodeURL : List Char :=
  "ABCDEFGHIJKLMNOPQRSTUVWXYZabcdefghijklmnopqrstuvwxyz0123456789-_".toList

/-- The padding character `StdPadding`. -/
def padChar : Char := '='

/-- The character that encodes the six-bit value `v` (`enc.encode[v]`). -/
def encodeSextet (v : Nat) : Char := encodeURL.getD v 'A'

/-- The six-bit value of an alphabet character (`enc.decodeMap[c]`), `none`
for every other byte (`0xff` in the Go table). -/
def decodeSextet (c : Char) : Option Nat :=
  if c ∈ encodeURL then some (encodeURL.indexOf c) else none

/-- The function `URLEncoding.EncodeToString`: three bytes become four characters, a final
group of one or two bytes is padded with `=` to four characters. -/
def EncodeToString : Bytes → GoString
  | [] => []
  | [x] =>
    let val := x * 65536
    [encodeSextet (val / 262144 % 64), encodeSextet (val / 4096 % 64), padChar, padChar]
  | [x, y] =>
    let val := x * 65536 + y * 256
    [encodeSextet (val / 262144 % 64), encodeSextet (val / 4096 % 64),
      encodeSextet (val / 64 % 64), padChar]
  | x :: y :: z :: rest =>
    let val := x * 65536 + y * 256 + z
    encodeSextet (val / 262144 % 64) :: encodeSextet (val / 4096 % 64) ::
      encodeSextet (val / 64 % 64) :: encodeSextet (val % 64) :: EncodeToString rest

/-- The error `base64.CorruptInputError`; the byte offset it carries is not
modelled. -/
inductive CorruptInputError
  | corrupt
  deriving DecidableEq, Repr

deriving instance DecidableEq for Except

/-- The quantum loop of the decoder on input without line breaks: four
alphabet characters give three bytes; the input may end with a group
`xx==` (one byte) or `xxx=` (two bytes); anything else, also an unpadded
final group, is corrupt.  The decoder is not strict: unused low bits of a
final group are ignored. -/
def decodeQuanta : GoString → Except CorruptInputError Bytes
  | [] => .ok []
  | [_] => .error .corrupt
  | [_, _] => .error .corrupt
  | [_, _, _] => .error .corrupt
  | a :: b :: c :: d :: rest =>
    match decodeSextet a, decodeSextet b with
    | some va, some vb =>
      if c = padChar then
        -- `xx=`: a second `=` and the end of the input must follow
        if d = padChar ∧ rest = [] then
          .ok [(va * 262144 + vb * 4096) / 65536 % 256]
        else .error .corrupt
      else
        match decodeSextet c with
        | none => .error .corrupt
        | some vc =>
          if d = padChar then
            -- `xxx=`: the end of the input must follow
            if rest = [] then
              let val := va * 262144 + vb * 4096 + vc * 64
              .ok [val / 65536 % 256, val / 256 % 256]
            else .error .corrupt
          else
            match decodeSextet d with
            | none => .error .corrupt
            | some vd =>
              let val := va * 262144 + vb * 4096 + vc * 64 + vd
              match decodeQuanta rest with
              | .error e => .error e
              | .ok bs => .ok (val / 65536 % 256 :: val / 256 % 256 :: val % 256 :: bs)
    | _, _ => .error .corrupt

/-- The decoder skips line feeds (byte 10) and carriage returns (byte 13). -/
def isLineBreak (c : Char) : Bool := c == Char.ofNat 10 || c == Char.ofNat 13

/-- The function `URLEncoding.DecodeString`: carriage returns and line feeds are ignored
wherever they stand, the rest is decoded quantum by quantum. -/
def DecodeString (s : GoString) : Except CorruptInputError Bytes :=
  decodeQuanta (s.filter (fun c => !isLineBreak c))

end base64

/-! ## Errors and unmarshalling targets -/

/-- The Go `error` values `jwt.go` can return.  `E` is the type of the errors
produced by the libraries taken as parameters (`encoding/json`, `jwt-go`). -/
inductive Error (E : Type)
  /-- An error made by `errors.New(text)`. -/
  | new (text : String)
  /-- The error of `base64.URLEncoding.DecodeString`. -/
  | base64 (e : base64.CorruptInputError)
  /-- An error returned by a library call. -/
  | lib (e : E)
  deriving DecidableEq

/-- One element of the variadic `results ...interface{}`: a pointer into the
caller's memory `σ`, given by what `json.Unmarshal(b, result)` does to that
memory and the error it returns. -/
abbrev Target (σ E : Type) := Bytes → σ → σ × Option E

/-- The loop `for _, result := range results` of `DecodeJWTSegment`:
unmarshal `b` into each target in turn and stop at the first error. -/
def unmarshalEach {σ E : Type} (b : Bytes) : List (Target σ E) → σ → σ × Option (Error E)
  | [], s => (s, none)
  | result :: results, s =>
    match result b s with
    | (s1, some e) => (s1, some (.lib e))
    | (s1, none) => unmarshalEach b results s1

/-- The padding step of `DecodeJWTSegment`:
`if l := len(seg) % 4; l > 0 { seg += strings.Repeat("=", 4-l) }`. -/
def padSegment (seg : GoString) : GoString :=
  if seg.length % 4 > 0 then seg ++ List.replicate (4 - seg.length % 4) '=' else seg

/-- The function `DecodeJWTSegment(seg, results...)`: pad, base64url-decode, unmarshal into
every result.  Returns the memory after the call and the error (`none` is
`nil`). -/
def DecodeJWTSegment {σ E : Type} (seg : GoString) (results : List (Target σ E)) (s : σ) :
    σ × Option (Error E) :=
  match base64.DecodeString (padSegment seg) with
  | .error e => (s, some (.base64 e))
  | .ok b => unmarshalEach b results s

/-- The function `GetJWTPayload(auth, results...)`: two format checks, then
the decoding of the payload segment. -/
def GetJWTPayload {σ E : Type} (auth : GoString) (results : List (Target σ E)) (s : σ) :
    σ × Option (Error E) :=
  let authParts := Split auth ' '
  if authParts.length ≠ 2 then
    (s, some (.new "expect auth string format like '<type> <token>'"))
  else
    let tokenString := authParts.getD 1 []
    let tokenParts := Split tokenString '.'
    if tokenParts.length ≠ 3 then
      (s, some (.new "expect token string format like '<head>.<payload>.<sig>'"))
    else
      let payloadSegment := tokenParts.getD 1 []
      DecodeJWTSegment payloadSegment results s

/-- The function `GetJWTPayloadAndValidate(auth, pubRsaKey, results...)`.  `parse` stands
for `jwt.Parse` with the RSA key function followed by the claims check and
`json.Marshal(claims)`: it returns an error, or `none` when the token carries
no valid map claims, or the marshalled claims. -/
def GetJWTPayloadAndValidate {σ E : Type}
    (parse : GoString → GoString → Except E (Option Bytes))
    (auth : GoString) (pubRsaKey : GoString) (results : List (Target σ E)) (s : σ) :
    σ × Option (Error E) :=
  let authParts := Split auth ' '
  if authParts.length ≠ 2 then
    (s, some (.new "expect auth string format like '<type> <token>'"))
  else
    let tokenString := authParts.getD 1 []
    match parse tokenString pubRsaKey with
    | .error e => (s, some (.lib e))
    | .ok none => (s, some (.new "no valida JWT payload found"))
    | .ok (some b) => unmarshalEach b results s

/-! ## The claims value -/

/-- The struct `JwtConfig`. -/
structure JwtConfig where
  PubRsa : GoString
  ForceAuth : Bool
  ForceUser : Bool
  deriving DecidableEq, Repr

/-- The struct `Resource`; `Roles = none` is the nil slice of an unset value. -/
structure Resource where
  Roles : Option (List GoString)
  deriving DecidableEq, Repr

/-- The type `JwtImpersonate`, a named string type. -/
abbrev JwtImpersonate := GoString

/-- The struct `Jwt`.  A Go map is `none` when nil and an association list otherwise;
`J` is the type of the `interface{}` values of `Map`. -/
structure Jwt (J : Type) where
  UserId : GoString
  ResourceAccess : Option (List (GoString × Resource))
  RealmAccess : Resource
  Map : Option (List (GoString × J))
  Impersonate : JwtImpersonate

/-- The part of `Jwt` that `encoding/json` fills in: the fields whose tag is
not `json:"-"`. -/
structure JwtFields where
  UserId : GoString
  ResourceAccess : Option (List (GoString × Resource))
  RealmAccess : Resource
  deriving DecidableEq, Repr

/-- The libraries `jwt.go` calls, as parameters: `json.Unmarshal` into a
`map[string]interface{}` and into the tagged fields of a `Jwt`, and the
`jwt-go` parser used by `GetJWTPayloadAndValidate`. -/
structure Env (J E : Type) where
  unmarshalMap : Bytes → Option (List (GoString × J)) → Option (List (GoString × J)) × Option E
  unmarshalFields : Bytes → JwtFields → JwtFields × Option E
  parse : GoString → GoString → Except E (Option Bytes)

/-- The target `&token.Map`. -/
def Env.intoMap {J E : Type} (env : Env J E) : Target (Jwt J) E := fun b token =>
  ({ token with Map := (env.unmarshalMap b token.Map).1 }, (env.unmarshalMap b token.Map).2)

/-- The target `&token`: only the tagged fields are written. -/
def Env.intoToken {J E : Type} (env : Env J E) : Target (Jwt J) E := fun b token =>
  let r := env.unmarshalFields b ⟨token.UserId, token.ResourceAccess, token.RealmAccess⟩
  ({ token with UserId := r.1.UserId, ResourceAccess := r.1.ResourceAccess,
                RealmAccess := r.1.RealmAccess }, r.2)

/-! ## Requests -/

/-- The type `http.Header`: canonical header names with their values. -/
abbrev Header := List (GoString × List GoString)

/-- The method `Header.Get(key)`: the first value of the header, the empty string when the
header is absent. -/
def Header.Get : Header → GoString → GoString
  | [], _ => []
  | (k, vs) :: rest, key => if k = key then vs.headD [] else Header.Get rest key

/-- The parts of `*http.Request` the router reads. -/
structure Request where
  Method : GoString
  Path : GoString
  Header : Header
  deriving DecidableEq, Repr

/-! ## Params -/

/-- Modelled from the spec: `Param` is declared in `router.go`, which is not
among the sources; one captured (name, value) pair, with the field names the
tests use. -/
structure Param where
  Key : GoString
  Value : GoString
  deriving DecidableEq, Repr

/-- Modelled from the spec: `Params` is declared in `router.go`; an ordered
sequence of captured pairs. -/
abbrev Params := List Param

/-- Modelled from the spec: `Params.ByName` is in `router.go`; a linear scan in
sequence order that returns the empty value on a miss. -/
def Params.ByName : Params → GoString → GoString
  | [], _ => []
  | p :: ps, name => if p.Key = name then p.Value else Params.ByName ps name

/-! ## The tree -/

/-- Modelled from the spec: the node kinds of `tree.go`, which is not among the
sources. -/
inductive NodeKind
  | static
  | param
  | catchAll
  deriving DecidableEq, Repr

/-- Modelled from the spec: the `Node` of `tree.go` (section 3 of the
specification).  `segment` is the literal text of a static node and the token
(`:name` or `*name`) of a wildcard node; `H` is the type of handlers. -/
inductive Node (H : Type) where
  | mk (segment : GoString) (kind : NodeKind) (children : List (Node H)) (wildChild : Bool)
      (handler : Option H) (fullPath : GoString) (priority : Nat) : Node H
  deriving Repr

/-- Modelled from the spec: the registration failures of section 7, raised by
the missing `router.go` and `tree.go`.  `handlerExists` is a second handler
for a pattern that already has one; `exhausted` is the recursion bound of
`newBranch`, which is never reached. -/
inductive InsertError
  | noLeadingSlash
  | nilHandler
  | catchAllNotLast
  | wildcardConflict
  | handlerExists
  | exhausted
  deriving DecidableEq, Repr

namespace Node

variable {H : Type}

/-- The `segment` field. -/
def segment : Node H → GoString
  | mk s _ _ _ _ _ _ => s

/-- The `kind` field. -/
def kind : Node H → NodeKind
  | mk _ k _ _ _ _ _ => k

/-- The `children` field. -/
def children : Node H → List (Node H)
  | mk _ _ cs _ _ _ _ => cs

/-- The `wildChild` field. -/
def wildChild : Node H → Bool
  | mk _ _ _ w _ _ _ => w

/-- The `handler` field. -/
def handler : Node H → Option H
  | mk _ _ _ _ h _ _ => h

/-- The `fullPath` field. -/
def fullPath : Node H → GoString
  | mk _ _ _ _ _ f _ => f

/-- The `priority` field. -/
def priority : Node H → Nat
  | mk _ _ _ _ _ _ p => p

/-- A byte that introduces a wildcard token. -/
def isWild (c : Char) : Bool := c == ':' || c == '*'

/-- A byte other than the separator. -/
def notSlash (c : Char) : Bool := c != '/'

/-- The length of the longest common prefix of two strings. -/
def commonPrefixLen : GoString → GoString → Nat
  | a :: as, b :: bs => if a = b then commonPrefixLen as bs + 1 else 0
  | _, _ => 0

/-- Modelled from the spec: the part of `insert` (in `tree.go`) that adds the
nodes of a pattern suffix no existing node covers.  Literal text up to the
next wildcard is a static node, `:name` (up to the next `/`) a param node,
`*name` a catch-all node, which must end the pattern.  Every new node has
priority 1.  The first argument bounds the recursion; one more than the length
of the suffix is enough. -/
def newBranch : Nat → GoString → GoString → H → Except InsertError (Node H)
  | 0, _, _, _ => .error .exhausted
  | fuel + 1, path, full, h =>
    match path with
    | ':' :: cs =>
      let after := cs.dropWhile notSlash
      if after = [] then .ok (mk path .param [] false (some h) full 1)
      else
        match newBranch fuel after full h with
        | .error e => .error e
        | .ok b => .ok (mk (':' :: cs.takeWhile notSlash) .param [b] false none full 1)
    | '*' :: cs =>
      if '/' ∈ cs then .error .catchAllNotLast
      else .ok (mk path .catchAll [] false (some h) full 1)
    | _ =>
      let after := path.dropWhile (fun c => !isWild c)
      if after = [] then .ok (mk path .static [] false (some h) full 1)
      else
        match newBranch fuel after full h with
        | .error e => .error e
        | .ok b => .ok (mk (path.takeWhile (fun c => !isWild c)) .static [b] true none full 1)

/-- Modelled from the spec: the relocation step of `insert`.  The child `c`
that was just touched stood after `pre` and before `post`; with `reorder` it
moves in front of the siblings right before it whose priority is lower, which
keeps the children in descending priority order and leaves ties in place.
Without `reorder` the children keep their insertion order. -/
def relocate (reorder : Bool) (pre : List (Node H)) (c : Node H) (post : List (Node H)) :
    List (Node H) :=
  if reorder then
    pre.rdropWhile (fun s => s.priority < c.priority) ++
      c :: (pre.rtakeWhile (fun s => s.priority < c.priority) ++ post)
  else pre ++ c :: post

/-- Whether the only child is a catch-all node. -/
def catchAllChild : List (Node H) → Bool
  | [c] => c.kind == .catchAll
  | _ => false

mutual
/-- Modelled from the spec: `insert(path, handler)` of `tree.go` on the node
that covers `path` from its first byte on.  It follows the longest common
prefix, splits a static edge the path leaves midway, descends into the child
that starts with the next byte, and fails on a wildcard that would share its
parent with other children, on a wildcard with another name in the same
position, and on a second handler for one path.  A catch-all matches what is
left of a path, also nothing, so it excludes a handler on its parent.  The
priority of every node passed is incremented; `reorder` selects the relocation
of the touched child (the router uses `true`). -/
def insert (reorder : Bool) : Node H → GoString → GoString → H → Except InsertError (Node H)
  | mk seg kind children wild handler fullPath prio, path, full, h =>
    let i := commonPrefixLen path seg
    let rest := path.drop i
    if kind = .static ∧ i < seg.length then
      -- the path leaves a static edge midway: split it at `i`
      let old := mk (seg.drop i) .static children wild handler fullPath prio
      if rest = [] then .ok (mk (seg.take i) .static [old] false (some h) full (prio + 1))
      else if rest.head?.any isWild then .error .wildcardConflict
      else
        match newBranch (rest.length + 1) rest full h with
        | .error e => .error e
        | .ok b => .ok (mk (seg.take i) .static [old, b] false none full (prio + 1))
    else if kind = .catchAll ∨ i < seg.length ∨ (kind = .param ∧ rest.head?.any notSlash) then
      -- a wildcard is already registered here and the path does not go through it
      .error .wildcardConflict
    else if rest = [] then
      if handler.isSome then .error .handlerExists
      else if catchAllChild children then .error .wildcardConflict
      else .ok (mk seg kind children wild (some h) full (prio + 1))
    else if wild then
      match insertWild reorder children rest full h with
      | .error e => .error e
      | .ok cs => .ok (mk seg kind cs wild handler fullPath (prio + 1))
    else if rest.head?.any isWild then
      if children.isEmpty ∧ ¬ (rest.head? = some '*' ∧ handler.isSome) then
        match newBranch (rest.length + 1) rest full h with
        | .error e => .error e
        | .ok b => .ok (mk seg kind [b] true handler fullPath (prio + 1))
      else .error .wildcardConflict
    else
      match insertChild reorder children [] rest full h with
      | .error e => .error e
      | .ok (some cs) => .ok (mk seg kind cs wild handler fullPath (prio + 1))
      | .ok none =>
        match newBranch (rest.length + 1) rest full h with
        | .error e => .error e
        | .ok b => .ok (mk seg kind (children ++ [b]) wild handler fullPath (prio + 1))
/-- The descent of `insert` into the wildcard child of a node. -/
def insertWild (reorder : Bool) :
    List (Node H) → GoString → GoString → H → Except InsertError (List (Node H))
  | [c], rest, full, h =>
    match insert reorder c rest full h with
    | .error e => .error e
    | .ok c1 => .ok [c1]
  | _, _, _, _ => .error .wildcardConflict
/-- The descent of `insert` into the static child that starts with the next
byte of the path; `pre` holds the children already passed.  The result is
`none` when no child starts with that byte. -/
def insertChild (reorder : Bool) :
    List (Node H) → List (Node H) → GoString → GoString → H →
      Except InsertError (Option (List (Node H)))
  | [], _, _, _, _ => .ok none
  | c :: cs, pre, rest, full, h =>
    if c.segment.head? = rest.head? then
      match insert reorder c rest full h with
      | .error e => .error e
      | .ok c1 => .ok (some (relocate reorder pre c1 cs))
    else insertChild reorder cs (pre ++ [c]) rest full h
end

mutual
/-- Modelled from the spec: the walk of `match(path)` in `tree.go`.  A static
node consumes its segment byte by byte, a param node a non-empty value up to
the next `/`, a catch-all node what is left; every captured value is appended
to the Params.  The walk ends at the node where the path is used up, if that
node has a handler. -/
def walk : Node H → GoString → Params → Option (H × Params)
  | mk seg kind children wild handler _ _, path, ps =>
    match kind with
    | .static =>
      if seg.isPrefixOf path then
        let rest := path.drop seg.length
        if rest = [] ∧ handler.isSome then handler.map (fun h => (h, ps))
        else walkChildren wild children rest ps
      else none
    | .param =>
      let value := path.takeWhile notSlash
      let rest := path.dropWhile notSlash
      if value = [] then none
      else
        let ps1 := ps ++ [⟨seg.drop 1, value⟩]
        if rest = [] ∧ handler.isSome then handler.map (fun h => (h, ps1))
        else walkChildren wild children rest ps1
    | .catchAll => handler.map (fun h => (h, ps ++ [⟨seg.drop 1, path⟩]))
/-- The probe of the children of a node: the wildcard child if `wild`, else the
first static child that starts with the next byte of the path. -/
def walkChildren : Bool → List (Node H) → GoString → Params → Option (H × Params)
  | _, [], _, _ => none
  | wild, c :: cs, path, ps =>
    if wild || c.segment.head? == path.head? then walk c path ps
    else walkChildren wild cs path ps
end

/-- The path with its trailing slash removed if it ends in one, added
otherwise. -/
def toggleSlash (path : GoString) : GoString :=
  if path.getLast? = some '/' then path.dropLast else path ++ ['/']

/-- Modelled from the spec: `match(path)` of `tree.go`, returning the handler,
the Params and `tsr`.  `tsr` is set when no handler is found and the path with
its trailing slash added or removed matches. -/
def matchPath (n : Node H) (path : GoString) : Option H × Params × Bool :=
  match walk n path [] with
  | some (h, ps) => (some h, ps, false)
  | none => (none, [], (walk n (toggleSlash path) []).isSome)

end Node

/-! ## The router -/

/-- Modelled from the spec: the `Router` of `router.go`, which is not among the
sources (section 3): one root node per method, the three switches, the
optional handlers (`G` is the type of plain HTTP handlers), and the `JwtConf`
that `jwt.go` reads. -/
structure Router (H G : Type) where
  trees : List (GoString × Node H)
  RedirectTrailingSlash : Bool
  RedirectFixedPath : Bool
  HandleOPTIONS : Bool
  NotFound : Option G
  MethodNotAllowed : Option G
  JwtConf : JwtConfig

/-- Modelled from the spec: `New(conf)` of `router.go`; a router without
routes, every switch enabled. -/
def New {H G : Type} (conf : JwtConfig) : Router H G :=
  { trees := [], RedirectTrailingSlash := true, RedirectFixedPath := true,
    HandleOPTIONS := true, NotFound := none, MethodNotAllowed := none, JwtConf := conf }

/-- The root node of a method, `none` when the method has no routes. -/
def root? {H : Type} : List (GoString × Node H) → GoString → Option (Node H)
  | [], _ => none
  | (m, n) :: rest, method => if m = method then some n else root? rest method

/-- The trees with the root of `method` replaced by `n`, or added at the end
when the method had none. -/
def setRoot {H : Type} : List (GoString × Node H) → GoString → Node H → List (GoString × Node H)
  | [], method, n => [(method, n)]
  | (m, old) :: rest, method, n =>
    if m = method then (m, n) :: rest else (m, old) :: setRoot rest method n

namespace Router

variable {H G : Type}

/-- Modelled from the spec: `Handle(method, path, handler)` of `router.go`.
The path must start with `/` and the handler must not be nil; the root of the
method is created on first use. -/
def Handle (r : Router H G) (method path : GoString) (handle : Option H) :
    Except InsertError (Router H G) :=
  if path.head? ≠ some '/' then .error .noLeadingSlash
  else
    match handle with
    | none => .error .nilHandler
    | some h =>
      match root? r.trees method with
      | none =>
        match Node.newBranch (path.length + 1) path path h with
        | .error e => .error e
        | .ok n => .ok { r with trees := setRoot r.trees method n }
      | some n =>
        match n.insert true path path h with
        | .error e => .error e
        | .ok n1 => .ok { r with trees := setRoot r.trees method n1 }

/-- Modelled from the spec: `Lookup(method, path)` of `router.go`; the match
in the tree of the method and nothing else. -/
def Lookup (r : Router H G) (method path : GoString) : Option H × Params × Bool :=
  match root? r.trees method with
  | none => (none, [], false)
  | some n => n.matchPath path

/-- The methods other than `reqMethod` that have a handler for `path`, in the
order of the trees. -/
def others (r : Router H G) (path reqMethod : GoString) : List GoString :=
  (r.trees.filter (fun t => t.1 ≠ reqMethod ∧ (t.2.matchPath path).1.isSome)).map Prod.fst

/-- The methods of an Allow header: `ms` without OPTIONS, then OPTIONS. -/
def allowList (ms : List GoString) : List GoString :=
  ms.filter (fun m => m ≠ "OPTIONS".toList) ++ ["OPTIONS".toList]

/-- The value of an Allow header: the methods joined by a comma and a space. -/
def allowHeader (ms : List GoString) : GoString :=
  ", ".toList.intercalate (allowList ms)

/-- The redirect status: 301 for GET and HEAD, 307 for every other method. -/
def redirectCode (method : GoString) : Nat :=
  if method = "GET".toList ∨ method = "HEAD".toList then 301 else 307

end Router

/-- Modelled from the spec: the six outcomes of one request resolution
(section 4.2).  `matched` carries what the handler is invoked with, a
redirect its status and Location, the two Allow outcomes the header value;
`methodNotAllowed` also carries the configured handler that answers, if there
is one, and `notFound` the configured not-found handler. -/
inductive Outcome (H G C : Type)
  | matched (h : H) (ps : Params) (claims : C)
  | redirectTSR (code : Nat) (location : GoString)
  | redirectFixedCase (code : Nat) (location : GoString)
  | optionsHandled (allow : GoString)
  | methodNotAllowed (allow : GoString) (custom : Option G)
  | notFound (custom : Option G)

namespace Router

variable {H G : Type}

/-- The function `Router.jwt` of `jwt.go`: the claims of a request and the
error.  The calls of `log.Println` are not modelled. -/
def jwt {J E : Type} (env : Env J E) (router : Router H G) (r : Request) :
    Jwt J × Option (Error E) :=
  let token : Jwt J :=
    { UserId := [], ResourceAccess := none, RealmAccess := ⟨none⟩, Map := some [],
      Impersonate := [] }
  let auth := r.Header.Get "Authorization".toList
  let res : Jwt J × Option (Error E) :=
    if auth = [] then
      if router.JwtConf.ForceAuth then (token, some (.new "missing Authorization header"))
      else (token, none)
    else if router.JwtConf.PubRsa = [] then
      GetJWTPayload auth [env.intoMap, env.intoToken] token
    else
      GetJWTPayloadAndValidate env.parse auth router.JwtConf.PubRsa
        [env.intoMap, env.intoToken] token
  let err : Option (Error E) :=
    if res.2.isNone = true ∧ router.JwtConf.ForceUser = true ∧ res.1.UserId = [] then
      some (.new "missing user id")
    else res.2
  ({ res.1 with Impersonate := auth }, err)

/-- Modelled from the spec: `ServeHTTP` of `router.go`, the precedence of
section 4.2, step by step.  Step 2 names no switch, so `RedirectTrailingSlash`
is not consulted; steps 3 and 4 name theirs.  In step 5 every other method
with a handler for the path counts, and OPTIONS is listed once, at the end.
An OPTIONS request that finds no method to list falls through to not-found,
as `TestRouterOPTIONS` expects.  `fix` stands for the path cleanup followed by
`findCaseInsensitivePath` of `path.go` and `tree.go`, which are not modelled;
`claims` is the value the authentication step hands to the handler. -/
def ServeHTTP {C : Type} (fix : Node H → GoString → Option GoString) (claims : Request → C)
    (r : Router H G) (req : Request) : Outcome H G C :=
  let path := req.Path
  match r.Lookup req.Method path with
  | (some h, ps, _) => .matched h ps (claims req)
  | (none, _, tsr) =>
    if tsr = true ∧ req.Method ≠ "CONNECT".toList ∧ path ≠ "/".toList then
      .redirectTSR (redirectCode req.Method) (Node.toggleSlash path)
    else
      match (if r.RedirectFixedPath then (root? r.trees req.Method).bind (fun n => fix n path)
             else none) with
      | some fixed => .redirectFixedCase (redirectCode req.Method) fixed
      | none =>
        if req.Method = "OPTIONS".toList ∧ r.HandleOPTIONS = true then
          let ms :=
            if path = "*".toList then r.trees.map Prod.fst else r.others path req.Method
          if ms.filter (fun m => m ≠ "OPTIONS".toList) = [] then .notFound r.NotFound
          else .optionsHandled (allowHeader ms)
        else if r.others path req.Method = [] then .notFound r.NotFound
        else .methodNotAllowed (allowHeader (r.others path req.Method)) r.MethodNotAllowed

end Router

/-! ## Definitions used to state the properties -/

namespace base64

/-- The text without its trailing padding characters, as `strings.TrimRight(s, "=")`
gives it. -/
def stripPadding (s : GoString) : GoString := s.rdropWhile (fun c => c == '=')

end base64

/-- The claims value `Router.jwt` starts from: nothing set, `Map` an empty
map. -/
def emptyClaims (J : Type) : Jwt J :=
  { UserId := [], ResourceAccess := none, RealmAccess := ⟨none⟩, Map := some [],
    Impersonate := [] }

/-- The request carries no Authorization header. -/
def Request.noAuthorization (r : Request) : Prop :=
  ∀ kv ∈ r.Header, kv.1 ≠ "Authorization".toList

/-- A library environment whose calls all succeed without effect. -/
def idleEnv : Env Unit Unit :=
  { unmarshalMap := fun _ m => (m, none), unmarshalFields := fun _ f => (f, none),
    parse := fun _ _ => .ok none }

/-- A request without headers. -/
def bareRequest : Request := { Method := "GET".toList, Path := "/".toList, Header := [] }

/-- A router without routes that requires a user id but no authentication. -/
def userOnlyRouter : Router Unit Unit := New { PubRsa := [], ForceAuth := false, ForceUser := true }

/-- A router without routes that requires authentication. -/
def authRouter : Router Unit Unit := New { PubRsa := [], ForceAuth := true, ForceUser := false }

/-- A router without routes and without requirements. -/
def openRouter : Router Unit Unit := New { PubRsa := [], ForceAuth := false, ForceUser := false }

/-- One registration: a method, a pattern and a handler. -/
structure Route (H : Type) where
  method : GoString
  pattern : GoString
  handler : H

/-- The router after registering the routes in turn with `Handle`, or the
first registration failure. -/
def Router.register {H G : Type} (r : Router H G) : List (Route H) → Except InsertError (Router H G)
  | [] => .ok r
  | rt :: rest =>
    match r.Handle rt.method rt.pattern (some rt.handler) with
    | .error e => .error e
    | .ok r1 => Router.register r1 rest

/-- The router that `register` builds from `New`, and the empty router if a
registration fails. -/
def routerOf (routes : List (Route Nat)) : Router Nat Unit :=
  match (New { PubRsa := [], ForceAuth := false, ForceUser := false }).register routes with
  | .ok r => r
  | .error _ => New { PubRsa := [], ForceAuth := false, ForceUser := false }

/-- The routes of `TestRouterNotFound`, with the handlers numbered. -/
def pathRoutes : List (Route Nat) :=
  [⟨"GET".toList, "/path".toList, 1⟩, ⟨"GET".toList, "/dir/".toList, 2⟩,
    ⟨"GET".toList, "/".toList, 3⟩, ⟨"PATCH".toList, "/path".toList, 4⟩]

/-- The route of `TestRouterLookup`. -/
def userRoutes : List (Route Nat) := [⟨"GET".toList, "/user/:name".toList, 1⟩]

/-- The route of `TestRouterLookup` and a catch-all route. -/
def wildcardRoutes : List (Route Nat) :=
  [⟨"GET".toList, "/user/:name".toList, 1⟩, ⟨"GET".toList, "/src/*filepath".toList, 2⟩]

/-- The routes of `TestRouterNotAllowed`. -/
def notAllowedRoutes : List (Route Nat) :=
  [⟨"POST".toList, "/path".toList, 1⟩, ⟨"DELETE".toList, "/path".toList, 2⟩,
    ⟨"OPTIONS".toList, "/path".toList, 3⟩]

/-- A request with a method and a path and no headers. -/
def request (method path : String) : Request :=
  { Method := method.toList, Path := path.toList, Header := [] }

/-- No path correction: `findCaseInsensitivePath` finds nothing. -/
def noFix : Node Nat → GoString → Option GoString := fun _ _ => none

/-! ## Definitions used to state the properties of the tree -/

/-- The path `q` is obtained from the pattern `p` by copying the literal
bytes, replacing each `:name` token by a non-empty value without `/`, and a
`*name` token, which ends the pattern, by what is left of the path; `ps`
holds the substitutions from left to right. -/
inductive Instantiates : GoString → GoString → Params → Prop
  | done : Instantiates [] [] []
  | literal (c : Char) (p q : GoString) (ps : Params) :
      Node.isWild c = false → Instantiates p q ps → Instantiates (c :: p) (c :: q) ps
  | param (p v q : GoString) (ps : Params) :
      v ≠ [] → '/' ∉ v → Instantiates (p.dropWhile Node.notSlash) q ps →
      Instantiates (':' :: p) (v ++ q) (⟨p.takeWhile Node.notSlash, v⟩ :: ps)
  | catchAll (name v : GoString) : Instantiates ('*' :: name) v [⟨name, v⟩]

namespace Node

variable {H : Type}

/-- The first byte of the segment of a node. -/
def first (n : Node H) : Option Char := n.segment.head?

/-- The shape of the trees that `insert` builds: static segments hold no
wildcard byte, a param segment is `:name` without a separator, a node with
`wildChild` has one child, which is a wildcard node, the children of every
other node are static with non-empty segments, the children start with
different bytes, and a handler does not share a node with a catch-all
child. -/
inductive WF : Node H → Prop
  | mk (seg : GoString) (kind : NodeKind) (cs : List (Node H)) (wild : Bool) (hd : Option H)
      (fp : GoString) (prio : Nat) :
      (kind = .static → ∀ ch ∈ seg, isWild ch = false) →
      (kind = .param → seg.head? = some ':' ∧ '/' ∉ seg) →
      (wild = true → ∃ c, cs = [c] ∧ c.kind ≠ .static) →
      (wild = false → ∀ c ∈ cs, c.kind = .static ∧ c.segment ≠ []) →
      (cs.map first).Nodup →
      ¬ (hd.isSome = true ∧ catchAllChild cs = true) →
      (∀ c ∈ cs, WF c) →
      WF (mk seg kind cs wild hd fp prio)

/-- What a node consumes of a path before it looks at its handler and its
children: the rest of the path and the Params so far; `none` when the node
does not match.  A catch-all node consumes everything and has no rest. -/
def consume (seg : GoString) (kind : NodeKind) (path : GoString) (ps : Params) :
    Option (GoString × Params) :=
  match kind with
  | .static => if seg.isPrefixOf path then some (path.drop seg.length, ps) else none
  | .param =>
    if path.takeWhile notSlash = [] then none
    else some (path.dropWhile notSlash, ps ++ [⟨seg.drop 1, path.takeWhile notSlash⟩])
  | .catchAll => none

/-- The end of the walk at a node, after the node has consumed its part: the
handler of the node if the path is used up, else the probe of the children. -/
def finish (wild : Bool) (cs : List (Node H)) (hd : Option H) (rest : GoString) (ps : Params) :
    Option (H × Params) :=
  if rest = [] ∧ hd.isSome then hd.map (fun h => (h, ps)) else walkChildren wild cs rest ps

/-- The two trees differ at most in the order of the children of their
nodes. -/
inductive Sim : Node H → Node H → Prop
  | mk (seg : GoString) (kind : NodeKind) (cs ds : List (Node H)) (wild : Bool) (hd : Option H)
      (fp : GoString) (prio : Nat) (R : Node H → Node H → Prop) :
      (∀ c d, R c d → Sim c d) →
      (∀ c ∈ cs, ∃ d ∈ ds, R c d) → (∀ d ∈ ds, ∃ c ∈ cs, R c d) →
      Sim (mk seg kind cs wild hd fp prio) (mk seg kind ds wild hd fp prio)

/-- The tree after inserting the patterns in turn, each with its handler. -/
def insertAll (reorder : Bool) (n : Node H) : List (GoString × H) → Except InsertError (Node H)
  | [] => .ok n
  | (p, h) :: rest =>
    match n.insert reorder p p h with
    | .error e => .error e
    | .ok n1 => insertAll reorder n1 rest

/-- One step of `insert` at a node with the given fields, by the case that
applies: the edge is split and the new node takes the handler or a new
branch, the node takes the handler, the insertion goes on in the wildcard
child or in the static child that starts with the next byte, or a new
wildcard or static child is added. -/
inductive InsertStep (b : Bool) (seg : GoString) (kind : NodeKind) (cs : List (Node H))
    (wild : Bool) (hd : Option H) (fp : GoString) (prio : Nat) (p full : GoString) (h : H) :
    Node H → Prop
  | splitHandler :
      kind = .static → commonPrefixLen p seg < seg.length → p.drop (commonPrefixLen p seg) = [] →
      InsertStep b seg kind cs wild hd fp prio p full h
        (mk (seg.take (commonPrefixLen p seg)) .static
          [mk (seg.drop (commonPrefixLen p seg)) .static cs wild hd fp prio] false (some h) full
          (prio + 1))
  | splitBranch (br : Node H) :
      kind = .static → commonPrefixLen p seg < seg.length → p.drop (commonPrefixLen p seg) ≠ [] →
      (p.drop (commonPrefixLen p seg)).head?.any isWild = false →
      newBranch ((p.drop (commonPrefixLen p seg)).length + 1) (p.drop (commonPrefixLen p seg))
        full h = .ok br →
      InsertStep b seg kind cs wild hd fp prio p full h
        (mk (seg.take (commonPrefixLen p seg)) .static
          [mk (seg.drop (commonPrefixLen p seg)) .static cs wild hd fp prio, br] false none full
          (prio + 1))
  | setHandler :
      kind ≠ .catchAll → commonPrefixLen p seg = seg.length →
      ¬ (kind = .param ∧ (p.drop seg.length).head?.any notSlash = true) →
      p.drop seg.length = [] → hd = none → catchAllChild cs = false →
      InsertStep b seg kind cs wild hd fp prio p full h
        (mk seg kind cs wild (some h) full (prio + 1))
  | intoWild (c c1 : Node H) :
      kind ≠ .catchAll → commonPrefixLen p seg = seg.length →
      ¬ (kind = .param ∧ (p.drop seg.length).head?.any notSlash = true) →
      p.drop seg.length ≠ [] → wild = true → cs = [c] →
      insert b c (p.drop seg.length) full h = .ok c1 →
      InsertStep b seg kind cs wild hd fp prio p full h
        (mk seg kind [c1] wild hd fp (prio + 1))
  | newWild (br : Node H) :
      kind ≠ .catchAll → commonPrefixLen p seg = seg.length →
      ¬ (kind = .param ∧ (p.drop seg.length).head?.any notSlash = true) →
      p.drop seg.length ≠ [] → wild = false →
      (p.drop seg.length).head?.any isWild = true → cs = [] →
      ¬ ((p.drop seg.length).head? = some '*' ∧ hd.isSome = true) →
      newBranch ((p.drop seg.length).length + 1) (p.drop seg.length) full h = .ok br →
      InsertStep b seg kind cs wild hd fp prio p full h
        (mk seg kind [br] true hd fp (prio + 1))
  | intoChild (l : List (Node H)) (c : Node H) (r : List (Node H)) (c1 : Node H) :
      kind ≠ .catchAll → commonPrefixLen p seg = seg.length →
      ¬ (kind = .param ∧ (p.drop seg.length).head?.any notSlash = true) →
      p.drop seg.length ≠ [] → wild = false →
      (p.drop seg.length).head?.any isWild = false →
      cs = l ++ c :: r → (∀ a ∈ l, a.first ≠ (p.drop seg.length).head?) →
      c.first = (p.drop seg.length).head? →
      insert b c (p.drop seg.length) full h = .ok c1 →
      InsertStep b seg kind cs wild hd fp prio p full h
        (mk seg kind (relocate b l c1 r) wild hd fp (prio + 1))
  | newChild (br : Node H) :
      kind ≠ .catchAll → commonPrefixLen p seg = seg.length →
      ¬ (kind = .param ∧ (p.drop seg.length).head?.any notSlash = true) →
      p.drop seg.length ≠ [] → wild = false →
      (p.drop seg.length).head?.any isWild = false →
      (∀ a ∈ cs, a.first ≠ (p.drop seg.length).head?) →
      newBranch ((p.drop seg.length).length + 1) (p.drop seg.length) full h = .ok br →
      InsertStep b seg kind cs wild hd fp prio p full h
        (mk seg kind (cs ++ [br]) wild hd fp (prio + 1))

end Node

/-- Every root is well formed, and every route of `done` is matched by the
root of its method at every instance of its pattern. -/
def Router.Serves {H G : Type} (r : Router H G) (done : List (Route H)) : Prop :=
  (∀ m n, root? r.trees m = some n → Node.WF n) ∧
  ∀ rt ∈ done, ∃ n, root? r.trees rt.method = some n ∧
    ∀ q ps acc, Instantiates rt.pattern q ps → Node.walk n q acc = some (rt.handler, acc ++ ps)

/-- The tree of a successful insertion, and an empty node for a failure. -/
def okOr (e : Except InsertError (Node Nat)) : Node Nat :=
  match e with
  | .ok n => n
  | .error _ => Node.mk [] .static [] false none [] 0

/-- The patterns `/b` and `/bx`, inserted after `/a`: the second insertion
raises the priority of the child `b` above that of its older sibling `a`. -/
def orderRoutes : List (GoString × Nat) := [("/b".toList, 2), ("/bx".toList, 3)]

/-- The tree that holds `/a` alone. -/
def orderRoot : Node Nat := okOr (Node.newBranch 3 "/a".toList "/a".toList 1)

/-- The tree with `/a`, `/b` and `/bx`, with or without the relocation. -/
def orderTree (reorder : Bool) : Node Nat := okOr (Node.insertAll reorder orderRoot orderRoutes)

/-! ## The claims step of `Router.jwt` and the impersonation calls -/

/-- The value of `token` and `err` in `Router.jwt` when the `if auth == ""`
statement is done, before the user id is checked. -/
def Router.credential {H G J E : Type} (env : Env J E) (router : Router H G) (r : Request) :
    Jwt J × Option (Error E) :=
  if r.Header.Get "Authorization".toList = [] then
    if router.JwtConf.ForceAuth then
      (emptyClaims J, some (.new "missing Authorization header"))
    else (emptyClaims J, none)
  else if router.JwtConf.PubRsa = [] then
    GetJWTPayload (r.Header.Get "Authorization".toList) [env.intoMap, env.intoToken]
      (emptyClaims J)
  else
    GetJWTPayloadAndValidate env.parse (r.Header.Get "Authorization".toList)
      router.JwtConf.PubRsa [env.intoMap, env.intoToken] (emptyClaims J)

/-- The claims without the `Impersonate` field. -/
def Jwt.decoded {J : Type} (t : Jwt J) : JwtFields × Option (List (GoString × J)) :=
  (⟨t.UserId, t.ResourceAccess, t.RealmAccess⟩, t.Map)

/-- The type `context.Context`, as far as `jwt.go` builds values of it:
`context.Background()` and `context.WithTimeout(parent, d)` with `d` in
seconds. -/
inductive Context
  | background
  | withTimeout (parent : Context) (seconds : Nat)
  deriving DecidableEq, Repr

/-- The method `Header.Set(key, value)`: the header gets the single value
`value`. -/
def Header.Set : Header → GoString → GoString → Header
  | [], key, value => [(key, [value])]
  | (k, vs) :: rest, key, value =>
    if k = key then (k, [value]) :: rest else (k, vs) :: Header.Set rest key value

/-- The parts of an outgoing `*http.Request`: method, URL, body (`none` is the
nil reader), headers and the context of the request. -/
structure ClientRequest (B : Type) where
  Method : GoString
  URL : GoString
  Body : Option B
  Header : Header
  ctx : Context
  deriving DecidableEq, Repr

/-- The method `(*http.Request).WithContext(ctx)` of `net/http`: it returns a
copy of the request with the context changed and leaves the request
itself as it is. -/
def ClientRequest.WithContext {B : Type} (r : ClientRequest B) (ctx : Context) :
    ClientRequest B :=
  { r with ctx := ctx }

/-- The parts of `*http.Response` that `jwt.go` reads. -/
structure Response where
  StatusCode : Nat
  Status : GoString
  Body : GoString
  deriving DecidableEq, Repr

/-- The pair `(resp, err)` that `http.Client.Do` returns: a response without
an error, or an error, with which a response may come (the client returns
both when its redirect policy fails). -/
inductive DoResult (E : Type)
  | ok (resp : Response)
  | failed (resp : Option Response) (err : E)

/-- The `net/http` calls of the impersonation methods, as parameters: the
error of `http.NewRequest` for a method and a URL (`none` when the request can
be made), and `http.DefaultClient.Do`. -/
structure HttpEnv (B E : Type) where
  newRequestError : GoString → GoString → Option E
  Do : ClientRequest B → DoResult E

/-- The function `http.NewRequest(method, url, body)`: a request without
headers whose context is the background context. -/
def HttpEnv.NewRequest {B E : Type} (env : HttpEnv B E) (method url : GoString)
    (body : Option B) : Except E (ClientRequest B) :=
  match env.newRequestError method url with
  | some e => .error e
  | none => .ok { Method := method, URL := url, Body := body, Header := [], ctx := .background }

/-- The end of `Post` and `Get`, after `resp, err = http.DefaultClient.Do(req)`:
when `err == nil` and the status is 300 or more the error becomes
`errors.New(resp.Status)`; in every other case the response and the error of
the client are returned as they are.  Reading and closing the body and the
call of `log.Println` are not modelled. -/
def respond {E : Type} (res : DoResult E) : Option Response × Option (Error E) :=
  match res with
  | .failed resp e => (resp, some (.lib e))
  | .ok resp =>
    if resp.StatusCode ≥ 300 then (some resp, some (.new (String.mk resp.Status)))
    else (some resp, none)

/-- The method `JwtImpersonate.Post(url, contentType, body)`.  The result of
`req.WithContext(ctx)` is dropped, as in the source; the statements that
follow work on `req`. -/
def JwtImpersonate.Post {B E : Type} (env : HttpEnv B E) (this : JwtImpersonate)
    (url contentType : GoString) (body : Option B) : Option Response × Option (Error E) :=
  match env.NewRequest "POST".toList url body with
  | .error e => (none, some (.lib e))
  | .ok req =>
    let ctx := Context.withTimeout .background 5
    let _ := req.WithContext ctx
    let req := { req with Header := req.Header.Set "Authorization".toList this }
    let req := { req with Header := req.Header.Set "Content-Type".toList contentType }
    respond (env.Do req)

/-- The method `JwtImpersonate.Get(url)`.  The result of
`req.WithContext(ctx)` is dropped, as in the source. -/
def JwtImpersonate.Get {B E : Type} (env : HttpEnv B E) (this : JwtImpersonate)
    (url : GoString) : Option Response × Option (Error E) :=
  match env.NewRequest "GET".toList url none with
  | .error e => (none, some (.lib e))
  | .ok req =>
    let ctx := Context.withTimeout .background 5
    let _ := req.WithContext ctx
    let req := { req with Header := req.Header.Set "Authorization".toList this }
    respond (env.Do req)

/-- A client that makes every request and answers with the request it was
handed, as the error of `Do`. -/
def echoClient : HttpEnv Unit (ClientRequest Unit) :=
  { newRequestError := fun _ _ => none, Do := fun req => .failed none req }

/-- A GET request for `/` whose Authorization header is `auth`. -/
def authRequest (auth : String) : Request :=
  { Method := "GET".toList, Path := "/".toList,
    Header := [("Authorization".toList, [auth.toList])] }

/-- A target that appends the bytes it is given to a list and does not
fail. -/
def recordTarget : Target (List Bytes) Unit := fun b s => (s ++ [b], none)

/-- A target that fails and leaves the list as it is. -/
def failTarget : Target (List Bytes) Unit := fun _ s => (s, some ())

/-! ## Lemmas: base64 -/

namespace base64

theorem sextet_facts : ∀ i : Fin 64, decodeSextet (encodeSextet i) = some i.val ∧
    encodeSextet i ≠ '=' ∧ isLineBreak (encodeSextet i) = false := by
  decide

theorem decodeSextet_encodeSextet {v : Nat} (h : v < 64) :
    decodeSextet (encodeSextet v) = some v := (sextet_facts ⟨v, h⟩).1

theorem encodeSextet_ne_pad {v : Nat} (h : v < 64) : encodeSextet v ≠ '=' :=
  (sextet_facts ⟨v, h⟩).2.1

theorem filter_keep_sextet {v : Nat} (h : v < 64) (l : GoString) :
    (encodeSextet v :: l).filter (fun c => !isLineBreak c)
      = encodeSextet v :: l.filter (fun c => !isLineBreak c) := by
  have h1 : isLineBreak (encodeSextet v) = false := (sextet_facts ⟨v, h⟩).2.2
  simp [List.filter_cons, h1]

theorem filter_EncodeToString (b : Bytes) :
    (EncodeToString b).filter (fun c => !isLineBreak c) = EncodeToString b := by
  have h64 : ∀ n : Nat, n % 64 < 64 := fun n => Nat.mod_lt _ (by decide)
  induction b using EncodeToString.induct with
  | case1 => rfl
  | case2 x =>
    simp only [EncodeToString, padChar, filter_keep_sextet (h64 _)]
    rfl
  | case3 x y =>
    simp only [EncodeToString, padChar, filter_keep_sextet (h64 _)]
    rfl
  | case4 x y z rest ih =>
    simp only [EncodeToString, filter_keep_sextet (h64 _), ih]

theorem decodeQuanta_EncodeToString (b : Bytes) (hb : ∀ x ∈ b, x < 256) :
    decodeQuanta (EncodeToString b) = .ok b := by
  induction b using EncodeToString.induct with
  | case1 => rfl
  | case2 x =>
    have hx : x < 256 := hb x (by simp)
    simp only [EncodeToString, decodeQuanta, padChar,
      decodeSextet_encodeSextet (Nat.mod_lt _ (by decide : 64 > 0)), and_self, if_true]
    congr 2
    omega
  | case3 x y =>
    have hx : x < 256 := hb x (by simp)
    have hy : y < 256 := hb y (by simp)
    simp only [EncodeToString, decodeQuanta, padChar,
      decodeSextet_encodeSextet (Nat.mod_lt _ (by decide : 64 > 0)),
      encodeSextet_ne_pad (Nat.mod_lt _ (by decide : 64 > 0)), if_false, if_true]
    congr 2
    · omega
    · congr 1; omega
  | case4 x y z rest ih =>
    have hx : x < 256 := hb x (by simp)
    have hy : y < 256 := hb y (by simp)
    have hz : z < 256 := hb z (by simp)
    have hr : ∀ w ∈ rest, w < 256 := fun w hw => hb w (by simp [hw])
    simp only [EncodeToString, decodeQuanta, padChar,
      decodeSextet_encodeSextet (Nat.mod_lt _ (by decide : 64 > 0)),
      encodeSextet_ne_pad (Nat.mod_lt _ (by decide : 64 > 0)), if_false, ih hr]
    congr 2
    · omega
    · congr 1
      · omega
      · congr 1; omega

theorem DecodeString_EncodeToString (b : Bytes) (hb : ∀ x ∈ b, x < 256) :
    DecodeString (EncodeToString b) = .ok b := by
  unfold DecodeString
  rw [filter_EncodeToString, decodeQuanta_EncodeToString b hb]

theorem stripPadding_cons (a : Char) (l : GoString) (h : a ≠ '=' ∨ stripPadding l ≠ []) :
    stripPadding (a :: l) = a :: stripPadding l := by
  unfold stripPadding List.rdropWhile at *
  rw [List.reverse_cons, List.dropWhile_append]
  by_cases h0 : (List.dropWhile (fun c => c == '=') l.reverse).isEmpty = true
  · have h1 : List.dropWhile (fun c => c == '=') l.reverse = [] := List.isEmpty_iff.mp h0
    rw [h1] at h
    have ha : a ≠ '=' := by
      rcases h with h | h
      · exact h
      · exact absurd rfl h
    simp [h1, List.dropWhile_cons, ha]
  · simp [h0]

end base64

theorem padSegment_quad (a b c d : Char) (l : GoString) :
    padSegment (a :: b :: c :: d :: l) = a :: b :: c :: d :: padSegment l := by
  have e : (a :: b :: c :: d :: l).length % 4 = l.length % 4 := by
    simp only [List.length_cons]; omega
  unfold padSegment
  rw [e]
  split <;> rfl

theorem padSegment_stripPadding (b : Bytes) :
    padSegment (base64.stripPadding (base64.EncodeToString b)) = base64.EncodeToString b := by
  have h64 : ∀ n : Nat, n % 64 < 64 := fun n => Nat.mod_lt _ (by decide)
  induction b using base64.EncodeToString.induct with
  | case1 => rfl
  | case2 x =>
    simp only [base64.EncodeToString, base64.padChar]
    have e : base64.stripPadding ['=', '='] = [] := by decide
    rw [base64.stripPadding_cons _ _ (Or.inl (base64.encodeSextet_ne_pad (h64 _))),
      base64.stripPadding_cons _ _ (Or.inl (base64.encodeSextet_ne_pad (h64 _))), e]
    rfl
  | case3 x y =>
    simp only [base64.EncodeToString, base64.padChar]
    have e : base64.stripPadding ['='] = [] := by decide
    rw [base64.stripPadding_cons _ _ (Or.inl (base64.encodeSextet_ne_pad (h64 _))),
      base64.stripPadding_cons _ _ (Or.inl (base64.encodeSextet_ne_pad (h64 _))),
      base64.stripPadding_cons _ _ (Or.inl (base64.encodeSextet_ne_pad (h64 _))), e]
    rfl
  | case4 x y z rest ih =>
    simp only [base64.EncodeToString]
    rw [base64.stripPadding_cons _ _ (Or.inl (base64.encodeSextet_ne_pad (h64 _))),
      base64.stripPadding_cons _ _ (Or.inl (base64.encodeSextet_ne_pad (h64 _))),
      base64.stripPadding_cons _ _ (Or.inl (base64.encodeSextet_ne_pad (h64 _))),
      base64.stripPadding_cons _ _ (Or.inl (base64.encodeSextet_ne_pad (h64 _))),
      padSegment_quad, ih]

theorem padSegment_length (seg : GoString) :
    (padSegment seg).length % 4 = 0 ∧ seg.length ≤ (padSegment seg).length ∧
      (padSegment seg).length < seg.length + 4 := by
  unfold padSegment
  split
  · simp only [List.length_append, List.length_replicate]; omega
  · omega

/-! ## Lemmas: `Split` and `GetJWTPayload` -/

theorem Split_ne_nil (s : GoString) (sep : Char) : Split s sep ≠ [] := by
  induction s with
  | nil => simp [Split]
  | cons c cs ih =>
    unfold Split
    split
    · simp
    · split <;> simp

theorem Split_length (s : GoString) (sep : Char) :
    (Split s sep).length = s.count sep + 1 := by
  induction s with
  | nil => simp [Split]
  | cons c cs ih =>
    unfold Split
    by_cases h : c = sep
    · subst h
      simp [ih]
    · rw [if_neg h, List.count_cons_of_ne (fun e => h e.symm)]
      split
      · rename_i h0; exact absurd h0 (Split_ne_nil cs sep)
      · rename_i p ps h0
        rw [h0] at ih
        simpa using ih

theorem Split_of_not_mem (s : GoString) (sep : Char) (h : sep ∉ s) : Split s sep = [s] := by
  induction s with
  | nil => rfl
  | cons c cs ih =>
    have hc : c ≠ sep := fun e => h (by simp [e])
    have hcs : sep ∉ cs := fun e => h (by simp [e])
    unfold Split
    rw [if_neg hc, ih hcs]

theorem Split_append (a t : GoString) (sep : Char) (h : sep ∉ a) :
    Split (a ++ sep :: t) sep = a :: Split t sep := by
  induction a with
  | nil => simp [Split]
  | cons c cs ih =>
    have hc : c ≠ sep := fun e => h (by simp [e])
    have hcs : sep ∉ cs := fun e => h (by simp [e])
    rw [List.cons_append, Split, if_neg hc, ih hcs]

theorem exists_split_of_count (c : Char) (l : GoString) (n : Nat) (h : l.count c = n + 1) :
    ∃ a t : GoString, l = a ++ c :: t ∧ c ∉ a ∧ t.count c = n := by
  induction l with
  | nil => simp at h
  | cons x xs ih =>
    by_cases hx : x = c
    · subst hx
      refine ⟨[], xs, rfl, by simp, ?_⟩
      simpa using h
    · rw [List.count_cons_of_ne (fun e => hx e.symm)] at h
      obtain ⟨a, t, e, ha, ht⟩ := ih h
      refine ⟨x :: a, t, by rw [e]; rfl, ?_, ht⟩
      intro hm
      rcases List.mem_cons.mp hm with h1 | h1
      · exact hx h1.symm
      · exact ha h1

theorem unmarshalEach_not_new {σ E : Type} (b : Bytes) (results : List (Target σ E)) (s : σ)
    (text : String) : (unmarshalEach b results s).2 ≠ some (.new text) := by
  induction results generalizing s with
  | nil => simp [unmarshalEach]
  | cons r rs ih =>
    unfold unmarshalEach
    split
    · simp
    · exact ih _

theorem DecodeJWTSegment_not_new {σ E : Type} (seg : GoString) (results : List (Target σ E))
    (s : σ) (text : String) : (DecodeJWTSegment seg results s).2 ≠ some (.new text) := by
  unfold DecodeJWTSegment
  split
  · simp
  · exact unmarshalEach_not_new _ _ _ _

theorem Header_Get_of_absent (h : Header) (key : GoString) (habs : ∀ kv ∈ h, kv.1 ≠ key) :
    Header.Get h key = [] := by
  induction h with
  | nil => rfl
  | cons kv rest ih =>
    obtain ⟨k, vs⟩ := kv
    have hk : k ≠ key := habs (k, vs) (by simp)
    unfold Header.Get
    rw [if_neg hk]
    exact ih (fun kv hkv => habs kv (by simp [hkv]))

/-! ## Lemmas: the steps of `insert` -/

namespace Node

variable {H : Type}

theorem commonPrefixLen_le_right (p seg : GoString) : commonPrefixLen p seg ≤ seg.length := by
  induction p generalizing seg with
  | nil => simp [commonPrefixLen]
  | cons a as ih =>
    cases seg with
    | nil => simp [commonPrefixLen]
    | cons b bs =>
      unfold commonPrefixLen
      split
      · simpa using ih bs
      · simp

theorem insertChild_some (b : Bool) (cs pre : List (Node H)) (rest full : GoString) (h : H)
    (out : List (Node H)) (hi : insertChild b cs pre rest full h = .ok (some out)) :
    ∃ l c r c1, cs = l ++ c :: r ∧ (∀ a ∈ l, a.first ≠ rest.head?) ∧ c.first = rest.head? ∧
      insert b c rest full h = .ok c1 ∧ out = relocate b (pre ++ l) c1 r := by
  induction cs generalizing pre with
  | nil => simp [insertChild] at hi
  | cons c cs ih =>
    unfold insertChild at hi
    by_cases hc : c.segment.head? = rest.head?
    · rw [if_pos hc] at hi
      cases hins : insert b c rest full h with
      | error e => rw [hins] at hi; cases hi
      | ok c1 =>
        rw [hins] at hi
        simp only [Except.ok.injEq, Option.some.injEq] at hi
        exact ⟨[], c, cs, c1, rfl, by simp, hc, hins, by simp [hi]⟩
    · rw [if_neg hc] at hi
      obtain ⟨l, c0, r, c1, e, hl, hc0, hins, hout⟩ := ih (pre ++ [c]) hi
      refine ⟨c :: l, c0, r, c1, by rw [e]; rfl, ?_, hc0, hins, by simp [hout]⟩
      intro a ha
      rcases List.mem_cons.mp ha with h1 | h1
      · subst h1; exact hc
      · exact hl a h1

theorem insertChild_none (b : Bool) (cs pre : List (Node H)) (rest full : GoString) (h : H)
    (hi : insertChild b cs pre rest full h = .ok none) : ∀ a ∈ cs, a.first ≠ rest.head? := by
  induction cs generalizing pre with
  | nil => simp
  | cons c cs ih =>
    unfold insertChild at hi
    by_cases hc : c.segment.head? = rest.head?
    · rw [if_pos hc] at hi
      cases hins : insert b c rest full h with
      | error e => rw [hins] at hi; cases hi
      | ok c1 => rw [hins] at hi; cases hi
    · rw [if_neg hc] at hi
      intro a ha
      rcases List.mem_cons.mp ha with h1 | h1
      · subst h1; exact hc
      · exact ih (pre ++ [c]) hi a h1

theorem insertChild_of_split (b : Bool) (l : List (Node H)) (c : Node H) (r pre : List (Node H))
    (rest full : GoString) (h : H) (c1 : Node H) (hl : ∀ a ∈ l, a.first ≠ rest.head?)
    (hc : c.first = rest.head?) (hins : insert b c rest full h = .ok c1) :
    insertChild b (l ++ c :: r) pre rest full h = .ok (some (relocate b (pre ++ l) c1 r)) := by
  have hc' : c.segment.head? = rest.head? := hc
  induction l generalizing pre with
  | nil =>
    rw [List.nil_append, insertChild, if_pos hc', hins]
    simp
  | cons a l ih =>
    have ha : ¬ a.segment.head? = rest.head? := hl a (by simp)
    rw [List.cons_append, insertChild, if_neg ha, ih (pre ++ [a]) (fun x hx => hl x (by simp [hx]))]
    simp

theorem insertChild_of_none (b : Bool) (cs pre : List (Node H)) (rest full : GoString) (h : H)
    (hcs : ∀ a ∈ cs, a.first ≠ rest.head?) : insertChild b cs pre rest full h = .ok none := by
  induction cs generalizing pre with
  | nil => rfl
  | cons a l ih =>
    have ha : ¬ a.segment.head? = rest.head? := hcs a (by simp)
    rw [insertChild, if_neg ha]
    exact ih (pre ++ [a]) (fun x hx => hcs x (by simp [hx]))

theorem insert_step (b : Bool) (seg : GoString) (kind : NodeKind) (cs : List (Node H))
    (wild : Bool) (hd : Option H) (fp : GoString) (prio : Nat) (p full : GoString) (h : H)
    (n1 : Node H) (hi : insert b (mk seg kind cs wild hd fp prio) p full h = .ok n1) :
    InsertStep b seg kind cs wild hd fp prio p full h n1 := by
  have hle := commonPrefixLen_le_right p seg
  unfold insert at hi
  simp only at hi
  split at hi
  · rename_i hsplit
    split at hi
    · rename_i hrest
      cases hi
      exact .splitHandler hsplit.1 hsplit.2 hrest
    · rename_i hrest
      split at hi
      · cases hi
      · rename_i hw
        split at hi
        · cases hi
        · rename_i br hbr
          cases hi
          exact .splitBranch br hsplit.1 hsplit.2 hrest (by simpa using hw) hbr
  · rename_i hsplit
    split at hi
    · cases hi
    · rename_i hcond
      have hk : kind ≠ .catchAll := fun e => hcond (Or.inl e)
      have hlen : commonPrefixLen p seg = seg.length :=
        Nat.le_antisymm hle (Nat.le_of_not_lt (fun e => hcond (Or.inr (Or.inl e))))
      rw [hlen] at hi
      have hpar : ¬ (kind = .param ∧ (p.drop seg.length).head?.any notSlash = true) := by
        intro e; apply hcond; right; right; rw [hlen]; exact e
      split at hi
      · rename_i hrest
        split at hi
        · cases hi
        · rename_i hhd
          split at hi
          · cases hi
          · rename_i hca
            cases hi
            exact .setHandler hk hlen hpar hrest (by simpa using hhd) (by simpa using hca)
      · rename_i hrest
        split at hi
        · rename_i hwild
          split at hi
          · cases hi
          · rename_i cs1 hcs1
            cases hi
            cases cs with
            | nil => simp [insertWild] at hcs1
            | cons c t =>
              cases t with
              | cons d t1 => simp [insertWild] at hcs1
              | nil =>
                simp only [insertWild] at hcs1
                split at hcs1
                · cases hcs1
                · rename_i c1 hc1
                  cases hcs1
                  exact .intoWild c c1 hk hlen hpar hrest hwild rfl hc1
        · rename_i hwild
          split at hi
          · rename_i hw
            split at hi
            · rename_i hcond2
              split at hi
              · cases hi
              · rename_i br hbr
                cases hi
                exact .newWild br hk hlen hpar hrest (by simpa using hwild) hw
                  (by simpa using hcond2.1) hcond2.2 hbr
            · cases hi
          · rename_i hw
            split at hi
            · cases hi
            · rename_i cs1 hcs1
              cases hi
              obtain ⟨l, c, r, c1, e, hl, hc, hins, hout⟩ :=
                insertChild_some b cs [] _ full h cs1 hcs1
              rw [hout, List.nil_append]
              exact .intoChild l c r c1 hk hlen hpar hrest (by simpa using hwild)
                (by simpa using hw) e hl hc hins
            · rename_i hnone
              split at hi
              · cases hi
              · rename_i br hbr
                cases hi
                exact .newChild br hk hlen hpar hrest (by simpa using hwild)
                  (by simpa using hw) (insertChild_none b cs [] _ full h hnone) hbr

theorem insert_of_step (b : Bool) (seg : GoString) (kind : NodeKind) (cs : List (Node H))
    (wild : Bool) (hd : Option H) (fp : GoString) (prio : Nat) (p full : GoString) (h : H)
    (n1 : Node H) (hs : InsertStep b seg kind cs wild hd fp prio p full h n1) :
    insert b (mk seg kind cs wild hd fp prio) p full h = .ok n1 := by
  unfold insert
  simp only
  cases hs with
  | splitHandler hk hlt hrest =>
    rw [if_pos ⟨hk, hlt⟩, if_pos hrest]
  | splitBranch br hk hlt hrest hw hbr =>
    rw [if_pos ⟨hk, hlt⟩, if_neg hrest, if_neg (by rw [hw]; decide), hbr]
  | setHandler hk hlen hpar hrest hhd hca =>
    rw [hlen]
    rw [if_neg (fun e => Nat.lt_irrefl _ e.2),
      if_neg (by rintro (e | e | e); exact hk e; exact Nat.lt_irrefl _ e; exact hpar e),
      if_pos hrest, hhd, hca]
    simp
  | intoWild c c1 hk hlen hpar hrest hwild hcs hins =>
    rw [hlen]
    rw [if_neg (fun e => Nat.lt_irrefl _ e.2),
      if_neg (by rintro (e | e | e); exact hk e; exact Nat.lt_irrefl _ e; exact hpar e),
      if_neg hrest, if_pos hwild, hcs, insertWild, hins]
  | newWild br hk hlen hpar hrest hwild hw hcs hcond hbr =>
    rw [hlen]
    rw [if_neg (fun e => Nat.lt_irrefl _ e.2),
      if_neg (by rintro (e | e | e); exact hk e; exact Nat.lt_irrefl _ e; exact hpar e),
      if_neg hrest, if_neg (by rw [hwild]; decide), if_pos hw, if_pos ⟨by rw [hcs]; rfl, hcond⟩, hbr]
  | intoChild l c r c1 hk hlen hpar hrest hwild hw hcs hl hc hins =>
    rw [hlen]
    rw [if_neg (fun e => Nat.lt_irrefl _ e.2),
      if_neg (by rintro (e | e | e); exact hk e; exact Nat.lt_irrefl _ e; exact hpar e),
      if_neg hrest, if_neg (by rw [hwild]; decide), if_neg (by rw [hw]; decide), hcs,
      insertChild_of_split b l c r [] _ full h c1 hl hc hins]
    simp
  | newChild br hk hlen hpar hrest hwild hw hcs hbr =>
    rw [hlen]
    rw [if_neg (fun e => Nat.lt_irrefl _ e.2),
      if_neg (by rintro (e | e | e); exact hk e; exact Nat.lt_irrefl _ e; exact hpar e),
      if_neg hrest, if_neg (by rw [hwild]; decide), if_neg (by rw [hw]; decide),
      insertChild_of_none b cs [] _ full h hcs, hbr]

theorem commonPrefixLen_take (p seg : GoString) :
    p.take (commonPrefixLen p seg) = seg.take (commonPrefixLen p seg) := by
  induction p generalizing seg with
  | nil => simp [commonPrefixLen]
  | cons a as ih =>
    cases seg with
    | nil => simp [commonPrefixLen]
    | cons b bs =>
      unfold commonPrefixLen
      split
      · rename_i hab
        subst hab
        simp [ih bs]
      · simp

theorem commonPrefixLen_head_ne (p seg : GoString) (hp : p.drop (commonPrefixLen p seg) ≠ []) :
    (seg.drop (commonPrefixLen p seg)).head? ≠ (p.drop (commonPrefixLen p seg)).head? := by
  induction p generalizing seg with
  | nil => simp at hp
  | cons a as ih =>
    cases seg with
    | nil => simp [commonPrefixLen]
    | cons b bs =>
      unfold commonPrefixLen at hp ⊢
      split
      · rename_i hab
        rw [if_pos hab] at hp
        simpa using ih bs (by simpa using hp)
      · rename_i hab
        simp only [List.drop_zero, List.head?_cons, ne_eq, Option.some.injEq]
        exact fun e => hab e.symm

theorem eq_append_of_commonPrefixLen (p seg : GoString)
    (h : commonPrefixLen p seg = seg.length) : p = seg ++ p.drop seg.length := by
  have h1 := commonPrefixLen_take p seg
  rw [h, List.take_length] at h1
  conv_lhs => rw [← List.take_append_drop seg.length p, h1]

theorem seg_split (p seg : GoString) :
    seg = p.take (commonPrefixLen p seg) ++ seg.drop (commonPrefixLen p seg) := by
  rw [commonPrefixLen_take, List.take_append_drop]

end Node

open Node

theorem Instantiates.of_nil {q : GoString} {ps : Params} (h : Instantiates [] q ps) :
    q = [] ∧ ps = [] := by
  cases h; exact ⟨rfl, rfl⟩

theorem Instantiates.of_literal {c : Char} {p q : GoString} {ps : Params}
    (hc : isWild c = false) (h : Instantiates (c :: p) q ps) :
    ∃ q1, q = c :: q1 ∧ Instantiates p q1 ps := by
  cases h with
  | literal _ _ q1 _ _ h1 => exact ⟨q1, rfl, h1⟩
  | param => simp [isWild] at hc
  | catchAll => simp [isWild] at hc

theorem Instantiates.of_prefix {s p q : GoString} {ps : Params}
    (hs : ∀ ch ∈ s, isWild ch = false) (h : Instantiates (s ++ p) q ps) :
    ∃ q1, q = s ++ q1 ∧ Instantiates p q1 ps := by
  induction s generalizing q with
  | nil => exact ⟨q, rfl, h⟩
  | cons c s ih =>
    obtain ⟨q1, e1, h1⟩ := Instantiates.of_literal (hs c (by simp)) h
    obtain ⟨q2, e2, h2⟩ := ih (fun ch hch => hs ch (by simp [hch])) h1
    exact ⟨q2, by rw [e1, e2]; rfl, h2⟩

theorem Instantiates.of_param {t q : GoString} {ps : Params}
    (h : Instantiates (':' :: t) q ps) :
    ∃ v q1 ps1, q = v ++ q1 ∧ v ≠ [] ∧ '/' ∉ v ∧ ps = ⟨t.takeWhile notSlash, v⟩ :: ps1 ∧
      Instantiates (t.dropWhile notSlash) q1 ps1 := by
  cases h with
  | literal _ _ _ _ hc _ => simp [isWild] at hc
  | param _ v q1 ps1 hv hs h1 => exact ⟨v, q1, ps1, rfl, hv, hs, rfl, h1⟩

theorem Instantiates.head_eq {p q : GoString} {ps : Params} (h : Instantiates p q ps)
    (hp : p ≠ []) (hw : p.head?.any isWild = false) : q.head? = p.head? := by
  cases h with
  | done => exact absurd rfl hp
  | literal => rfl
  | param => simp [isWild] at hw
  | catchAll => simp [isWild] at hw

theorem Instantiates.of_nil_path {p : GoString} {ps : Params} (h : Instantiates p [] ps) :
    p = [] ∨ p.head? = some '*' := by
  generalize hq : ([] : GoString) = q at h
  cases h with
  | done => exact Or.inl rfl
  | literal => cases hq
  | param _ v q1 _ hv =>
    exfalso
    cases v with
    | nil => exact hv rfl
    | cons => cases hq
  | catchAll => exact Or.inr rfl

theorem takeWhile_notSlash_append (v q : GoString) (hv : '/' ∉ v)
    (hq : q = [] ∨ q.head? = some '/') :
    (v ++ q).takeWhile notSlash = v ∧ (v ++ q).dropWhile notSlash = q := by
  induction v with
  | nil =>
    rcases hq with hq | hq
    · subst hq; simp
    · cases q with
      | nil => simp
      | cons a q =>
        simp only [List.head?_cons, Option.some.injEq] at hq
        subst hq
        simp [notSlash, List.takeWhile, List.dropWhile]
  | cons a v ih =>
    have ha : notSlash a = true := by
      have : a ≠ '/' := fun e => hv (by simp [e])
      simp [notSlash, this]
    have hv2 : '/' ∉ v := fun e => hv (by simp [e])
    simp [List.takeWhile, List.dropWhile, ha, ih hv2]

namespace Node
variable {H : Type}

theorem walk_static (seg : GoString) (cs : List (Node H)) (wild : Bool) (hd : Option H)
    (fp : GoString) (prio : Nat) (q : GoString) (acc : Params) :
    walk (mk seg .static cs wild hd fp prio) q acc
      = if seg.isPrefixOf q then finish wild cs hd (q.drop seg.length) acc else none := by
  rw [walk]; rfl

theorem walk_param (seg : GoString) (cs : List (Node H)) (wild : Bool) (hd : Option H)
    (fp : GoString) (prio : Nat) (q : GoString) (acc : Params) :
    walk (mk seg .param cs wild hd fp prio) q acc
      = if q.takeWhile notSlash = [] then none
        else finish wild cs hd (q.dropWhile notSlash)
          (acc ++ [⟨seg.drop 1, q.takeWhile notSlash⟩]) := by
  rw [walk]; rfl

theorem walk_catchAll (seg : GoString) (cs : List (Node H)) (wild : Bool) (hd : Option H)
    (fp : GoString) (prio : Nat) (q : GoString) (acc : Params) :
    walk (mk seg .catchAll cs wild hd fp prio) q acc
      = hd.map (fun h => (h, acc ++ [⟨seg.drop 1, q⟩])) := by
  rw [walk]

theorem walk_eq_consume (seg : GoString) (kind : NodeKind) (cs : List (Node H)) (wild : Bool)
    (hd : Option H) (fp : GoString) (prio : Nat) (q : GoString) (acc : Params)
    (hk : kind ≠ .catchAll) :
    walk (mk seg kind cs wild hd fp prio) q acc
      = (consume seg kind q acc).bind (fun x => finish wild cs hd x.1 x.2) := by
  cases kind with
  | static =>
    rw [walk_static, consume]
    split <;> rfl
  | param =>
    rw [walk_param, consume]
    split <;> rfl
  | catchAll => exact absurd rfl hk

theorem consume_static_append (seg q1 : GoString) (acc : Params) :
    consume seg .static (seg ++ q1) acc = some (q1, acc) := by
  have h : seg.isPrefixOf (seg ++ q1) = true :=
    List.isPrefixOf_iff_prefix.mpr (List.prefix_append seg q1)
  simp [consume, h]

theorem consume_static_some (seg q rest : GoString) (acc acc1 : Params)
    (h : consume seg .static q acc = some (rest, acc1)) : q = seg ++ rest ∧ acc1 = acc := by
  unfold consume at h
  simp only at h
  split at h
  · rename_i hp
    obtain ⟨t, ht⟩ := List.isPrefixOf_iff_prefix.mp hp
    simp only [Option.some.injEq, Prod.mk.injEq] at h
    rw [← h.1, ← ht]
    simp [h.2]
  · cases h

theorem walkChildren_true_single (c : Node H) (q : GoString) (acc : Params) :
    walkChildren true [c] q acc = walk c q acc := by
  rw [walkChildren]; simp

theorem walkChildren_false_none (cs : List (Node H)) (q : GoString) (acc : Params)
    (h : ∀ a ∈ cs, a.first ≠ q.head?) : walkChildren false cs q acc = none := by
  induction cs with
  | nil => rw [walkChildren]
  | cons c cs ih =>
    have hc : c.segment.head? ≠ q.head? := h c (by simp)
    rw [walkChildren]
    simp only [Bool.false_or, beq_iff_eq, if_neg hc]
    exact ih (fun a ha => h a (by simp [ha]))

theorem walkChildren_false_of_mem (cs : List (Node H)) (c : Node H) (q : GoString)
    (acc : Params) (hn : (cs.map first).Nodup) (hc : c ∈ cs) (hf : c.first = q.head?) :
    walkChildren false cs q acc = walk c q acc := by
  induction cs with
  | nil => cases hc
  | cons a cs ih =>
    rw [List.map_cons, List.nodup_cons] at hn
    rw [walkChildren]
    simp only [Bool.false_or, beq_iff_eq]
    rcases List.mem_cons.mp hc with h1 | h1
    · subst h1
      have hf1 : c.segment.head? = q.head? := hf
      rw [if_pos hf1]
    · have ha : ¬ a.segment.head? = q.head? := by
        intro e
        apply hn.1
        have : a.first = c.first := by rw [hf]; exact e
        rw [this]
        exact List.mem_map_of_mem first h1
      rw [if_neg ha]
      exact ih hn.2 h1

theorem walkChildren_false_some (cs : List (Node H)) (q : GoString) (acc : Params)
    (r : H × Params) (h : walkChildren false cs q acc = some r) :
    ∃ a ∈ cs, a.first = q.head? ∧ walk a q acc = some r := by
  induction cs with
  | nil => rw [walkChildren] at h; cases h
  | cons c cs ih =>
    rw [walkChildren] at h
    simp only [Bool.false_or, beq_iff_eq] at h
    split at h
    · rename_i hc
      exact ⟨c, by simp, hc, h⟩
    · obtain ⟨a, ha, hf, hw⟩ := ih h
      exact ⟨a, by simp [ha], hf, hw⟩

theorem dropWhile_notSlash_head (t : GoString) (h : t.dropWhile notSlash ≠ []) :
    (t.dropWhile notSlash).head? = some '/' := by
  cases hdw : t.dropWhile notSlash with
  | nil => exact absurd hdw h
  | cons a r =>
    have := List.head_dropWhile_not notSlash t (by rw [hdw]; simp)
    simp only [hdw, List.head_cons, notSlash, bne_iff_ne, ne_eq, not_not,
      Bool.not_eq_true, bne_eq_false_iff_eq] at this
    simp [this]

theorem dropWhile_isWild_head (t : GoString) (h : t.dropWhile (fun c => !isWild c) ≠ []) :
    (t.dropWhile (fun c => !isWild c)).head?.any isWild = true := by
  cases hdw : t.dropWhile (fun c => !isWild c) with
  | nil => exact absurd hdw h
  | cons a r =>
    have := List.head_dropWhile_not (fun c => !isWild c) t (by rw [hdw]; simp)
    simp only [hdw, List.head_cons, Bool.not_eq_true, Bool.not_eq_false'] at this
    simp [this]

theorem takeWhile_not_isWild (t : GoString) :
    ∀ ch ∈ t.takeWhile (fun c => !isWild c), isWild ch = false := by
  intro ch hch
  have := List.mem_takeWhile_imp hch
  simpa using this

theorem not_wild_of_head (p : GoString) (h1 : ∀ cs, p = ':' :: cs → False)
    (h2 : ∀ cs, p = '*' :: cs → False) : p.head?.any isWild = false := by
  cases p with
  | nil => rfl
  | cons a t =>
    have ha1 : a ≠ ':' := fun e => h1 t (by rw [e])
    have ha2 : a ≠ '*' := fun e => h2 t (by rw [e])
    simp [isWild, ha1, ha2]

theorem takeWhile_head_of_not_wild (p : GoString) (h : p.head?.any isWild = false) :
    (p.takeWhile (fun c => !isWild c)).head? = p.head? := by
  cases p with
  | nil => rfl
  | cons a t =>
    have ha : isWild a = false := by simpa using h
    simp [List.takeWhile, ha]

theorem newBranch_first (fuel : Nat) (p full : GoString) (h : H) (br : Node H)
    (hb : newBranch fuel p full h = .ok br) : br.first = p.head? := by
  cases fuel with
  | zero => simp [newBranch] at hb
  | succ fuel =>
    unfold newBranch at hb
    split at hb
    · simp only at hb
      split at hb
      · cases hb; rfl
      · split at hb
        · cases hb
        · cases hb; rfl
    · split at hb
      · cases hb
      · cases hb; rfl
    · rename_i h1 h2
      simp only at hb
      split at hb
      · cases hb; rfl
      · split at hb
        · cases hb
        · cases hb
          exact takeWhile_head_of_not_wild p (not_wild_of_head p h1 h2)

theorem newBranch_walk (fuel : Nat) (p full : GoString) (h : H) (br : Node H)
    (hb : newBranch fuel p full h = .ok br) (q : GoString) (ps acc : Params)
    (hi : Instantiates p q ps) : walk br q acc = some (h, acc ++ ps) := by
  induction fuel generalizing p br q ps acc with
  | zero => simp [newBranch] at hb
  | succ fuel ih =>
    unfold newBranch at hb
    split at hb
    · rename_i cs
      obtain ⟨v, q1, ps1, eq, hv, hs, eps, h1⟩ := Instantiates.of_param hi
      subst eq eps
      simp only at hb
      have hq1 : q1 = [] ∨ q1.head? = some '/' := by
        by_cases hd : cs.dropWhile notSlash = []
        · rw [hd] at h1
          exact Or.inl h1.of_nil.1
        · right
          have hhead := dropWhile_notSlash_head cs hd
          rw [← hhead]
          exact h1.head_eq hd (by rw [hhead]; rfl)
      obtain ⟨etw, edw⟩ := takeWhile_notSlash_append v q1 hs hq1
      split at hb
      · rename_i hafter
        cases hb
        rw [hafter] at h1
        obtain ⟨e1, e2⟩ := h1.of_nil
        subst e1 e2
        have hname : cs.takeWhile notSlash = cs := by
          have := List.takeWhile_append_dropWhile notSlash cs
          rw [hafter, List.append_nil] at this
          exact this
        rw [walk_param, etw, edw, if_neg hv, finish]
        simp [hname]
      · rename_i hafter
        split at hb
        · cases hb
        · rename_i b1 hb1
          cases hb
          have hhead := dropWhile_notSlash_head cs hafter
          have hq1h : q1.head? = some '/' := by
            rw [← hhead]; exact h1.head_eq hafter (by rw [hhead]; rfl)
          have hq1ne : q1 ≠ [] := by
            intro e; rw [e] at hq1h; cases hq1h
          have hf : b1.first = q1.head? := by
            rw [newBranch_first fuel _ full h b1 hb1, hhead, hq1h]
          rw [walk_param, etw, edw, if_neg hv, finish, if_neg (fun e => hq1ne e.1),
            walkChildren_false_of_mem [b1] b1 q1 _ (by simp) (by simp) hf,
            ih _ b1 hb1 q1 ps1 _ h1]
          simp
    · rename_i cs
      split at hb
      · cases hb
      · cases hb
        cases hi with
        | literal _ _ _ _ hc _ => simp [isWild] at hc
        | catchAll =>
          rw [walk_catchAll]
          simp
    · rename_i hn1 hn2
      simp only at hb
      have hp : p = p.takeWhile (fun c => !isWild c) ++ p.dropWhile (fun c => !isWild c) :=
        (List.takeWhile_append_dropWhile _ p).symm
      rw [hp] at hi
      obtain ⟨q1, eq, h1⟩ := Instantiates.of_prefix (takeWhile_not_isWild p) hi
      subst eq
      split at hb
      · rename_i hafter
        cases hb
        rw [hafter] at h1
        obtain ⟨e1, e2⟩ := h1.of_nil
        subst e1 e2
        have hlit : p.takeWhile (fun c => !isWild c) = p := by
          conv_rhs => rw [hp, hafter, List.append_nil]
        rw [hlit, List.append_nil, walk_static]
        have hpre : p.isPrefixOf p = true := List.isPrefixOf_iff_prefix.mpr (List.prefix_refl p)
        rw [if_pos hpre, finish]
        simp
      · rename_i hafter
        split at hb
        · cases hb
        · rename_i b1 hb1
          cases hb
          rw [walk_eq_consume _ _ _ _ _ _ _ _ _ (by decide), consume_static_append]
          simp only [Option.some_bind, finish, Option.isSome_none, Bool.false_eq_true,
            and_false, if_false]
          rw [walkChildren_true_single]
          exact ih _ b1 hb1 q1 ps acc h1

end Node

namespace Node
variable {H : Type}

theorem rdropWhile_append_rtakeWhile {α : Type} (p : α → Bool) (l : List α) :
    l.rdropWhile p ++ l.rtakeWhile p = l := by
  unfold List.rdropWhile List.rtakeWhile
  rw [← List.reverse_append, List.takeWhile_append_dropWhile, List.reverse_reverse]

theorem relocate_perm (b : Bool) (l : List (Node H)) (c : Node H) (r : List (Node H)) :
    (relocate b l c r).Perm (l ++ c :: r) := by
  unfold relocate
  split
  · have h := rdropWhile_append_rtakeWhile (fun s : Node H => decide (s.priority < c.priority)) l
    conv_rhs => rw [← h]
    rw [List.append_assoc]
    refine List.Perm.append_left _ ?_
    exact List.perm_middle.symm
  · exact List.Perm.refl _

theorem mem_relocate (b : Bool) (l : List (Node H)) (c : Node H) (r : List (Node H))
    (x : Node H) : x ∈ relocate b l c r ↔ x ∈ l ∨ x = c ∨ x ∈ r := by
  rw [(relocate_perm b l c r).mem_iff]
  simp

theorem catchAllChild_of_static (cs : List (Node H)) (h : ∀ c ∈ cs, c.kind = .static) :
    catchAllChild cs = false := by
  cases cs with
  | nil => rfl
  | cons c t =>
    cases t with
    | nil =>
      have := h c (by simp)
      simp [catchAllChild, this]
    | cons d t1 => rfl

theorem newBranch_wf (fuel : Nat) (p full : GoString) (h : H) (br : Node H)
    (hb : newBranch fuel p full h = .ok br) :
    WF br ∧ (br.kind = .static ↔ p.head?.any isWild = false) ∧
      (br.kind = .catchAll ↔ p.head? = some '*') ∧ (p ≠ [] → br.segment ≠ []) := by
  induction fuel generalizing p br with
  | zero => simp [newBranch] at hb
  | succ fuel ih =>
    unfold newBranch at hb
    split at hb
    · rename_i cs
      simp only at hb
      split at hb
      · rename_i hafter
        cases hb
        refine ⟨?_, by simp [kind, isWild], by simp [kind], by simp [segment]⟩
        refine WF.mk _ _ _ _ _ _ _ (by simp) ?_ (by simp) (by simp) (by simp)
          (by simp [catchAllChild]) (by simp)
        intro _
        refine ⟨rfl, ?_⟩
        have hname : cs.takeWhile notSlash = cs := by
          have := List.takeWhile_append_dropWhile notSlash cs
          rw [hafter, List.append_nil] at this
          exact this
        intro hm
        rcases List.mem_cons.mp hm with e | e
        · cases e
        · rw [← hname] at e
          have := List.mem_takeWhile_imp e
          simp [notSlash] at this
      · rename_i hafter
        split at hb
        · cases hb
        · rename_i b1 hb1
          cases hb
          obtain ⟨hwf1, hk1, _, hs1⟩ := ih _ b1 hb1
          have hhead := dropWhile_notSlash_head cs hafter
          refine ⟨?_, by simp [kind, isWild], by simp [kind], by simp [segment]⟩
          refine WF.mk _ _ _ _ _ _ _ (by simp) ?_ (by simp) ?_ (by simp)
            (by simp) ?_
          · intro _
            refine ⟨rfl, ?_⟩
            intro hm
            rcases List.mem_cons.mp hm with e | e
            · cases e
            · have := List.mem_takeWhile_imp e
              simp [notSlash] at this
          · intro _ c hc
            rw [List.mem_singleton] at hc
            subst hc
            exact ⟨hk1.mpr (by rw [hhead]; rfl), hs1 hafter⟩
          · intro c hc
            rw [List.mem_singleton] at hc
            subst hc
            exact hwf1
    · rename_i cs
      split at hb
      · cases hb
      · cases hb
        refine ⟨?_, by simp [kind, isWild], by simp [kind], by simp [segment]⟩
        exact WF.mk _ _ _ _ _ _ _ (by simp) (by simp) (by simp) (by simp) (by simp)
          (by simp [catchAllChild]) (by simp)
    · rename_i hn1 hn2
      simp only at hb
      have hnw := not_wild_of_head p hn1 hn2
      have hstar : ¬ p.head? = some '*' := by
        intro e
        cases p with
        | nil => cases e
        | cons a t =>
          simp only [List.head?_cons, Option.some.injEq] at e
          exact hn2 t (by rw [e])
      have hp : p = p.takeWhile (fun c => !isWild c) ++ p.dropWhile (fun c => !isWild c) :=
        (List.takeWhile_append_dropWhile _ p).symm
      split at hb
      · rename_i hafter
        cases hb
        have hlit : p.takeWhile (fun c => !isWild c) = p := by
          conv_rhs => rw [hp, hafter, List.append_nil]
        refine ⟨?_, by simp [kind, hnw], by simp [kind, hstar], by simp [segment]⟩
        refine WF.mk _ _ _ _ _ _ _ ?_ (by simp) (by simp) (by simp) (by simp)
          (by simp [catchAllChild]) (by simp)
        intro _ ch hch
        rw [← hlit] at hch
        exact takeWhile_not_isWild p ch hch
      · rename_i hafter
        split at hb
        · cases hb
        · rename_i b1 hb1
          cases hb
          obtain ⟨hwf1, hk1, _, hs1⟩ := ih _ b1 hb1
          have hhead := dropWhile_isWild_head p hafter
          refine ⟨?_, by simp [kind, hnw], by simp [kind, hstar], ?_⟩
          · refine WF.mk _ _ _ _ _ _ _ (fun _ => takeWhile_not_isWild p) (by simp) ?_
              (by simp) (by simp) (by simp) ?_
            · intro _
              refine ⟨b1, rfl, ?_⟩
              intro e
              have := hk1.mp e
              rw [hhead] at this
              cases this
            · intro c hc
              rw [List.mem_singleton] at hc
              subst hc
              exact hwf1
          · intro hpne
            simp only [segment]
            intro e
            have := takeWhile_head_of_not_wild p hnw
            rw [e] at this
            cases p with
            | nil => exact hpne rfl
            | cons a t => cases this

end Node

namespace Node
variable {H : Type}

theorem commonPrefixLen_pos (p seg : GoString) (hh : seg.head? = p.head?) (hp : p ≠ []) :
    0 < commonPrefixLen p seg := by
  cases p with
  | nil => exact absurd rfl hp
  | cons a t =>
    cases seg with
    | nil => cases hh
    | cons c s =>
      simp only [List.head?_cons, Option.some.injEq] at hh
      simp [commonPrefixLen, hh]

theorem head?_take_of_pos (seg : GoString) (i : Nat) (hi : 0 < i) :
    (seg.take i).head? = seg.head? := by
  cases seg with
  | nil => simp
  | cons a t =>
    cases i with
    | zero => exact absurd hi (Nat.lt_irrefl 0)
    | succ j => rfl

theorem head?_drop_ne_nil (seg : GoString) (i : Nat) (hi : i < seg.length) :
    seg.drop i ≠ [] := by
  intro e
  have := congrArg List.length e
  simp at this
  omega

theorem insert_kind (b : Bool) (n n1 : Node H) (p full : GoString) (h : H)
    (hi : insert b n p full h = .ok n1) : n.kind ≠ .catchAll ∧ n1.kind = n.kind := by
  obtain ⟨seg, kind, cs, wild, hd, fp, prio⟩ := n
  have hs := insert_step b seg kind cs wild hd fp prio p full h n1 hi
  cases hs with
  | splitHandler hk => subst hk; exact ⟨by simp [Node.kind], rfl⟩
  | splitBranch br hk => subst hk; exact ⟨by simp [Node.kind], rfl⟩
  | setHandler hk => exact ⟨hk, rfl⟩
  | intoWild c c1 hk => exact ⟨hk, rfl⟩
  | newWild br hk => exact ⟨hk, rfl⟩
  | intoChild l c r c1 hk => exact ⟨hk, rfl⟩
  | newChild br hk => exact ⟨hk, rfl⟩

theorem insert_wf (b : Bool) (n : Node H) (hwf : WF n) (full : GoString) (h : H) :
    ∀ (p : GoString) (n1 : Node H), insert b n p full h = .ok n1 →
      WF n1 ∧ (n.first = p.head? → p ≠ [] → n1.first = n.first ∧ n1.segment ≠ []) := by
  induction hwf with
  | mk seg kind cs wild hd fp prio hst hpa hw hnw hnd hca hch ih =>
    intro p n1 hi
    have hs := insert_step b seg kind cs wild hd fp prio p full h n1 hi
    have hfirst : ∀ (cs1 : List (Node H)) (w1 : Bool) (hd1 : Option H) (fp1 : GoString)
        (pr1 : Nat), (mk seg kind cs wild hd fp prio).first = p.head? → p ≠ [] →
        (mk seg kind cs1 w1 hd1 fp1 pr1).first = (mk seg kind cs wild hd fp prio).first ∧
          (mk seg kind cs1 w1 hd1 fp1 pr1).segment ≠ [] := by
      intro cs1 w1 hd1 fp1 pr1 hf hp
      refine ⟨rfl, ?_⟩
      simp only [segment]
      intro e
      simp only [first, segment, e] at hf
      cases p with
      | nil => exact hp rfl
      | cons a t => cases hf
    have hsplitfirst : ∀ (cs1 : List (Node H)) (w1 : Bool) (hd1 : Option H) (fp1 : GoString)
        (pr1 : Nat), (mk seg kind cs wild hd fp prio).first = p.head? → p ≠ [] →
        (mk (seg.take (commonPrefixLen p seg)) .static cs1 w1 hd1 fp1 pr1).first
            = (mk seg kind cs wild hd fp prio).first ∧
          (mk (seg.take (commonPrefixLen p seg)) .static cs1 w1 hd1 fp1 pr1).segment ≠ [] := by
      intro cs1 w1 hd1 fp1 pr1 hf hp
      have hpos := commonPrefixLen_pos p seg hf hp
      have h1 := head?_take_of_pos seg _ hpos
      refine ⟨h1, ?_⟩
      simp only [segment]
      intro e
      rw [e] at h1
      simp only [first, segment] at hf
      rw [← h1] at hf
      cases p with
      | nil => exact hp rfl
      | cons a t => cases hf
    have hold : kind = .static →
        WF (mk (seg.drop (commonPrefixLen p seg)) .static cs wild hd fp prio) := by
      intro hk
      exact WF.mk _ _ _ _ _ _ _ (fun _ ch hch => hst hk ch (List.mem_of_mem_drop hch))
        (by simp) hw hnw hnd hca hch
    cases hs with
    | splitHandler hk hlt hrest =>
      refine ⟨?_, hsplitfirst _ _ _ _ _⟩
      refine WF.mk _ _ _ _ _ _ _ (fun _ ch hch => hst hk ch (List.mem_of_mem_take hch))
        (by simp) (by simp) ?_ (by simp) (by simp [catchAllChild, Node.kind]) ?_
      · intro _ c hc
        rw [List.mem_singleton] at hc
        subst hc
        exact ⟨rfl, head?_drop_ne_nil seg _ hlt⟩
      · intro c hc
        rw [List.mem_singleton] at hc
        subst hc
        exact hold hk
    | splitBranch br hk hlt hrest hwr hbr =>
      obtain ⟨hwfb, hkb, _, hsb⟩ := newBranch_wf _ _ full h br hbr
      refine ⟨?_, hsplitfirst _ _ _ _ _⟩
      refine WF.mk _ _ _ _ _ _ _ (fun _ ch hch => hst hk ch (List.mem_of_mem_take hch))
        (by simp) (by simp) ?_ ?_ (by simp [catchAllChild]) ?_
      · intro _ c hc
        simp only [List.mem_cons, List.mem_singleton, List.not_mem_nil, or_false] at hc
        rcases hc with hc | hc
        · subst hc; exact ⟨rfl, head?_drop_ne_nil seg _ hlt⟩
        · subst hc; exact ⟨hkb.mpr hwr, hsb hrest⟩
      · simp only [List.map_cons, List.map_nil, List.nodup_cons, List.mem_singleton,
          List.not_mem_nil, not_false_eq_true, List.nodup_nil, and_true]
        rw [newBranch_first _ _ full h br hbr]
        exact commonPrefixLen_head_ne p seg hrest
      · intro c hc
        simp only [List.mem_cons, List.mem_singleton, List.not_mem_nil, or_false] at hc
        rcases hc with hc | hc
        · subst hc; exact hold hk
        · subst hc; exact hwfb
    | setHandler hk hlen hpar hrest hhd hcac =>
      refine ⟨?_, hfirst _ _ _ _ _⟩
      exact WF.mk _ _ _ _ _ _ _ hst hpa hw hnw hnd (by simp [hcac]) hch
    | intoWild c c1 hk hlen hpar hrest hwild hcs hins =>
      subst hcs
      obtain ⟨hwf1, _⟩ := ih c (by simp) _ c1 hins
      obtain ⟨hkc, hk1⟩ := insert_kind b c c1 _ full h hins
      refine ⟨?_, hfirst _ _ _ _ _⟩
      refine WF.mk _ _ _ _ _ _ _ hst hpa ?_ ?_ (by simp) ?_ ?_
      · intro _
        obtain ⟨c0, e0, hk0⟩ := hw hwild
        simp only [List.cons.injEq, and_true] at e0
        subst e0
        exact ⟨c1, rfl, by rw [hk1]; exact hk0⟩
      · intro e; rw [hwild] at e; cases e
      · simp only [catchAllChild, beq_iff_eq, hk1]
        exact fun e => hkc e.2
      · intro x hx
        rw [List.mem_singleton] at hx
        subst hx
        exact hwf1
    | newWild br hk hlen hpar hrest hwild hwr hcs hcond hbr =>
      obtain ⟨hwfb, hkb, hcb, hsb⟩ := newBranch_wf _ _ full h br hbr
      refine ⟨?_, hfirst _ _ _ _ _⟩
      refine WF.mk _ _ _ _ _ _ _ hst hpa ?_ (by simp) (by simp) ?_ ?_
      · intro _
        refine ⟨br, rfl, ?_⟩
        intro e
        have := hkb.mp e
        rw [hwr] at this
        cases this
      · simp only [catchAllChild, beq_iff_eq]
        intro e
        exact hcond ⟨hcb.mp e.2, e.1⟩
      · intro x hx
        rw [List.mem_singleton] at hx
        subst hx
        exact hwfb
    | intoChild l c r c1 hk hlen hpar hrest hwild hwr hcs hl hc hins =>
      subst hcs
      obtain ⟨hwf1, hf1⟩ := ih c (by simp) _ c1 hins
      obtain ⟨hf1, hs1⟩ := hf1 hc hrest
      obtain ⟨hkc, hk1⟩ := insert_kind b c c1 _ full h hins
      have hstat : ∀ x ∈ relocate b l c1 r, x.kind = .static ∧ x.segment ≠ [] := by
        intro x hx
        rcases (mem_relocate b l c1 r x).mp hx with e | e | e
        · exact hnw hwild x (by simp [e])
        · subst e
          exact ⟨by rw [hk1]; exact (hnw hwild c (by simp)).1, hs1⟩
        · exact hnw hwild x (by simp [e])
      refine ⟨?_, hfirst _ _ _ _ _⟩
      refine WF.mk _ _ _ _ _ _ _ hst hpa ?_ (fun _ => hstat) ?_ ?_ ?_
      · intro e; rw [hwild] at e; cases e
      · have hperm := (relocate_perm b l c1 r).map first
        rw [hperm.nodup_iff]
        simpa [hf1] using hnd
      · rw [catchAllChild_of_static _ (fun x hx => (hstat x hx).1)]
        simp
      · intro x hx
        rcases (mem_relocate b l c1 r x).mp hx with e | e | e
        · exact hch x (by simp [e])
        · subst e; exact hwf1
        · exact hch x (by simp [e])
    | newChild br hk hlen hpar hrest hwild hwr hcs hbr =>
      obtain ⟨hwfb, hkb, hcb, hsb⟩ := newBranch_wf _ _ full h br hbr
      have hstat : ∀ x ∈ cs ++ [br], x.kind = .static ∧ x.segment ≠ [] := by
        intro x hx
        rcases List.mem_append.mp hx with e | e
        · exact hnw hwild x e
        · rw [List.mem_singleton] at e
          subst e
          exact ⟨hkb.mpr hwr, hsb hrest⟩
      refine ⟨?_, hfirst _ _ _ _ _⟩
      refine WF.mk _ _ _ _ _ _ _ hst hpa ?_ (fun _ => hstat) ?_ ?_ ?_
      · intro e; rw [hwild] at e; cases e
      · rw [List.map_append, List.map_singleton]
        refine List.Nodup.append hnd (List.nodup_singleton _) ?_
        intro x hx hx2
        rw [List.mem_singleton] at hx2
        subst hx2
        obtain ⟨a, ha, ea⟩ := List.mem_map.mp hx
        rw [newBranch_first _ _ full h br hbr] at ea
        exact hcs a ha ea
      · rw [catchAllChild_of_static _ (fun x hx => (hstat x hx).1)]
        simp
      · intro x hx
        rcases List.mem_append.mp hx with e | e
        · exact hch x e
        · rw [List.mem_singleton] at e
          subst e
          exact hwfb

end Node

section
open Node

theorem rest_of_not_notSlash (rest : GoString) (h : ¬ rest.head?.any notSlash = true) :
    rest = [] ∨ rest.head? = some '/' := by
  cases rest with
  | nil => exact Or.inl rfl
  | cons a t =>
    right
    simp only [List.head?_cons, Option.any_some, notSlash, bne_iff_ne, ne_eq, not_not] at h
    rw [h]; rfl

theorem Instantiates.rest_shape {rest q : GoString} {ps : Params}
    (h : Instantiates rest q ps) (hr : rest = [] ∨ rest.head? = some '/') :
    q = [] ∨ q.head? = some '/' := by
  rcases hr with hr | hr
  · subst hr; exact Or.inl h.of_nil.1
  · right
    rw [← hr]
    refine h.head_eq ?_ (by rw [hr]; rfl)
    intro e; rw [e] at hr; cases hr

end

namespace Node
variable {H : Type}

theorem WF.nodup {seg : GoString} {kind : NodeKind} {cs : List (Node H)} {wild : Bool}
    {hd : Option H} {fp : GoString} {prio : Nat} (h : WF (Node.mk seg kind cs wild hd fp prio)) :
    (cs.map first).Nodup := by
  cases h with
  | mk _ _ _ _ _ _ _ hst hpa hw hnw hnd hca hch => exact hnd

theorem consume_inst (seg : GoString) (kind : NodeKind) (rest q : GoString) (ps : Params)
    (hst : kind = .static → ∀ ch ∈ seg, isWild ch = false)
    (hpa : kind = .param → seg.head? = some ':' ∧ '/' ∉ seg)
    (hk : kind ≠ .catchAll)
    (hpar : ¬ (kind = .param ∧ rest.head?.any notSlash = true))
    (hi : Instantiates (seg ++ rest) q ps) :
    ∃ q1 acc1 ps1, (∀ acc, consume seg kind q acc = some (q1, acc ++ acc1)) ∧
      ps = acc1 ++ ps1 ∧ Instantiates rest q1 ps1 := by
  cases kind with
  | catchAll => exact absurd rfl hk
  | static =>
    obtain ⟨q1, eq, h1⟩ := Instantiates.of_prefix (hst rfl) hi
    subst eq
    exact ⟨q1, [], ps, fun acc => by rw [consume_static_append]; simp, rfl, h1⟩
  | param =>
    obtain ⟨hh, hs⟩ := hpa rfl
    cases seg with
    | nil => cases hh
    | cons a name =>
      simp only [List.head?_cons, Option.some.injEq] at hh
      subst hh
      have hname : '/' ∉ name := fun e => hs (by simp [e])
      have hrest := rest_of_not_notSlash rest (fun e => hpar ⟨rfl, e⟩)
      have hi1 : Instantiates (':' :: (name ++ rest)) q ps := hi
      obtain ⟨v, q1, ps1, eq, hv, hvs, eps, h1⟩ := Instantiates.of_param hi1
      obtain ⟨etw, edw⟩ := takeWhile_notSlash_append name rest hname hrest
      rw [etw] at eps
      rw [edw] at h1
      subst eq
      obtain ⟨etw2, edw2⟩ := takeWhile_notSlash_append v q1 hvs (h1.rest_shape hrest)
      refine ⟨q1, [⟨name, v⟩], ps1, ?_, eps, h1⟩
      intro acc
      simp [consume, etw2, edw2, hv]

theorem finish_nil_some (wild : Bool) (cs : List (Node H)) (h : H) (acc : Params) :
    finish wild cs (some h) [] acc = some (h, acc) := by
  simp [finish]

theorem finish_of_ne_nil (wild : Bool) (cs : List (Node H)) (hd : Option H) (q : GoString)
    (acc : Params) (hq : q ≠ []) : finish wild cs hd q acc = walkChildren wild cs q acc := by
  rw [finish, if_neg (fun e => hq e.1)]

theorem finish_of_none (wild : Bool) (cs : List (Node H)) (q : GoString) (acc : Params) :
    finish wild cs none q acc = walkChildren wild cs q acc := by
  simp [finish]

theorem ne_nil_of_head? {q : GoString} {c : Option Char} (h : q.head? = c) (hc : c ≠ none) :
    q ≠ [] := by
  intro e; rw [e] at h; exact hc h.symm

theorem head?_ne_none {rest : GoString} (h : rest ≠ []) : rest.head? ≠ none := by
  cases rest with
  | nil => exact absurd rfl h
  | cons a t => simp

theorem walk_param_nil (c : Node H) (hk : c.kind = .param) (acc : Params) :
    walk c [] acc = none := by
  obtain ⟨seg, kind, cs, wild, hd, fp, prio⟩ := c
  simp only [Node.kind] at hk
  subst hk
  rw [walk_param]
  simp

theorem walkChildren_nil_none (wild : Bool) (cs : List (Node H)) (acc : Params)
    (hw : wild = true → ∃ c, cs = [c] ∧ c.kind ≠ .static)
    (hnw : wild = false → ∀ c ∈ cs, c.kind = .static ∧ c.segment ≠ [])
    (hca : catchAllChild cs = false) : walkChildren wild cs [] acc = none := by
  cases wild with
  | true =>
    obtain ⟨c, e, hk⟩ := hw rfl
    subst e
    rw [walkChildren_true_single]
    apply walk_param_nil
    simp only [catchAllChild, beq_eq_false_iff_ne, ne_eq] at hca
    cases hkc : c.kind with
    | static => exact absurd hkc hk
    | param => rfl
    | catchAll => exact absurd hkc hca
  | false =>
    apply walkChildren_false_none
    intro a ha
    have := (hnw rfl a ha).2
    simp only [first, List.head?_nil]
    exact head?_ne_none this

end Node

namespace Node
variable {H : Type}

theorem walk_static_append (seg : GoString) (cs : List (Node H)) (wild : Bool) (hd : Option H)
    (fp : GoString) (prio : Nat) (q1 : GoString) (acc : Params) :
    walk (mk seg .static cs wild hd fp prio) (seg ++ q1) acc = finish wild cs hd q1 acc := by
  rw [walk_eq_consume _ _ _ _ _ _ _ _ _ (by decide), consume_static_append]
  rfl

theorem walk_static_some (seg : GoString) (cs : List (Node H)) (wild : Bool) (hd : Option H)
    (fp : GoString) (prio : Nat) (q : GoString) (acc : Params) (r : H × Params)
    (hw : walk (mk seg .static cs wild hd fp prio) q acc = some r) :
    ∃ q2, q = seg ++ q2 ∧ finish wild cs hd q2 acc = some r := by
  rw [walk_eq_consume _ _ _ _ _ _ _ _ _ (by decide)] at hw
  cases hc : consume seg .static q acc with
  | none => rw [hc] at hw; cases hw
  | some x =>
    obtain ⟨q2, acc2⟩ := x
    rw [hc] at hw
    obtain ⟨eq, eacc⟩ := consume_static_some _ _ _ _ _ hc
    subst eacc
    exact ⟨q2, eq, hw⟩

theorem walkChildren_false_head (c : Node H) (cs : List (Node H)) (q : GoString)
    (acc : Params) (hf : c.first = q.head?) :
    walkChildren false (c :: cs) q acc = walk c q acc := by
  have hf1 : c.segment.head? = q.head? := hf
  rw [walkChildren]
  simp only [Bool.false_or, beq_iff_eq, if_pos hf1]

theorem walkChildren_false_skip (c : Node H) (cs : List (Node H)) (q : GoString)
    (acc : Params) (hf : c.first ≠ q.head?) :
    walkChildren false (c :: cs) q acc = walkChildren false cs q acc := by
  have hf1 : ¬ c.segment.head? = q.head? := hf
  rw [walkChildren]
  simp only [Bool.false_or, beq_iff_eq, if_neg hf1]

theorem walk_split_old (seg : GoString) (i : Nat) (hi : i < seg.length) (cs : List (Node H))
    (wild : Bool) (hd : Option H) (fp : GoString) (prio : Nat) (sibs : List (Node H))
    (hd1 : Option H) (fp1 : GoString) (pr1 : Nat) (q : GoString) (acc : Params)
    (r : H × Params) (hw : walk (mk seg .static cs wild hd fp prio) q acc = some r) :
    walk (mk (seg.take i) .static (mk (seg.drop i) .static cs wild hd fp prio :: sibs) false
      hd1 fp1 pr1) q acc = some r := by
  obtain ⟨q2, eq, hf⟩ := walk_static_some _ _ _ _ _ _ _ _ _ hw
  have hne : seg.drop i ≠ [] := head?_drop_ne_nil seg i hi
  have e2 : q = seg.take i ++ (seg.drop i ++ q2) := by
    rw [← List.append_assoc, List.take_append_drop]; exact eq
  have hne2 : seg.drop i ++ q2 ≠ [] := by
    intro e; exact hne (List.append_eq_nil.mp e).1
  have hfirst : (mk (seg.drop i) .static cs wild hd fp prio).first = (seg.drop i ++ q2).head? := by
    simp only [first, segment]
    cases hsd : seg.drop i with
    | nil => exact absurd hsd hne
    | cons a t => rfl
  rw [e2, walk_static_append, finish_of_ne_nil _ _ _ _ _ hne2,
    walkChildren_false_head _ _ _ _ hfirst, walk_static_append]
  exact hf

theorem insert_walk (b : Bool) (n : Node H) (hwf : WF n) (full : GoString) (h : H) :
    ∀ (p : GoString) (n1 : Node H), insert b n p full h = .ok n1 →
      (∀ q ps acc, Instantiates p q ps → walk n1 q acc = some (h, acc ++ ps)) ∧
      (∀ q acc r, walk n q acc = some r → walk n1 q acc = some r) := by
  induction hwf with
  | mk seg kind cs wild hd fp prio hst hpa hw hnw hnd hca hch ih =>
    intro p n1 hi
    have hwfn : WF (Node.mk seg kind cs wild hd fp prio) :=
      WF.mk _ _ _ _ _ _ _ hst hpa hw hnw hnd hca hch
    have hwf1 := (insert_wf b _ hwfn full h p n1 hi).1
    have hs := insert_step b seg kind cs wild hd fp prio p full h n1 hi
    have hpsplit : p = seg.take (commonPrefixLen p seg) ++ p.drop (commonPrefixLen p seg) := by
      conv_lhs => rw [← List.take_append_drop (commonPrefixLen p seg) p, commonPrefixLen_take]
    -- the cases without a split share the way the path is consumed
    have hA : ∀ (cs1 : List (Node H)) (w1 : Bool) (hd1 : Option H) (fp1 : GoString) (pr1 : Nat),
        kind ≠ .catchAll → commonPrefixLen p seg = seg.length →
        ¬ (kind = .param ∧ (p.drop seg.length).head?.any notSlash = true) →
        (∀ q1 ps1 acc1, Instantiates (p.drop seg.length) q1 ps1 →
          finish w1 cs1 hd1 q1 acc1 = some (h, acc1 ++ ps1)) →
        ∀ q ps acc, Instantiates p q ps →
          walk (Node.mk seg kind cs1 w1 hd1 fp1 pr1) q acc = some (h, acc ++ ps) := by
      intro cs1 w1 hd1 fp1 pr1 hk hlen hpar hfin q ps acc hinst
      rw [eq_append_of_commonPrefixLen p seg hlen] at hinst
      obtain ⟨q1, acc1, ps1, hcon, eps, h1⟩ := consume_inst seg kind _ q ps hst hpa hk hpar hinst
      rw [walk_eq_consume _ _ _ _ _ _ _ _ _ hk, hcon acc]
      simp only [Option.some_bind]
      rw [hfin q1 ps1 _ h1, eps, List.append_assoc]
    have hB : ∀ (cs1 : List (Node H)) (w1 : Bool) (hd1 : Option H) (fp1 : GoString) (pr1 : Nat),
        kind ≠ .catchAll →
        (∀ q1 acc1 r, finish wild cs hd q1 acc1 = some r → finish w1 cs1 hd1 q1 acc1 = some r) →
        ∀ q acc r, walk (Node.mk seg kind cs wild hd fp prio) q acc = some r →
          walk (Node.mk seg kind cs1 w1 hd1 fp1 pr1) q acc = some r := by
      intro cs1 w1 hd1 fp1 pr1 hk hfin q acc r hwk
      rw [walk_eq_consume _ _ _ _ _ _ _ _ _ hk] at hwk ⊢
      cases hc : consume seg kind q acc with
      | none => rw [hc] at hwk; cases hwk
      | some x =>
        rw [hc] at hwk
        exact hfin _ _ _ hwk
    cases hs with
    | splitHandler hk hlt hrest =>
      subst hk
      constructor
      · intro q ps acc hinst
        rw [hpsplit, hrest] at hinst
        obtain ⟨q1, eq, h1⟩ := Instantiates.of_prefix
          (fun ch hch => hst rfl ch (List.mem_of_mem_take hch)) hinst
        obtain ⟨e1, e2⟩ := h1.of_nil
        subst eq e1 e2
        rw [walk_static_append, finish_nil_some]
        simp
      · intro q acc r hwk
        exact walk_split_old seg _ hlt cs wild hd fp prio [] _ _ _ q acc r hwk
    | splitBranch br hk hlt hrest hwr hbr =>
      subst hk
      constructor
      · intro q ps acc hinst
        rw [hpsplit] at hinst
        obtain ⟨q1, eq, h1⟩ := Instantiates.of_prefix
          (fun ch hch => hst rfl ch (List.mem_of_mem_take hch)) hinst
        subst eq
        have hq1 := h1.head_eq hrest hwr
        have hq1ne : q1 ≠ [] := ne_nil_of_head? hq1 (head?_ne_none hrest)
        have hbf := newBranch_first _ _ full h br hbr
        rw [walk_static_append, finish_of_ne_nil _ _ _ _ _ hq1ne,
          walkChildren_false_skip _ _ _ _ (by
            rw [hq1]; exact commonPrefixLen_head_ne p seg hrest),
          walkChildren_false_head _ _ _ _ (by rw [hbf, hq1])]
        exact newBranch_walk _ _ full h br hbr q1 ps acc h1
      · intro q acc r hwk
        exact walk_split_old seg _ hlt cs wild hd fp prio [br] _ _ _ q acc r hwk
    | setHandler hk hlen hpar hrest hhd hcac =>
      subst hhd
      constructor
      · apply hA _ _ _ _ _ hk hlen hpar
        intro q1 ps1 acc1 h1
        rw [hrest] at h1
        obtain ⟨e1, e2⟩ := h1.of_nil
        subst e1 e2
        rw [finish_nil_some]; simp
      · apply hB _ _ _ _ _ hk
        intro q1 acc1 r hf
        rw [finish_of_none] at hf
        have hq1 : q1 ≠ [] := by
          intro e
          subst e
          rw [walkChildren_nil_none wild cs acc1 hw hnw hcac] at hf
          cases hf
        rw [finish_of_ne_nil _ _ _ _ _ hq1]
        exact hf
    | intoWild c c1 hk hlen hpar hrest hwild hcs hins =>
      subst hcs hwild
      obtain ⟨ihA, ihB⟩ := ih c (by simp) _ c1 hins
      obtain ⟨hkc, hk1⟩ := insert_kind b c c1 _ full h hins
      obtain ⟨c0, e0, hk0⟩ := hw rfl
      simp only [List.cons.injEq, and_true] at e0
      subst e0
      have hpar1 : c1.kind = .param := by
        cases hkc1 : c1.kind with
        | static => rw [hk1] at hkc1; exact absurd hkc1 hk0
        | param => rfl
        | catchAll => rw [hk1] at hkc1; exact absurd hkc1 hkc
      constructor
      · apply hA _ _ _ _ _ hk hlen hpar
        intro q1 ps1 acc1 h1
        have hwalk := ihA q1 ps1 acc1 h1
        have hq1 : q1 ≠ [] := by
          intro e
          subst e
          rw [walk_param_nil c1 hpar1] at hwalk
          cases hwalk
        rw [finish_of_ne_nil _ _ _ _ _ hq1, walkChildren_true_single]
        exact hwalk
      · apply hB _ _ _ _ _ hk
        intro q1 acc1 r hf
        unfold finish at hf ⊢
        split
        · rename_i hcond
          rw [if_pos hcond] at hf
          exact hf
        · rename_i hcond
          rw [if_neg hcond, walkChildren_true_single] at hf
          rw [walkChildren_true_single]
          exact ihB _ _ _ hf
    | newWild br hk hlen hpar hrest hwild hwr hcs hcond hbr =>
      subst hcs hwild
      constructor
      · apply hA _ _ _ _ _ hk hlen hpar
        intro q1 ps1 acc1 h1
        have hfin : finish true [br] hd q1 acc1 = walkChildren true [br] q1 acc1 := by
          by_cases hq1 : q1 = []
          · subst hq1
            rcases h1.of_nil_path with e | e
            · exact absurd e hrest
            · have hn : hd = none := by
                cases hd with
                | none => rfl
                | some x => exact absurd ⟨e, rfl⟩ hcond
              rw [hn, finish_of_none]
          · exact finish_of_ne_nil _ _ _ _ _ hq1
        rw [hfin, walkChildren_true_single]
        exact newBranch_walk _ _ full h br hbr q1 ps1 acc1 h1
      · apply hB _ _ _ _ _ hk
        intro q1 acc1 r hf
        unfold finish at hf ⊢
        split
        · rename_i hc2
          rw [if_pos hc2] at hf
          exact hf
        · rename_i hc2
          rw [if_neg hc2, walkChildren] at hf
          cases hf
    | intoChild l c r c1 hk hlen hpar hrest hwild hwr hcs hl hc hins =>
      subst hcs hwild
      obtain ⟨ihA, ihB⟩ := ih c (by simp) _ c1 hins
      obtain ⟨_, hf1⟩ := insert_wf b c (hch c (by simp)) full h _ c1 hins
      obtain ⟨hf1, _⟩ := hf1 hc hrest
      have hnd1 := hwf1.nodup
      have hc1mem : c1 ∈ relocate b l c1 r := (mem_relocate b l c1 r c1).mpr (Or.inr (Or.inl rfl))
      constructor
      · apply hA _ _ _ _ _ hk hlen hpar
        intro q1 ps1 acc1 h1
        have hq1 := h1.head_eq hrest hwr
        have hq1ne : q1 ≠ [] := ne_nil_of_head? hq1 (head?_ne_none hrest)
        rw [finish_of_ne_nil _ _ _ _ _ hq1ne,
          walkChildren_false_of_mem _ c1 q1 acc1 hnd1 hc1mem (by rw [hf1, hc, hq1])]
        exact ihA q1 ps1 acc1 h1
      · apply hB _ _ _ _ _ hk
        intro q1 acc1 r1 hf
        unfold finish at hf ⊢
        split
        · rename_i hc2
          rw [if_pos hc2] at hf
          exact hf
        · rename_i hc2
          rw [if_neg hc2] at hf
          obtain ⟨a, ha, haf, haw⟩ := walkChildren_false_some _ _ _ _ hf
          rcases List.mem_append.mp ha with e | e
          · rw [walkChildren_false_of_mem _ a q1 acc1 hnd1
              ((mem_relocate b l c1 r a).mpr (Or.inl e)) haf]
            exact haw
          · rcases List.mem_cons.mp e with e | e
            · subst e
              rw [walkChildren_false_of_mem _ c1 q1 acc1 hnd1 hc1mem (by rw [hf1, haf])]
              exact ihB _ _ _ haw
            · rw [walkChildren_false_of_mem _ a q1 acc1 hnd1
                ((mem_relocate b l c1 r a).mpr (Or.inr (Or.inr e))) haf]
              exact haw
    | newChild br hk hlen hpar hrest hwild hwr hcs hbr =>
      subst hwild
      have hnd1 := hwf1.nodup
      have hbf := newBranch_first _ _ full h br hbr
      constructor
      · apply hA _ _ _ _ _ hk hlen hpar
        intro q1 ps1 acc1 h1
        have hq1 := h1.head_eq hrest hwr
        have hq1ne : q1 ≠ [] := ne_nil_of_head? hq1 (head?_ne_none hrest)
        rw [finish_of_ne_nil _ _ _ _ _ hq1ne,
          walkChildren_false_of_mem _ br q1 acc1 hnd1 (by simp) (by rw [hbf, hq1])]
        exact newBranch_walk _ _ full h br hbr q1 ps1 acc1 h1
      · apply hB _ _ _ _ _ hk
        intro q1 acc1 r1 hf
        unfold finish at hf ⊢
        split
        · rename_i hc2
          rw [if_pos hc2] at hf
          exact hf
        · rename_i hc2
          rw [if_neg hc2] at hf
          obtain ⟨a, ha, haf, haw⟩ := walkChildren_false_some _ _ _ _ hf
          rw [walkChildren_false_of_mem _ a q1 acc1 hnd1 (by simp [ha]) haf]
          exact haw

end Node

/-! ## Lemmas: registration -/

theorem root?_setRoot_same {H : Type} (ts : List (GoString × Node H)) (m : GoString)
    (n : Node H) : root? (setRoot ts m n) m = some n := by
  induction ts with
  | nil => simp [setRoot, root?]
  | cons t rest ih =>
    obtain ⟨k, v⟩ := t
    unfold setRoot
    by_cases hk : k = m
    · rw [if_pos hk, root?, if_pos hk]
    · rw [if_neg hk, root?, if_neg hk]
      exact ih

theorem root?_setRoot_other {H : Type} (ts : List (GoString × Node H)) (m m1 : GoString)
    (n : Node H) (hm : m1 ≠ m) : root? (setRoot ts m n) m1 = root? ts m1 := by
  induction ts with
  | nil =>
    simp only [setRoot, root?]
    rw [if_neg (fun e => hm e.symm)]
  | cons t rest ih =>
    obtain ⟨k, v⟩ := t
    unfold setRoot
    by_cases hk : k = m
    · rw [if_pos hk, root?, root?]
      subst hk
      rw [if_neg (fun e => hm e.symm), if_neg (fun e => hm e.symm)]
    · rw [if_neg hk, root?, root?, ih]

theorem Handle_serves {H G : Type} (r r1 : Router H G) (done : List (Route H))
    (rt : Route H) (hinv : r.Serves done)
    (hh : r.Handle rt.method rt.pattern (some rt.handler) = .ok r1) :
    r1.Serves (done ++ [rt]) := by
  unfold Router.Handle at hh
  split at hh
  · cases hh
  · simp only at hh
    cases hroot : root? r.trees rt.method with
    | none =>
      rw [hroot] at hh
      simp only at hh
      split at hh
      · cases hh
      · rename_i n hn
        cases hh
        obtain ⟨hwfn, _⟩ := Node.newBranch_wf _ _ _ _ n hn
        refine ⟨?_, ?_⟩
        · intro m n0 hm
          simp only at hm
          by_cases e : m = rt.method
          · subst e
            rw [root?_setRoot_same] at hm
            cases hm
            exact hwfn
          · rw [root?_setRoot_other _ _ _ _ e] at hm
            exact hinv.1 m n0 hm
        · intro rt0 hrt0
          simp only
          rcases List.mem_append.mp hrt0 with e | e
          · obtain ⟨n0, hn0, hw0⟩ := hinv.2 rt0 e
            have hne : rt0.method ≠ rt.method := by
              intro e2
              rw [e2, hroot] at hn0
              cases hn0
            exact ⟨n0, by rw [root?_setRoot_other _ _ _ _ hne]; exact hn0, hw0⟩
          · rw [List.mem_singleton] at e
            subst e
            exact ⟨n, root?_setRoot_same _ _ _,
              fun q ps acc hi => Node.newBranch_walk _ _ _ _ n hn q ps acc hi⟩
    | some n0 =>
      rw [hroot] at hh
      simp only at hh
      split at hh
      · cases hh
      · rename_i n1 hn1
        cases hh
        have hwf0 := hinv.1 _ _ hroot
        obtain ⟨hwf1, _⟩ := Node.insert_wf true n0 hwf0 _ _ _ n1 hn1
        obtain ⟨hA, hB⟩ := Node.insert_walk true n0 hwf0 _ _ _ n1 hn1
        refine ⟨?_, ?_⟩
        · intro m n hm
          simp only at hm
          by_cases e : m = rt.method
          · subst e
            rw [root?_setRoot_same] at hm
            cases hm
            exact hwf1
          · rw [root?_setRoot_other _ _ _ _ e] at hm
            exact hinv.1 m n hm
        · intro rt0 hrt0
          simp only
          rcases List.mem_append.mp hrt0 with e | e
          · obtain ⟨n2, hn2, hw2⟩ := hinv.2 rt0 e
            by_cases e2 : rt0.method = rt.method
            · rw [e2, hroot] at hn2
              cases hn2
              refine ⟨n1, by rw [e2]; exact root?_setRoot_same _ _ _, ?_⟩
              intro q ps acc hi
              exact hB _ _ _ (hw2 q ps acc hi)
            · exact ⟨n2, by rw [root?_setRoot_other _ _ _ _ e2]; exact hn2, hw2⟩
          · rw [List.mem_singleton] at e
            subst e
            exact ⟨n1, root?_setRoot_same _ _ _, hA⟩

theorem register_serves {H G : Type} (routes : List (Route H)) (r r1 : Router H G)
    (done : List (Route H)) (hinv : r.Serves done) (h : r.register routes = .ok r1) :
    r1.Serves (done ++ routes) := by
  induction routes generalizing r done with
  | nil =>
    simp only [Router.register, Except.ok.injEq] at h
    subst h
    simpa using hinv
  | cons rt rest ih =>
    unfold Router.register at h
    split at h
    · cases h
    · rename_i r2 h2
      have := ih r2 (done ++ [rt]) (Handle_serves r r2 done rt hinv h2) h
      simpa using this

/-! ## Lemmas: the failures of `insert` -/

namespace Node
variable {H : Type}

theorem node_induction {P : Node H → Prop}
    (step : ∀ seg kind cs wild hd fp prio, (∀ c ∈ cs, P c) → P (Node.mk seg kind cs wild hd fp prio))
    (n : Node H) : P n :=
  @Node.rec H P (fun cs => ∀ c ∈ cs, P c)
    (fun seg kind cs wild hd fp prio ih => step seg kind cs wild hd fp prio ih)
    (fun c hc => absurd hc (List.not_mem_nil c))
    (fun a cs ha hcs c hc => by
      rcases List.mem_cons.mp hc with e | e
      · rw [e]; exact ha
      · exact hcs c e)
    n

theorem newBranch_error (fuel : Nat) (p full : GoString) (h : H) (e : InsertError)
    (hf : p.length < fuel) (hb : newBranch fuel p full h = .error e) :
    e = .catchAllNotLast := by
  induction fuel generalizing p with
  | zero => exact absurd hf (Nat.not_lt_zero _)
  | succ fuel ih =>
    unfold newBranch at hb
    split at hb
    · rename_i cs
      simp only at hb
      split at hb
      · cases hb
      · split at hb
        · rename_i e1 he1
          cases hb
          refine ih _ ?_ he1
          have := (List.dropWhile_suffix notSlash (l := cs)).length_le
          simp only [List.length_cons] at hf
          omega
        · cases hb
    · split at hb
      · cases hb; rfl
      · cases hb
    · rename_i hn1 hn2
      simp only at hb
      split at hb
      · cases hb
      · rename_i hafter
        split at hb
        · rename_i e1 he1
          cases hb
          refine ih _ ?_ he1
          cases p with
          | nil => simp at hafter
          | cons a t =>
            have ha : isWild a = false := by
              simpa using not_wild_of_head (a :: t) hn1 hn2
            have e2 : (a :: t).dropWhile (fun c => !isWild c) = t.dropWhile (fun c => !isWild c) := by
              simp [List.dropWhile, ha]
            rw [e2]
            have := (List.dropWhile_suffix (fun c => !isWild c) (l := t)).length_le
            simp only [List.length_cons] at hf
            omega
        · cases hb

theorem insertChild_error (b : Bool) (cs pre : List (Node H)) (rest full : GoString) (h : H)
    (e : InsertError) (hi : insertChild b cs pre rest full h = .error e) :
    ∃ c ∈ cs, insert b c rest full h = .error e := by
  induction cs generalizing pre with
  | nil => simp [insertChild] at hi
  | cons c cs ih =>
    unfold insertChild at hi
    split at hi
    · split at hi
      · rename_i e1 he1
        cases hi
        exact ⟨c, by simp, he1⟩
      · cases hi
    · obtain ⟨a, ha, hae⟩ := ih _ hi
      exact ⟨a, by simp [ha], hae⟩

theorem insert_error (b : Bool) (n : Node H) (full : GoString) (h : H) :
    ∀ (p : GoString) (e : InsertError), insert b n p full h = .error e →
      e = .wildcardConflict ∨ e = .handlerExists ∨ e = .catchAllNotLast := by
  induction n using node_induction with
  | step seg kind cs wild hd fp prio ih =>
    intro p e hi
    unfold insert at hi
    simp only at hi
    split at hi
    · split at hi
      · cases hi
      · split at hi
        · cases hi; exact Or.inl rfl
        · split at hi
          · rename_i e1 he1
            cases hi
            exact Or.inr (Or.inr (newBranch_error _ _ _ _ _ (Nat.lt_succ_self _) he1))
          · cases hi
    · split at hi
      · cases hi; exact Or.inl rfl
      · split at hi
        · split at hi
          · cases hi; exact Or.inr (Or.inl rfl)
          · split at hi
            · cases hi; exact Or.inl rfl
            · cases hi
        · split at hi
          · split at hi
            · rename_i e1 he1
              cases hi
              cases cs with
              | nil => simp only [insertWild] at he1; cases he1; exact Or.inl rfl
              | cons c t =>
                cases t with
                | cons d t1 => simp only [insertWild] at he1; cases he1; exact Or.inl rfl
                | nil =>
                  simp only [insertWild] at he1
                  split at he1
                  · rename_i e2 he2
                    cases he1
                    exact ih c (by simp) _ _ he2
                  · cases he1
            · cases hi
          · split at hi
            · split at hi
              · split at hi
                · rename_i e1 he1
                  cases hi
                  exact Or.inr (Or.inr (newBranch_error _ _ _ _ _ (Nat.lt_succ_self _) he1))
                · cases hi
              · cases hi; exact Or.inl rfl
            · split at hi
              · rename_i e1 he1
                cases hi
                obtain ⟨c, hc, hce⟩ := insertChild_error _ _ _ _ _ _ _ he1
                exact ih c hc _ _ hce
              · cases hi
              · split at hi
                · rename_i e1 he1
                  cases hi
                  exact Or.inr (Or.inr (newBranch_error _ _ _ _ _ (Nat.lt_succ_self _) he1))
                · cases hi

end Node

theorem Handle_error {H G : Type} (r : Router H G) (method path : GoString) (handle : Option H)
    (e : InsertError) (hh : r.Handle method path handle = .error e) : e ≠ .exhausted := by
  unfold Router.Handle at hh
  split at hh
  · cases hh; decide
  · split at hh
    · cases hh; decide
    · split at hh
      · split at hh
        · rename_i e1 he1
          cases hh
          rw [Node.newBranch_error _ _ _ _ _ (Nat.lt_succ_self _) he1]
          decide
        · cases hh
      · split at hh
        · rename_i e1 he1
          cases hh
          rcases Node.insert_error true _ _ _ _ _ he1 with e2 | e2 | e2 <;> rw [e2] <;> decide
        · cases hh



namespace Node
variable {H : Type}

theorem Sim.of_children {seg : GoString} {kind : NodeKind} {cs ds : List (Node H)}
    {wild : Bool} {hd : Option H} {fp : GoString} {prio : Nat}
    (h1 : ∀ c ∈ cs, ∃ d ∈ ds, Sim c d) (h2 : ∀ d ∈ ds, ∃ c ∈ cs, Sim c d) :
    Sim (Node.mk seg kind cs wild hd fp prio) (Node.mk seg kind ds wild hd fp prio) :=
  Sim.mk seg kind cs ds wild hd fp prio Sim (fun _ _ h => h) h1 h2

theorem Sim.children {seg seg1 : GoString} {kind kind1 : NodeKind} {cs ds : List (Node H)}
    {wild wild1 : Bool} {hd hd1 : Option H} {fp fp1 : GoString} {prio prio1 : Nat}
    (h : Sim (Node.mk seg kind cs wild hd fp prio) (Node.mk seg1 kind1 ds wild1 hd1 fp1 prio1)) :
    seg1 = seg ∧ kind1 = kind ∧ wild1 = wild ∧ hd1 = hd ∧ fp1 = fp ∧ prio1 = prio ∧
      (∀ c ∈ cs, ∃ d ∈ ds, Sim c d) ∧ (∀ d ∈ ds, ∃ c ∈ cs, Sim c d) := by
  cases h with
  | mk _ _ _ _ _ _ _ _ R hR h1 h2 =>
    refine ⟨rfl, rfl, rfl, rfl, rfl, rfl, ?_, ?_⟩
    · intro c hc
      obtain ⟨d, hd, hr⟩ := h1 c hc
      exact ⟨d, hd, hR c d hr⟩
    · intro d hd
      obtain ⟨c, hc, hr⟩ := h2 d hd
      exact ⟨c, hc, hR c d hr⟩

theorem Sim.fields {n m : Node H} (h : Sim n m) :
    m.segment = n.segment ∧ m.kind = n.kind ∧ m.first = n.first := by
  cases h with
  | mk _ _ _ _ _ _ _ _ R hR h1 h2 => exact ⟨rfl, rfl, rfl⟩

theorem Sim.refl_of_wf (n : Node H) (hwf : WF n) : Sim n n := by
  induction hwf with
  | mk seg kind cs wild hd fp prio hst hpa hw hnw hnd hca hch ih =>
    exact Sim.of_children (fun c hc => ⟨c, hc, ih c hc⟩) (fun c hc => ⟨c, hc, ih c hc⟩)

theorem first_ne_of_nodup (l : List (Node H)) (c : Node H) (r : List (Node H))
    (hnd : ((l ++ c :: r).map first).Nodup) (x : Node H) (hx : x ∈ l ∨ x ∈ r) :
    x.first ≠ c.first := by
  intro e
  rw [List.map_append, List.map_cons] at hnd
  have h1 := List.nodup_append.mp hnd
  rcases hx with hx | hx
  · have hxm : x.first ∈ l.map first := List.mem_map_of_mem first hx
    exact h1.2.2 hxm (by rw [e]; simp)
  · have hxm : x.first ∈ r.map first := List.mem_map_of_mem first hx
    have := (List.nodup_cons.mp h1.2.1).1
    rw [← e] at this
    exact this hxm

theorem walk_sim (n : Node H) (hwf : WF n) :
    ∀ m, WF m → Sim n m → ∀ q acc, walk n q acc = walk m q acc := by
  induction hwf with
  | mk seg kind cs wild hd fp prio hst hpa hw hnw hnd hca hch ih =>
    intro m hwfm hsim q acc
    obtain ⟨seg1, kind1, ds, wild1, hd1, fp1, prio1⟩ := m
    obtain ⟨e1, e2, e3, e4, e5, e6, h1, h2⟩ := hsim.children
    subst e1 e2 e3 e4 e5 e6
    cases hwfm with
    | mk _ _ _ _ _ _ _ hst2 hpa2 hw2 hnw2 hnd2 hca2 hch2 =>
    have hkids : ∀ q1 acc1, walkChildren wild1 cs q1 acc1 = walkChildren wild1 ds q1 acc1 := by
      intro q1 acc1
      cases wild1 with
      | true =>
        obtain ⟨c, ec, _⟩ := hw rfl
        obtain ⟨d, ed, _⟩ := hw2 rfl
        subst ec ed
        obtain ⟨d1, hd1, hs1⟩ := h1 c (by simp)
        rw [List.mem_singleton] at hd1
        subst hd1
        rw [walkChildren_true_single, walkChildren_true_single]
        exact ih c (by simp) d1 (hch2 d1 (by simp)) hs1 q1 acc1
      | false =>
        by_cases hex : ∃ a ∈ cs, a.first = q1.head?
        · obtain ⟨a, ha, haf⟩ := hex
          obtain ⟨d, hd, hs⟩ := h1 a ha
          rw [walkChildren_false_of_mem cs a q1 acc1 hnd ha haf,
            walkChildren_false_of_mem ds d q1 acc1 hnd2 hd (by rw [hs.fields.2.2, haf])]
          exact ih a ha d (hch2 d hd) hs q1 acc1
        · rw [walkChildren_false_none cs q1 acc1 (fun a ha e => hex ⟨a, ha, e⟩),
            walkChildren_false_none ds q1 acc1 (by
              intro d hd e
              obtain ⟨c, hc, hs⟩ := h2 d hd
              exact hex ⟨c, hc, by rw [← hs.fields.2.2, e]⟩)]
    cases kind1 with
    | catchAll => rw [walk_catchAll, walk_catchAll]
    | static =>
      rw [walk_eq_consume _ _ _ _ _ _ _ _ _ (by decide),
        walk_eq_consume _ _ _ _ _ _ _ _ _ (by decide)]
      congr 1
      funext x
      unfold finish
      rw [hkids]
    | param =>
      rw [walk_eq_consume _ _ _ _ _ _ _ _ _ (by decide),
        walk_eq_consume _ _ _ _ _ _ _ _ _ (by decide)]
      congr 1
      funext x
      unfold finish
      rw [hkids]

theorem catchAllChild_sim (cs ds : List (Node H)) (wild : Bool)
    (hw : wild = true → ∃ c, cs = [c] ∧ c.kind ≠ .static)
    (hnw : wild = false → ∀ c ∈ cs, c.kind = .static ∧ c.segment ≠ [])
    (hw2 : wild = true → ∃ c, ds = [c] ∧ c.kind ≠ .static)
    (hnw2 : wild = false → ∀ c ∈ ds, c.kind = .static ∧ c.segment ≠ [])
    (h1 : ∀ c ∈ cs, ∃ d ∈ ds, Sim c d) : catchAllChild ds = catchAllChild cs := by
  cases wild with
  | true =>
    obtain ⟨c, ec, _⟩ := hw rfl
    obtain ⟨d, ed, _⟩ := hw2 rfl
    subst ec ed
    obtain ⟨d1, hd1, hs1⟩ := h1 c (by simp)
    rw [List.mem_singleton] at hd1
    subst hd1
    simp only [catchAllChild, hs1.fields.2.1]
  | false =>
    rw [catchAllChild_of_static cs (fun c hc => (hnw rfl c hc).1),
      catchAllChild_of_static ds (fun c hc => (hnw2 rfl c hc).1)]

end Node

namespace Node
variable {H : Type}

theorem insert_sim (b1 b2 : Bool) (n : Node H) (hwf : WF n) (full : GoString) (h : H) :
    ∀ (m : Node H) (p : GoString) (n1 : Node H), WF m → Sim n m →
      insert b1 n p full h = .ok n1 → ∃ m1, insert b2 m p full h = .ok m1 ∧ Sim n1 m1 := by
  induction hwf with
  | mk seg kind cs wild hd fp prio hst hpa hw hnw hnd hca hch ih =>
    intro m p n1 hwfm hsim hi
    obtain ⟨seg1, kind1, ds, wild1, hd1, fp1, prio1⟩ := m
    obtain ⟨e1, e2, e3, e4, e5, e6, h1, h2⟩ := hsim.children
    subst e1 e2 e3 e4 e5 e6
    cases hwfm with
    | mk _ _ _ _ _ _ _ hst2 hpa2 hw2 hnw2 hnd2 hca2 hch2 =>
    have hs := insert_step b1 seg1 kind1 cs wild1 hd1 fp1 prio1 p full h n1 hi
    have hold : Sim (Node.mk (seg1.drop (commonPrefixLen p seg1)) .static cs wild1 hd1 fp1 prio1)
        (Node.mk (seg1.drop (commonPrefixLen p seg1)) .static ds wild1 hd1 fp1 prio1) :=
      Sim.of_children h1 h2
    cases hs with
    | splitHandler hk hlt hrest =>
      refine ⟨_, insert_of_step _ _ _ _ _ _ _ _ _ _ _ _ (.splitHandler hk hlt hrest), ?_⟩
      refine Sim.of_children ?_ ?_
      · intro c hc
        rw [List.mem_singleton] at hc
        subst hc
        exact ⟨_, by simp, hold⟩
      · intro d hd
        rw [List.mem_singleton] at hd
        subst hd
        exact ⟨_, by simp, hold⟩
    | splitBranch br hk hlt hrest hwr hbr =>
      have hbrs : Sim br br := Sim.refl_of_wf br (newBranch_wf _ _ full h br hbr).1
      refine ⟨_, insert_of_step _ _ _ _ _ _ _ _ _ _ _ _ (.splitBranch br hk hlt hrest hwr hbr), ?_⟩
      refine Sim.of_children ?_ ?_
      · intro c hc
        simp only [List.mem_cons, List.mem_singleton, List.not_mem_nil, or_false] at hc
        rcases hc with hc | hc
        · subst hc; exact ⟨_, by simp, hold⟩
        · subst hc; exact ⟨c, by simp, hbrs⟩
      · intro d hd
        simp only [List.mem_cons, List.mem_singleton, List.not_mem_nil, or_false] at hd
        rcases hd with hd | hd
        · subst hd; exact ⟨_, by simp, hold⟩
        · subst hd; exact ⟨d, by simp, hbrs⟩
    | setHandler hk hlen hpar hrest hhd hcac =>
      have hcad : catchAllChild ds = false := by
        rw [catchAllChild_sim cs ds wild1 hw hnw hw2 hnw2 h1]; exact hcac
      exact ⟨_, insert_of_step _ _ _ _ _ _ _ _ _ _ _ _ (.setHandler hk hlen hpar hrest hhd hcad),
        Sim.of_children h1 h2⟩
    | intoWild c c1 hk hlen hpar hrest hwild hcs hins =>
      subst hcs
      obtain ⟨d, ed, _⟩ := hw2 hwild
      subst ed
      obtain ⟨d1, hd1m, hs1⟩ := h1 c (by simp)
      rw [List.mem_singleton] at hd1m
      subst hd1m
      obtain ⟨dd, hdd, hsd⟩ := ih c (by simp) d1 _ c1 (hch2 d1 (by simp)) hs1 hins
      refine ⟨_, insert_of_step _ _ _ _ _ _ _ _ _ _ _ _
        (.intoWild d1 dd hk hlen hpar hrest hwild rfl hdd), ?_⟩
      refine Sim.of_children ?_ ?_
      · intro x hx
        rw [List.mem_singleton] at hx
        subst hx
        exact ⟨dd, by simp, hsd⟩
      · intro x hx
        rw [List.mem_singleton] at hx
        subst hx
        exact ⟨c1, by simp, hsd⟩
    | newWild br hk hlen hpar hrest hwild hwr hcs hcond hbr =>
      subst hcs
      have hds : ds = [] := by
        cases ds with
        | nil => rfl
        | cons d t =>
          obtain ⟨c, hc, _⟩ := h2 d (by simp)
          cases hc
      subst hds
      have hbrs : Sim br br := Sim.refl_of_wf br (newBranch_wf _ _ full h br hbr).1
      refine ⟨_, insert_of_step _ _ _ _ _ _ _ _ _ _ _ _
        (.newWild br hk hlen hpar hrest hwild hwr rfl hcond hbr), ?_⟩
      exact Sim.of_children (fun x hx => ⟨x, hx, by
        rw [List.mem_singleton] at hx; subst hx; exact hbrs⟩)
        (fun x hx => ⟨x, hx, by rw [List.mem_singleton] at hx; subst hx; exact hbrs⟩)
    | intoChild l c r c1 hk hlen hpar hrest hwild hwr hcs hl hc hins =>
      subst hcs
      obtain ⟨d, hdm, hsd⟩ := h1 c (by simp)
      obtain ⟨l2, r2, eds⟩ := List.append_of_mem hdm
      subst eds
      have hdf : d.first = c.first := hsd.fields.2.2
      obtain ⟨d1, hd1, hs1⟩ := ih c (by simp) d _ c1 (hch2 d (by simp)) hsd hins
      have hl2 : ∀ a ∈ l2, a.first ≠ (p.drop seg1.length).head? := by
        intro a ha
        rw [← hc, ← hdf]
        exact first_ne_of_nodup l2 d r2 hnd2 a (Or.inl ha)
      refine ⟨_, insert_of_step _ _ _ _ _ _ _ _ _ _ _ _
        (.intoChild l2 d r2 d1 hk hlen hpar hrest hwild hwr rfl hl2 (by rw [hdf, hc]) hd1), ?_⟩
      refine Sim.of_children ?_ ?_
      · intro x hx
        rcases (mem_relocate b1 l c1 r x).mp hx with e | e | e
        · obtain ⟨y, hy, hsy⟩ := h1 x (by simp [e])
          have hne : y ≠ d := by
            intro e2
            subst e2
            exact first_ne_of_nodup l c r hnd x (Or.inl e) (by rw [← hsy.fields.2.2, hdf])
          refine ⟨y, (mem_relocate b2 l2 d1 r2 y).mpr ?_, hsy⟩
          rcases List.mem_append.mp hy with e3 | e3
          · exact Or.inl e3
          · rcases List.mem_cons.mp e3 with e4 | e4
            · exact absurd e4 hne
            · exact Or.inr (Or.inr e4)
        · subst e
          exact ⟨d1, (mem_relocate b2 l2 d1 r2 d1).mpr (Or.inr (Or.inl rfl)), hs1⟩
        · obtain ⟨y, hy, hsy⟩ := h1 x (by simp [e])
          have hne : y ≠ d := by
            intro e2
            subst e2
            exact first_ne_of_nodup l c r hnd x (Or.inr e) (by rw [← hsy.fields.2.2, hdf])
          refine ⟨y, (mem_relocate b2 l2 d1 r2 y).mpr ?_, hsy⟩
          rcases List.mem_append.mp hy with e3 | e3
          · exact Or.inl e3
          · rcases List.mem_cons.mp e3 with e4 | e4
            · exact absurd e4 hne
            · exact Or.inr (Or.inr e4)
      · intro y hy
        have hback : ∀ y, (y ∈ l2 ∨ y ∈ r2) → ∃ x ∈ relocate b1 l c1 r, Sim x y := by
          intro y hy2
          obtain ⟨x, hx, hsx⟩ := h2 y (by
            rcases hy2 with e | e
            · simp [e]
            · simp [e])
          have hne : x ≠ c := by
            intro e2
            subst e2
            exact first_ne_of_nodup l2 d r2 hnd2 y hy2 (by rw [hsx.fields.2.2, hdf])
          refine ⟨x, (mem_relocate b1 l c1 r x).mpr ?_, hsx⟩
          rcases List.mem_append.mp hx with e3 | e3
          · exact Or.inl e3
          · rcases List.mem_cons.mp e3 with e4 | e4
            · exact absurd e4 hne
            · exact Or.inr (Or.inr e4)
        rcases (mem_relocate b2 l2 d1 r2 y).mp hy with e | e | e
        · exact hback y (Or.inl e)
        · subst e
          exact ⟨c1, (mem_relocate b1 l c1 r c1).mpr (Or.inr (Or.inl rfl)), hs1⟩
        · exact hback y (Or.inr e)
    | newChild br hk hlen hpar hrest hwild hwr hcs hbr =>
      have hbrs : Sim br br := Sim.refl_of_wf br (newBranch_wf _ _ full h br hbr).1
      have hds : ∀ a ∈ ds, a.first ≠ (p.drop seg1.length).head? := by
        intro a ha e
        obtain ⟨c, hc, hsc⟩ := h2 a ha
        exact hcs c hc (by rw [← hsc.fields.2.2, e])
      refine ⟨_, insert_of_step _ _ _ _ _ _ _ _ _ _ _ _
        (.newChild br hk hlen hpar hrest hwild hwr hds hbr), ?_⟩
      refine Sim.of_children ?_ ?_
      · intro x hx
        rcases List.mem_append.mp hx with e | e
        · obtain ⟨y, hy, hsy⟩ := h1 x e
          exact ⟨y, by simp [hy], hsy⟩
        · rw [List.mem_singleton] at e
          subst e
          exact ⟨x, by simp, hbrs⟩
      · intro y hy
        rcases List.mem_append.mp hy with e | e
        · obtain ⟨x, hx, hsx⟩ := h2 y e
          exact ⟨x, by simp [hx], hsx⟩
        · rw [List.mem_singleton] at e
          subst e
          exact ⟨y, by simp, hbrs⟩

theorem insertAll_sim (routes : List (GoString × H)) (n m t : Node H) (hn : WF n) (hm : WF m)
    (hs : Sim n m) (hi : insertAll true n routes = .ok t) :
    ∃ t1, insertAll false m routes = .ok t1 ∧ WF t ∧ WF t1 ∧ Sim t t1 := by
  induction routes generalizing n m with
  | nil =>
    simp only [insertAll, Except.ok.injEq] at hi
    subst hi
    exact ⟨m, rfl, hn, hm, hs⟩
  | cons rt rest ih =>
    obtain ⟨p, h⟩ := rt
    unfold insertAll at hi
    split at hi
    · cases hi
    · rename_i n1 hn1
      obtain ⟨m1, hm1, hs1⟩ := insert_sim true false n hn p h m p n1 hm hs hn1
      obtain ⟨t1, ht1, hw⟩ := ih n1 m1 (insert_wf true n hn p h p n1 hn1).1
        (insert_wf false m hm p h p m1 hm1).1 hs1 hi
      refine ⟨t1, ?_, hw⟩
      unfold insertAll
      rw [hm1]
      exact ht1

end Node



theorem jwt_eq_credential {H G J E : Type} (env : Env J E) (router : Router H G)
    (r : Request) :
    Router.jwt env router r =
      ({ (Router.credential env router r).1 with
          Impersonate := r.Header.Get "Authorization".toList },
        if (Router.credential env router r).2.isNone = true ∧
            router.JwtConf.ForceUser = true ∧ (Router.credential env router r).1.UserId = []
        then some (Error.new "missing user id") else (Router.credential env router r).2) := by
  rfl

theorem GetJWTPayload_of_parts {σ E : Type} (results : List (Target σ E)) (s : σ)
    (ty head payload sig : GoString) (hty : ' ' ∉ ty)
    (htok : ' ' ∉ head ++ '.' :: (payload ++ '.' :: sig))
    (hh : '.' ∉ head) (hp : '.' ∉ payload) (hs : '.' ∉ sig) :
    GetJWTPayload (ty ++ ' ' :: (head ++ '.' :: (payload ++ '.' :: sig))) results s
      = DecodeJWTSegment payload results s := by
  have h1 : Split (ty ++ ' ' :: (head ++ '.' :: (payload ++ '.' :: sig))) ' '
      = [ty, head ++ '.' :: (payload ++ '.' :: sig)] := by
    rw [Split_append _ _ _ hty, Split_of_not_mem _ _ htok]
  have h2 : Split (head ++ '.' :: (payload ++ '.' :: sig)) '.' = [head, payload, sig] := by
    rw [Split_append _ _ _ hh, Split_append _ _ _ hp, Split_of_not_mem _ _ hs]
  unfold GetJWTPayload
  simp only [h1]
  simp only [List.length_cons, List.length_nil, List.getD_cons_succ, List.getD_cons_zero, h2]
  rfl

theorem credential_of_header {H G J E : Type} (env : Env J E) (router : Router H G)
    (r : Request) (auth : GoString) (hget : r.Header.Get "Authorization".toList = auth)
    (hne : auth ≠ []) (hkey : router.JwtConf.PubRsa = []) :
    Router.credential env router r
      = GetJWTPayload auth [env.intoMap, env.intoToken] (emptyClaims J) := by
  unfold Router.credential
  rw [hget, if_neg hne, if_pos hkey]

theorem GetJWTPayload_not_missing_user {σ E : Type} (auth : GoString)
    (results : List (Target σ E)) (s : σ) :
    (GetJWTPayload auth results s).2 ≠ some (.new "missing user id") := by
  unfold GetJWTPayload
  simp only
  split
  · intro h
    exact absurd (Error.new.inj (Option.some.inj h)) (by decide)
  · split
    · intro h
      exact absurd (Error.new.inj (Option.some.inj h)) (by decide)
    · exact DecodeJWTSegment_not_new _ _ _ _

theorem GetJWTPayloadAndValidate_not_missing_user {σ E : Type}
    (parse : GoString → GoString → Except E (Option Bytes)) (auth key : GoString)
    (results : List (Target σ E)) (s : σ) :
    (GetJWTPayloadAndValidate parse auth key results s).2 ≠ some (.new "missing user id") := by
  unfold GetJWTPayloadAndValidate
  simp only
  split
  · intro h
    exact absurd (Error.new.inj (Option.some.inj h)) (by decide)
  · split
    · simp
    · intro h
      exact absurd (Error.new.inj (Option.some.inj h)) (by decide)
    · exact unmarshalEach_not_new _ _ _ _

theorem credential_not_missing_user {H G J E : Type} (env : Env J E) (router : Router H G)
    (r : Request) : (Router.credential env router r).2 ≠ some (.new "missing user id") := by
  unfold Router.credential
  split
  · split
    · intro h
      exact absurd (Error.new.inj (Option.some.inj h)) (by decide)
    · simp
  · split
    · exact GetJWTPayload_not_missing_user _ _ _
    · exact GetJWTPayloadAndValidate_not_missing_user _ _ _ _ _

theorem unmarshalEach_all_ok {σ E : Type} (b : Bytes) (results : List (Target σ E)) (s : σ)
    (hok : ∀ l t r, results = l ++ t :: r →
      (t b (l.foldl (fun st u => (u b st).1) s)).2 = none) :
    unmarshalEach b results s = (results.foldl (fun st u => (u b st).1) s, none) := by
  induction results generalizing s with
  | nil => rfl
  | cons t rs ih =>
    have h0 : (t b s).2 = none := hok [] t rs rfl
    rw [unmarshalEach]
    cases hts : t b s with
    | mk s1 o =>
      rw [hts] at h0
      simp only at h0
      subst h0
      simp only [List.foldl_cons, hts]
      apply ih
      intro l u r e
      have := hok (t :: l) u r (by rw [e]; rfl)
      simpa only [List.foldl_cons, hts] using this

theorem unmarshalEach_first_error {σ E : Type} (b : Bytes) (pre : List (Target σ E))
    (t : Target σ E) (post : List (Target σ E)) (s : σ) (e : E)
    (hok : ∀ l u r, pre = l ++ u :: r →
      (u b (l.foldl (fun st v => (v b st).1) s)).2 = none)
    (hfail : (t b (pre.foldl (fun st v => (v b st).1) s)).2 = some e) :
    unmarshalEach b (pre ++ t :: post) s
      = ((t b (pre.foldl (fun st v => (v b st).1) s)).1, some (.lib e)) := by
  induction pre generalizing s with
  | nil =>
    simp only [List.nil_append, List.foldl_nil] at hfail ⊢
    rw [unmarshalEach]
    cases hts : t b s with
    | mk s1 o =>
      rw [hts] at hfail
      simp only at hfail
      subst hfail
      rfl
  | cons u pre ih =>
    have h0 : (u b s).2 = none := hok [] u pre rfl
    rw [List.cons_append, unmarshalEach]
    cases hus : u b s with
    | mk s1 o =>
      rw [hus] at h0
      simp only at h0
      subst h0
      simp only [List.foldl_cons, hus] at hfail ⊢
      apply ih s1 _ hfail
      intro l v r e1
      have := hok (u :: l) v r (by rw [e1]; rfl)
      simpa only [List.foldl_cons, hus] using this

/-! ## Params -/

/-- C5: `ByName` returns the value of the first pair whose key is `name`, and
the empty string when no pair has that key; pairs with duplicate keys are
accepted. -/
theorem Params_ByName_first (ps : Params) (name : GoString) :
    (∀ (pre : Params) (p : Param) (post : Params), ps = pre ++ p :: post →
        (∀ q ∈ pre, q.Key ≠ name) → p.Key = name → Params.ByName ps name = p.Value) ∧
    ((∀ q ∈ ps, q.Key ≠ name) → Params.ByName ps name = []) := by
  constructor
  · intro pre
    induction pre generalizing ps with
    | nil =>
      intro p post e _ hp
      subst e
      simp [Params.ByName, hp]
    | cons q pre ih =>
      intro p post e hpre hp
      subst e
      have hq : q.Key ≠ name := hpre q (by simp)
      rw [List.cons_append, Params.ByName, if_neg hq]
      exact ih _ p post rfl (fun x hx => hpre x (by simp [hx])) hp
  · intro h
    induction ps with
    | nil => rfl
    | cons q ps ih =>
      rw [Params.ByName, if_neg (h q (by simp))]
      exact ih (fun x hx => h x (by simp [hx]))

/-- C5, witness: with the key `a` twice, the first value is returned, and a
key that does not occur gives the empty string. -/
theorem Params_ByName_first_witness :
    Params.ByName [⟨"a".toList, "1".toList⟩, ⟨"b".toList, "2".toList⟩, ⟨"a".toList, "3".toList⟩]
        "a".toList = "1".toList ∧
      Params.ByName [⟨"a".toList, "1".toList⟩, ⟨"b".toList, "2".toList⟩] "c".toList = [] :=
  ⟨(Params_ByName_first _ "a".toList).1 [] ⟨"a".toList, "1".toList⟩
      [⟨"b".toList, "2".toList⟩, ⟨"a".toList, "3".toList⟩] rfl (by simp) rfl,
    (Params_ByName_first _ "c".toList).2 (by decide)⟩

/-! ## `Router.jwt` -/

theorem jwt_of_no_header {H G J E : Type} (env : Env J E) (router : Router H G)
    (r : Request) (hr : r.noAuthorization) :
    Router.jwt env router r =
      (emptyClaims J,
        if router.JwtConf.ForceAuth = true then some (Error.new "missing Authorization header")
        else if router.JwtConf.ForceUser = true then some (Error.new "missing user id")
        else none) := by
  have hget : r.Header.Get "Authorization".toList = [] := Header_Get_of_absent _ _ hr
  unfold Router.jwt
  simp only [hget, if_true]
  cases router.JwtConf.ForceAuth <;> cases router.JwtConf.ForceUser <;> simp [emptyClaims]

/-- C7, counterexample: authentication is not required and the request has no
Authorization header, yet `Router.jwt` returns an error, because a user id is
required. -/
theorem jwt_no_header_counterexample :
    userOnlyRouter.JwtConf.ForceAuth = false ∧ bareRequest.noAuthorization ∧
      (Router.jwt idleEnv userOnlyRouter bareRequest).2 = some (Error.new "missing user id") :=
  ⟨rfl, fun _ h => absurd h (List.not_mem_nil _), rfl⟩

/-- C7, amended: when authentication is not required and the request carries
no Authorization header, `Router.jwt` returns the empty claims value (no user
id, empty map, no resource or realm access, empty impersonation string); the
error is nil when no user id is required and `missing user id` when one is. -/
theorem jwt_no_header_optional {H G J E : Type} (env : Env J E) (router : Router H G)
    (r : Request) (hauth : router.JwtConf.ForceAuth = false) (hr : r.noAuthorization) :
    (Router.jwt env router r).1 = emptyClaims J ∧
      (router.JwtConf.ForceUser = false → (Router.jwt env router r).2 = none) ∧
      (router.JwtConf.ForceUser = true →
        (Router.jwt env router r).2 = some (Error.new "missing user id")) := by
  rw [jwt_of_no_header env router r hr]
  refine ⟨rfl, ?_, ?_⟩
  · intro hu
    simp [hauth, hu]
  · intro hu
    simp [hauth, hu]

/-- C7, witness of the amended statement on a router without requirements. -/
theorem jwt_no_header_optional_witness :
    (Router.jwt idleEnv openRouter bareRequest).1 = emptyClaims Unit ∧
      (openRouter.JwtConf.ForceUser = false →
        (Router.jwt idleEnv openRouter bareRequest).2 = none) ∧
      (openRouter.JwtConf.ForceUser = true →
        (Router.jwt idleEnv openRouter bareRequest).2 = some (Error.new "missing user id")) :=
  jwt_no_header_optional idleEnv openRouter bareRequest rfl
    (fun _ h => absurd h (List.not_mem_nil _))

/-- C8: when authentication is required and the request carries no
Authorization header, `Router.jwt` returns the error `missing Authorization
header` with the empty claims value, whatever `ForceUser`, `PubRsa` and the
decoding libraries are: nothing is decoded. -/
theorem jwt_no_header_forced {H G J E : Type} (env : Env J E) (router : Router H G)
    (r : Request) (hauth : router.JwtConf.ForceAuth = true) (hr : r.noAuthorization) :
    Router.jwt env router r
      = (emptyClaims J, some (Error.new "missing Authorization header")) := by
  rw [jwt_of_no_header env router r hr]
  simp [hauth]

/-- C8, witness on a router that requires authentication. -/
theorem jwt_no_header_forced_witness :
    Router.jwt idleEnv authRouter bareRequest
      = (emptyClaims Unit, some (Error.new "missing Authorization header")) :=
  jwt_no_header_forced idleEnv authRouter bareRequest rfl
    (fun _ h => absurd h (List.not_mem_nil _))

/-! ## `GetJWTPayload` -/

/-- C9: `GetJWTPayload` returns the auth-format error exactly when `auth` does
not contain exactly one space; otherwise, with `tok` the text after the space,
it returns the token-format error exactly when `tok` does not contain exactly
two dots; otherwise its result is that of `DecodeJWTSegment` on the text
between the two dots.  The format errors leave the results untouched. -/
theorem GetJWTPayload_format {σ E : Type} (auth : GoString) (results : List (Target σ E))
    (s : σ) :
    ((GetJWTPayload auth results s).2
        = some (.new "expect auth string format like '<type> <token>'")
      ↔ auth.count ' ' ≠ 1) ∧
    (auth.count ' ' ≠ 1 → (GetJWTPayload auth results s).1 = s) ∧
    ∀ ty tok : GoString, auth = ty ++ ' ' :: tok → ' ' ∉ ty → ' ' ∉ tok →
      (((GetJWTPayload auth results s).2
          = some (.new "expect token string format like '<head>.<payload>.<sig>'")
        ↔ tok.count '.' ≠ 2) ∧
       (tok.count '.' ≠ 2 → (GetJWTPayload auth results s).1 = s) ∧
       ∀ head payload sig : GoString, tok = head ++ '.' :: (payload ++ '.' :: sig) →
         '.' ∉ head → '.' ∉ payload → '.' ∉ sig →
         GetJWTPayload auth results s = DecodeJWTSegment payload results s) := by
  have hlenA : (Split auth ' ').length ≠ 2 ↔ auth.count ' ' ≠ 1 := by
    rw [Split_length]; omega
  have hA : auth.count ' ' ≠ 1 → GetJWTPayload auth results s
      = (s, some (.new "expect auth string format like '<type> <token>'")) := by
    intro h
    unfold GetJWTPayload
    simp only [hlenA.mpr h, if_true, ne_eq, not_false_eq_true]
  have hB : ∀ ty tok : GoString, auth = ty ++ ' ' :: tok → ' ' ∉ ty → ' ' ∉ tok →
      GetJWTPayload auth results s =
        if (Split tok '.').length ≠ 3 then
          (s, some (.new "expect token string format like '<head>.<payload>.<sig>'"))
        else DecodeJWTSegment ((Split tok '.').getD 1 []) results s := by
    intro ty tok hauth hty htok
    have hsplit : Split auth ' ' = [ty, tok] := by
      rw [hauth, Split_append _ _ _ hty, Split_of_not_mem _ _ htok]
    unfold GetJWTPayload
    simp only [hsplit]
    rfl
  have hlenT : ∀ tok : GoString, (Split tok '.').length ≠ 3 ↔ tok.count '.' ≠ 2 := by
    intro tok; rw [Split_length]; omega
  refine ⟨⟨?_, fun h => by rw [hA h]⟩, fun h => by rw [hA h], ?_⟩
  · intro h hc
    obtain ⟨ty, tok, hauth, hty, htok⟩ := exists_split_of_count ' ' auth 0 hc
    rw [hB ty tok hauth hty (List.count_eq_zero.mp htok)] at h
    split at h
    · exact absurd (Error.new.inj (Option.some.inj h)) (by decide)
    · exact DecodeJWTSegment_not_new _ _ _ _ h
  · intro ty tok hauth hty htok
    rw [hB ty tok hauth hty htok]
    refine ⟨⟨?_, fun h => by rw [if_pos ((hlenT tok).mpr h)]⟩,
      fun h => by rw [if_pos ((hlenT tok).mpr h)], ?_⟩
    · intro h hc
      rw [if_neg (fun h3 => (hlenT tok).mp h3 hc)] at h
      exact DecodeJWTSegment_not_new _ _ _ _ h
    · intro head payload sig htok2 hh hp hs
      have hsplit : Split tok '.' = [head, payload, sig] := by
        rw [htok2, Split_append _ _ _ hh, Split_append _ _ _ hp, Split_of_not_mem _ _ hs]
      rw [hsplit]
      rfl

/-- C9, witness: `Bearer aa.e30.cc` passes both format checks, so the result is
the decoding of `e30` (the base64url text of `{}`), which the idle
unmarshaller accepts. -/
theorem GetJWTPayload_format_witness :
    "Bearer aa.e30.cc".toList.count ' ' = 1 ∧
      GetJWTPayload "Bearer aa.e30.cc".toList [idleEnv.intoMap, idleEnv.intoToken]
          (emptyClaims Unit)
        = DecodeJWTSegment "e30".toList [idleEnv.intoMap, idleEnv.intoToken]
          (emptyClaims Unit) ∧
      (DecodeJWTSegment "e30".toList [idleEnv.intoMap, idleEnv.intoToken]
          (emptyClaims Unit)).2 = none :=
  ⟨by decide,
    ((GetJWTPayload_format "Bearer aa.e30.cc".toList [idleEnv.intoMap, idleEnv.intoToken]
        (emptyClaims Unit)).2.2 "Bearer".toList "aa.e30.cc".toList rfl (by decide)
        (by decide)).2.2 "aa".toList "e30".toList "cc".toList rfl (by decide) (by decide)
        (by decide),
    rfl⟩

/-! ## `DecodeJWTSegment` -/

/-- C10: for a byte string `b`, let `seg` be its padded URL-safe base64
encoding without the trailing `=`.  The padding step of `DecodeJWTSegment`
appends `4 - len mod 4` characters `=` when `len mod 4 > 0` and nothing
otherwise, which gives the least multiple of 4 not below the length and
restores the padded encoding; the base64 step then succeeds with exactly `b`;
and `b` is what every result is unmarshalled from, in order: when no target
fails the memory is that after all of them and the error is nil, and when a
target fails after the ones before it succeeded, the memory is that after the
failing target and the error is its error. -/
theorem DecodeJWTSegment_stripped {σ E : Type} (b : Bytes) (hb : ∀ x ∈ b, x < 256)
    (results : List (Target σ E)) (s : σ) :
    let seg := base64.stripPadding (base64.EncodeToString b)
    (seg.length % 4 > 0 → padSegment seg = seg ++ List.replicate (4 - seg.length % 4) '=') ∧
    (seg.length % 4 = 0 → padSegment seg = seg) ∧
    (padSegment seg).length % 4 = 0 ∧ seg.length ≤ (padSegment seg).length ∧
    (padSegment seg).length < seg.length + 4 ∧
    padSegment seg = base64.EncodeToString b ∧
    base64.DecodeString (padSegment seg) = .ok b ∧
    DecodeJWTSegment seg results s = unmarshalEach b results s ∧
    ((∀ l t r, results = l ++ t :: r →
        (t b (l.foldl (fun st u => (u b st).1) s)).2 = none) →
      DecodeJWTSegment seg results s = (results.foldl (fun st u => (u b st).1) s, none)) ∧
    (∀ pre t post e, results = pre ++ t :: post →
      (∀ l u r, pre = l ++ u :: r →
        (u b (l.foldl (fun st v => (v b st).1) s)).2 = none) →
      (t b (pre.foldl (fun st v => (v b st).1) s)).2 = some e →
      DecodeJWTSegment seg results s
        = ((t b (pre.foldl (fun st v => (v b st).1) s)).1, some (.lib e))) := by
  intro seg
  have hpad : padSegment seg = base64.EncodeToString b := padSegment_stripPadding b
  have hdec : base64.DecodeString (padSegment seg) = .ok b := by
    rw [hpad]; exact base64.DecodeString_EncodeToString b hb
  have hrun : DecodeJWTSegment seg results s = unmarshalEach b results s := by
    unfold DecodeJWTSegment
    rw [hdec]
  refine ⟨fun h => by rw [padSegment, if_pos h], fun h => by rw [padSegment, if_neg (by omega)],
    (padSegment_length seg).1, (padSegment_length seg).2.1, (padSegment_length seg).2.2,
    hpad, hdec, hrun, ?_, ?_⟩
  · intro hok
    rw [hrun]
    exact unmarshalEach_all_ok b results s hok
  · intro pre t post e hres hok hfail
    rw [hrun, hres]
    exact unmarshalEach_first_error b pre t post s e hok hfail

/-- C10, witness: the two bytes of `{}` are encoded as `e30=`, stripped to
`e30`, and decoded again; two recording targets both receive them, and a
failing target between two recording ones stops the loop after the first. -/
theorem DecodeJWTSegment_stripped_witness :
    base64.stripPadding (base64.EncodeToString [123, 125]) = "e30".toList ∧
      base64.DecodeString (padSegment "e30".toList) = .ok [123, 125] ∧
      DecodeJWTSegment "e30".toList [recordTarget, recordTarget] []
        = ([[123, 125], [123, 125]], none) ∧
      DecodeJWTSegment "e30".toList [recordTarget, failTarget, recordTarget] []
        = ([[123, 125]], some (.lib ())) :=
  ⟨by decide,
    (DecodeJWTSegment_stripped [123, 125] (by decide) [recordTarget, recordTarget]
      []).2.2.2.2.2.2.1,
    (DecodeJWTSegment_stripped [123, 125] (by decide) [recordTarget, recordTarget]
      []).2.2.2.2.2.2.2.2.1 (fun l t r h => by
        have hm : t ∈ [recordTarget, recordTarget] := by rw [h]; simp
        simp only [List.mem_cons, List.mem_singleton, List.not_mem_nil, or_false, or_self] at hm
        subst hm
        rfl),
    (DecodeJWTSegment_stripped [123, 125] (by decide) [recordTarget, failTarget, recordTarget]
      []).2.2.2.2.2.2.2.2.2 [recordTarget] failTarget [recordTarget] () rfl
      (fun l u r h => by
        have hm : u ∈ [recordTarget] := by rw [h]; simp
        rw [List.mem_singleton] at hm
        subst hm
        rfl) rfl⟩

/-! ## Lemmas: the trees of a router -/

theorem root?_of_mem {H : Type} (ts : List (GoString × Node H)) (hk : (ts.map Prod.fst).Nodup)
    (m : GoString) (n : Node H) : (m, n) ∈ ts ↔ root? ts m = some n := by
  induction ts with
  | nil => simp [root?]
  | cons t rest ih =>
    obtain ⟨k, v⟩ := t
    rw [List.map_cons, List.nodup_cons] at hk
    unfold root?
    by_cases hkm : k = m
    · subst hkm
      simp only [if_true, List.mem_cons, Prod.mk.injEq, true_and, Option.some.injEq]
      constructor
      · rintro (h | h)
        · exact h.symm
        · exact absurd (List.mem_map_of_mem Prod.fst h) hk.1
      · intro h; exact Or.inl h.symm
    · simp only [if_neg hkm, List.mem_cons, Prod.mk.injEq]
      rw [← ih hk.2]
      constructor
      · rintro (h | h)
        · exact absurd h.1.symm hkm
        · exact h
      · intro h; exact Or.inr h

theorem setRoot_keys {H : Type} (ts : List (GoString × Node H)) (m : GoString) (n : Node H) :
    (setRoot ts m n).map Prod.fst
      = if m ∈ ts.map Prod.fst then ts.map Prod.fst else ts.map Prod.fst ++ [m] := by
  induction ts with
  | nil => simp [setRoot]
  | cons t rest ih =>
    obtain ⟨k, v⟩ := t
    unfold setRoot
    by_cases hkm : k = m
    · subst hkm
      rw [if_pos rfl]
      simp only [List.map_cons, List.mem_cons, true_or, if_true]
    · rw [if_neg hkm, List.map_cons, ih]
      have hmk : ¬ m = k := fun e => hkm e.symm
      by_cases hm : m ∈ rest.map Prod.fst
      · simp only [hm, if_true, List.map_cons, List.mem_cons, or_true]
      · simp only [hm, if_false, List.map_cons, List.mem_cons, hmk, or_self, List.cons_append]

theorem setRoot_nodup {H : Type} (ts : List (GoString × Node H)) (m : GoString) (n : Node H)
    (hk : (ts.map Prod.fst).Nodup) : ((setRoot ts m n).map Prod.fst).Nodup := by
  rw [setRoot_keys]
  split
  · exact hk
  · rename_i hm
    refine List.Nodup.append hk (List.nodup_singleton m) ?_
    intro x hx hx2
    rw [List.mem_singleton] at hx2
    subst hx2
    exact hm hx

theorem Handle_nodup {H G : Type} (r r1 : Router H G) (method path : GoString)
    (handle : Option H) (h : r.Handle method path handle = .ok r1)
    (hk : (r.trees.map Prod.fst).Nodup) : (r1.trees.map Prod.fst).Nodup := by
  unfold Router.Handle at h
  split at h
  · cases h
  · split at h
    · cases h
    · split at h
      · split at h
        · cases h
        · cases h; exact setRoot_nodup _ _ _ hk
      · split at h
        · cases h
        · cases h; exact setRoot_nodup _ _ _ hk

theorem register_nodup {H G : Type} (routes : List (Route H)) (r r1 : Router H G)
    (h : r.register routes = .ok r1) (hk : (r.trees.map Prod.fst).Nodup) :
    (r1.trees.map Prod.fst).Nodup := by
  induction routes generalizing r with
  | nil =>
    simp only [Router.register, Except.ok.injEq] at h
    subst h; exact hk
  | cons rt rest ih =>
    unfold Router.register at h
    split at h
    · cases h
    · rename_i r2 h2
      exact ih r2 h (Handle_nodup _ _ _ _ _ h2 hk)

theorem mem_others {H G : Type} (r : Router H G) (hk : (r.trees.map Prod.fst).Nodup)
    (path reqMethod m : GoString) :
    m ∈ r.others path reqMethod ↔ m ≠ reqMethod ∧ (r.Lookup m path).1.isSome = true := by
  unfold Router.others Router.Lookup
  simp only [List.mem_map, List.mem_filter, decide_eq_true_eq, Prod.exists, exists_and_right,
    exists_eq_right]
  constructor
  · rintro ⟨n, hmem, hne, hs⟩
    rw [(root?_of_mem _ hk m n).mp hmem]
    exact ⟨hne, hs⟩
  · rintro ⟨hne, hs⟩
    cases hroot : root? r.trees m with
    | none => rw [hroot] at hs; simp at hs
    | some n =>
      rw [hroot] at hs
      exact ⟨n, (root?_of_mem _ hk m n).mpr hroot, hne, hs⟩

theorem others_nodup {H G : Type} (r : Router H G) (hk : (r.trees.map Prod.fst).Nodup)
    (path reqMethod : GoString) : (r.others path reqMethod).Nodup := by
  unfold Router.others
  exact List.Nodup.sublist (List.Sublist.map _ (List.filter_sublist _)) hk

theorem allowList_nodup (ms : List GoString) (h : ms.Nodup) : (Router.allowList ms).Nodup := by
  unfold Router.allowList
  refine List.Nodup.append (h.filter _) (List.nodup_singleton _) ?_
  intro m hm hm2
  have h1 := (List.mem_filter.mp hm).2
  have h2 : m = "OPTIONS".toList := by simpa using hm2
  simp [h2] at h1

theorem mem_allowList (ms : List GoString) (m : GoString) :
    m ∈ Router.allowList ms ↔ m = "OPTIONS".toList ∨ m ∈ ms := by
  unfold Router.allowList
  simp only [List.mem_append, List.mem_filter, decide_eq_true_eq, List.mem_singleton]
  constructor
  · rintro (h | h)
    · exact Or.inr h.1
    · exact Or.inl h
  · rintro (h | h)
    · exact Or.inr h
    · by_cases e : m = "OPTIONS".toList
      · exact Or.inr e
      · exact Or.inl ⟨h, e⟩

theorem ServeHTTP_of_no_handler {H G C : Type} (fix : Node H → GoString → Option GoString)
    (claims : Request → C) (r : Router H G) (req : Request)
    (hno : (r.Lookup req.Method req.Path).1 = none) :
    r.ServeHTTP fix claims req =
      if (r.Lookup req.Method req.Path).2.2 = true ∧ req.Method ≠ "CONNECT".toList ∧
          req.Path ≠ "/".toList then
        .redirectTSR (Router.redirectCode req.Method) (Node.toggleSlash req.Path)
      else
        match (if r.RedirectFixedPath then
                 (root? r.trees req.Method).bind (fun n => fix n req.Path)
               else none) with
        | some fixed => .redirectFixedCase (Router.redirectCode req.Method) fixed
        | none =>
          if req.Method = "OPTIONS".toList ∧ r.HandleOPTIONS = true then
            if (if req.Path = "*".toList then r.trees.map Prod.fst
                else r.others req.Path req.Method).filter (fun m => m ≠ "OPTIONS".toList) = []
            then .notFound r.NotFound
            else .optionsHandled (Router.allowHeader
              (if req.Path = "*".toList then r.trees.map Prod.fst
               else r.others req.Path req.Method))
          else if r.others req.Path req.Method = [] then .notFound r.NotFound
          else .methodNotAllowed (Router.allowHeader (r.others req.Path req.Method))
            r.MethodNotAllowed := by
  unfold Router.ServeHTTP
  rcases hl : r.Lookup req.Method req.Path with ⟨ho, ps, tsr⟩
  rw [hl] at hno
  simp only at hno
  subst hno
  simp only [hl]

/-! ## Dispatch -/

/-- C2: when the method of the request has no handler for the path, no
redirect applies and the request is not an OPTIONS request that is handled
automatically, then: if some other method has a handler for the path,
`ServeHTTP` answers method-not-allowed (through the configured handler if
there is one) with an Allow header that lists, joined by a comma and a space
and each once, exactly OPTIONS and the methods that have a handler for the
path; and if no method has a handler for the path, the outcome is the
not-found handler. -/
theorem ServeHTTP_not_allowed {H G C : Type} (fix : Node H → GoString → Option GoString)
    (claims : Request → C) (r0 r : Router H G) (routes : List (Route H)) (req : Request)
    (hr0 : r0.trees = []) (hreg : r0.register routes = .ok r)
    (hno : (r.Lookup req.Method req.Path).1 = none)
    (htsr : ¬ ((r.Lookup req.Method req.Path).2.2 = true ∧ req.Method ≠ "CONNECT".toList ∧
      req.Path ≠ "/".toList))
    (hfix : r.RedirectFixedPath = false ∨
      ∀ n, root? r.trees req.Method = some n → fix n req.Path = none)
    (hopt : ¬ (req.Method = "OPTIONS".toList ∧ r.HandleOPTIONS = true)) :
    ((∃ m, m ≠ req.Method ∧ (r.Lookup m req.Path).1.isSome = true) →
      ∃ ms : List GoString,
        r.ServeHTTP fix claims req
          = .methodNotAllowed (", ".toList.intercalate ms) r.MethodNotAllowed ∧
        ms.Nodup ∧ ∀ m, m ∈ ms ↔ (m = "OPTIONS".toList ∨ (r.Lookup m req.Path).1.isSome = true)) ∧
    ((∀ m, (r.Lookup m req.Path).1 = none) →
      r.ServeHTTP fix claims req = .notFound r.NotFound) := by
  have hk : (r.trees.map Prod.fst).Nodup :=
    register_nodup routes r0 r hreg (by rw [hr0]; exact List.nodup_nil)
  have hfix2 : (if r.RedirectFixedPath then
      (root? r.trees req.Method).bind (fun n => fix n req.Path) else none) = none := by
    rcases hfix with h | h
    · simp [h]
    · split
      · cases hroot : root? r.trees req.Method with
        | none => rfl
        | some n => exact h n hroot
      · rfl
  rw [ServeHTTP_of_no_handler fix claims r req hno, if_neg htsr, hfix2]
  simp only [if_neg hopt]
  constructor
  · rintro ⟨m, hm, hs⟩
    have hne : r.others req.Path req.Method ≠ [] :=
      List.ne_nil_of_mem ((mem_others r hk req.Path req.Method m).mpr ⟨hm, hs⟩)
    refine ⟨Router.allowList (r.others req.Path req.Method), ?_,
      allowList_nodup _ (others_nodup r hk _ _), ?_⟩
    · rw [if_neg hne]; rfl
    · intro m1
      rw [mem_allowList, mem_others r hk]
      constructor
      · rintro (h | h)
        · exact Or.inl h
        · exact Or.inr h.2
      · rintro (h | h)
        · exact Or.inl h
        · refine Or.inr ⟨?_, h⟩
          intro e
          rw [e, hno] at h
          exact absurd h (by simp)
  · intro hall
    have he : r.others req.Path req.Method = [] := by
      apply List.eq_nil_iff_forall_not_mem.mpr
      intro m hm
      have h := ((mem_others r hk req.Path req.Method m).mp hm).2
      rw [hall m] at h
      exact absurd h (by simp)
    rw [if_pos he]

/-- C2, witness: with POST, DELETE and OPTIONS registered for `/path`, a GET
request for `/path` is answered method-not-allowed and a GET request for
`/nope` not-found. -/
theorem ServeHTTP_not_allowed_witness :
    (∃ ms : List GoString,
      (routerOf notAllowedRoutes).ServeHTTP noFix (fun _ => ()) (request "GET" "/path")
          = .methodNotAllowed (", ".toList.intercalate ms) none ∧
        ms.Nodup ∧ ∀ m, m ∈ ms ↔ (m = "OPTIONS".toList ∨
          ((routerOf notAllowedRoutes).Lookup m "/path".toList).1.isSome = true)) ∧
      (routerOf notAllowedRoutes).ServeHTTP noFix (fun _ => ()) (request "GET" "/path")
        = .methodNotAllowed "POST, DELETE, OPTIONS".toList none :=
  ⟨(ServeHTTP_not_allowed noFix (fun _ => ())
      (New { PubRsa := [], ForceAuth := false, ForceUser := false })
      (routerOf notAllowedRoutes) notAllowedRoutes (request "GET" "/path") rfl rfl
      (by decide) (by decide) (Or.inr (fun _ _ => rfl)) (by decide)).1
      ⟨"POST".toList, by decide, by decide⟩,
    rfl⟩

/-- C3: when the tree of the method finds no handler and signals `tsr`, the
method is not CONNECT and the path is not `/`, `ServeHTTP` answers with a
redirect whose status is 301 for GET and HEAD and 307 for every other method,
and whose Location is the path without its trailing slash if it ends in one
and with a slash added otherwise. -/
theorem ServeHTTP_tsr_redirect {H G C : Type} (fix : Node H → GoString → Option GoString)
    (claims : Request → C) (r : Router H G) (req : Request)
    (hno : (r.Lookup req.Method req.Path).1 = none)
    (htsr : (r.Lookup req.Method req.Path).2.2 = true)
    (hm : req.Method ≠ "CONNECT".toList) (hp : req.Path ≠ "/".toList) :
    r.ServeHTTP fix claims req =
      .redirectTSR
        (if req.Method = "GET".toList ∨ req.Method = "HEAD".toList then 301 else 307)
        (if req.Path.getLast? = some '/' then req.Path.dropLast else req.Path ++ ['/']) := by
  rw [ServeHTTP_of_no_handler fix claims r req hno, if_pos ⟨htsr, hm, hp⟩]
  rfl

/-- C3, witness: the three redirects of `TestRouterNotFound`. -/
theorem ServeHTTP_tsr_redirect_witness :
    (routerOf pathRoutes).ServeHTTP noFix (fun _ => ()) (request "GET" "/path/")
        = .redirectTSR 301 "/path".toList ∧
      (routerOf pathRoutes).ServeHTTP noFix (fun _ => ()) (request "GET" "/dir")
        = .redirectTSR 301 "/dir/".toList ∧
      (routerOf pathRoutes).ServeHTTP noFix (fun _ => ()) (request "PATCH" "/path/")
        = .redirectTSR 307 "/path".toList :=
  ⟨ServeHTTP_tsr_redirect noFix (fun _ => ()) (routerOf pathRoutes) (request "GET" "/path/")
      (by decide) (by decide) (by decide) (by decide),
    ServeHTTP_tsr_redirect noFix (fun _ => ()) (routerOf pathRoutes) (request "GET" "/dir")
      (by decide) (by decide) (by decide) (by decide),
    ServeHTTP_tsr_redirect noFix (fun _ => ()) (routerOf pathRoutes) (request "PATCH" "/path/")
      (by decide) (by decide) (by decide) (by decide)⟩

/-- C4: when `Lookup` returns no handler, `tsr` is true exactly when the path
with its trailing slash removed (if it ends in one) or added (otherwise) has a
handler in the tree of the method; on a router without routes `tsr` is
false. -/
theorem Lookup_tsr_iff {H G : Type} :
    (∀ (r : Router H G) (method path : GoString), (r.Lookup method path).1 = none →
      ((r.Lookup method path).2.2 = true ↔
        ∃ h, (r.Lookup method
          (if path.getLast? = some '/' then path.dropLast else path ++ ['/'])).1 = some h)) ∧
    (∀ (conf : JwtConfig) (method path : GoString),
      ((New conf : Router H G).Lookup method path).2.2 = false) := by
  constructor
  · intro r method path hno
    unfold Router.Lookup at *
    cases hroot : root? r.trees method with
    | none => simp
    | some n =>
      rw [hroot] at hno
      simp only at hno ⊢
      unfold Node.matchPath at *
      cases hw : Node.walk n path [] with
      | some hp => rw [hw] at hno; simp at hno
      | none =>
        simp only
        change (n.walk (Node.toggleSlash path) []).isSome = true ↔
          ∃ h, (match n.walk (Node.toggleSlash path) [] with
            | some (h, ps) => (some h, ps, false)
            | none => (none, [], (n.walk (Node.toggleSlash (Node.toggleSlash path)) []).isSome)).1
              = some h
        cases hw2 : Node.walk n (Node.toggleSlash path) [] with
        | none => simp
        | some hp => simp
  · intro conf method path
    rfl

/-- C4, witness: with only `/user/:name` registered, `/user/gopher/` finds no
handler and `tsr` is set, while `/nope` finds no handler and `tsr` is not
set. -/
theorem Lookup_tsr_iff_witness :
    ((routerOf userRoutes).Lookup "GET".toList "/user/gopher/".toList).2.2 = true ∧
      ((routerOf userRoutes).Lookup "GET".toList "/nope".toList).2.2 = false :=
  ⟨(Lookup_tsr_iff.1 (routerOf userRoutes) "GET".toList "/user/gopher/".toList
      (by decide)).mpr ⟨1, by decide⟩,
    (Bool.not_eq_true _).mp
      ((Lookup_tsr_iff.1 (routerOf userRoutes) "GET".toList "/nope".toList (by decide)).not.mpr
        (fun ⟨h, hh⟩ =>
          have hnone : ((routerOf userRoutes).Lookup "GET".toList
              (if "/nope".toList.getLast? = some '/' then "/nope".toList.dropLast
               else "/nope".toList ++ ['/'])).1 = none := by decide
          absurd (hnone.symm.trans hh) (by simp)))⟩

/-! ## Matching registered routes -/

/-- C1: after the routes are registered without a failure, every registered
route is found at every path that instantiates its pattern: `Lookup` returns
the handler of the route, the substitutions in left-to-right order and no
`tsr`, and `ServeHTTP` dispatches to that handler with those Params. -/
theorem Lookup_registered {H G C : Type} (r0 r : Router H G) (routes : List (Route H))
    (hr0 : r0.trees = []) (hreg : r0.register routes = .ok r)
    (rt : Route H) (hrt : rt ∈ routes) (path : GoString) (ps : Params)
    (hinst : Instantiates rt.pattern path ps) :
    r.Lookup rt.method path = (some rt.handler, ps, false) ∧
      ∀ (fix : Node H → GoString → Option GoString) (claims : Request → C) (hdr : Header),
        r.ServeHTTP fix claims ⟨rt.method, path, hdr⟩
          = .matched rt.handler ps (claims ⟨rt.method, path, hdr⟩) := by
  have h0 : r0.Serves [] := by
    refine ⟨?_, by simp⟩
    intro m n hm
    rw [hr0] at hm
    cases hm
  have hs := register_serves routes r0 r [] h0 hreg
  obtain ⟨n, hn, hw⟩ := hs.2 rt (by simpa using hrt)
  have hl : r.Lookup rt.method path = (some rt.handler, ps, false) := by
    unfold Router.Lookup
    rw [hn]
    simp only
    unfold Node.matchPath
    rw [hw path ps [] hinst]
    rfl
  refine ⟨hl, ?_⟩
  intro fix claims hdr
  unfold Router.ServeHTTP
  simp only [hl]

/-- C1, witness: with `/user/:name` and `/src/*filepath` registered for GET,
the path `/user/gopher` gives the first handler and the Params
`name = gopher`, and `/src/a/b` the second handler and `filepath = a/b`. -/
theorem Lookup_registered_witness :
    (routerOf wildcardRoutes).Lookup "GET".toList "/user/gopher".toList
        = (some 1, [⟨"name".toList, "gopher".toList⟩], false) ∧
      (routerOf wildcardRoutes).Lookup "GET".toList "/src/a/b".toList
        = (some 2, [⟨"filepath".toList, "a/b".toList⟩], false) :=
  ⟨(@Lookup_registered Nat Unit Unit
      (New { PubRsa := [], ForceAuth := false, ForceUser := false })
      (routerOf wildcardRoutes) wildcardRoutes rfl rfl ⟨"GET".toList, "/user/:name".toList, 1⟩
      (by simp [wildcardRoutes]) "/user/gopher".toList [⟨"name".toList, "gopher".toList⟩]
      (.literal '/' _ _ _ rfl (.literal 'u' _ _ _ rfl (.literal 's' _ _ _ rfl
        (.literal 'e' _ _ _ rfl (.literal 'r' _ _ _ rfl (.literal '/' _ _ _ rfl
          (.param "name".toList "gopher".toList [] [] (by decide) (by decide) .done)))))))).1,
    (@Lookup_registered Nat Unit Unit
      (New { PubRsa := [], ForceAuth := false, ForceUser := false })
      (routerOf wildcardRoutes) wildcardRoutes rfl rfl ⟨"GET".toList, "/src/*filepath".toList, 2⟩
      (by simp [wildcardRoutes]) "/src/a/b".toList [⟨"filepath".toList, "a/b".toList⟩]
      (.literal '/' _ _ _ rfl (.literal 's' _ _ _ rfl (.literal 'r' _ _ _ rfl
        (.literal 'c' _ _ _ rfl (.literal '/' _ _ _ rfl
          (.catchAll "filepath".toList "a/b".toList))))))).1⟩

/-! ## Priority order -/

/-- C6: when a sequence of insertions into the tree of a method succeeds with
the relocation of the touched child into descending priority order, the same
insertions succeed with the children kept in insertion order, and `match`
returns the same handler, Params and `tsr` on the two trees for every path. -/
theorem matchPath_order_independent {H : Type} (p0 : GoString) (h0 : H)
    (routes : List (GoString × H)) (root t : Node H)
    (hroot : Node.newBranch (p0.length + 1) p0 p0 h0 = .ok root)
    (hins : Node.insertAll true root routes = .ok t) :
    ∃ t1, Node.insertAll false root routes = .ok t1 ∧
      ∀ path, t.matchPath path = t1.matchPath path := by
  have hwf : Node.WF root := (Node.newBranch_wf _ _ _ _ root hroot).1
  obtain ⟨t1, ht1, hwt, hwt1, hs⟩ :=
    Node.insertAll_sim routes root root t hwf hwf (Node.Sim.refl_of_wf root hwf) hins
  refine ⟨t1, ht1, ?_⟩
  intro path
  unfold Node.matchPath
  rw [Node.walk_sim t hwt t1 hwt1 hs path [], Node.walk_sim t hwt t1 hwt1 hs _ []]

/-- C6, witness: after `/a`, `/b`, `/bx` the relocation has moved the child `b`
in front of `a`, the tree in insertion order has `a` first, and the two trees
match alike. -/
theorem matchPath_order_independent_witness :
    (orderTree true).children.map Node.first = [some 'b', some 'a'] ∧
      (orderTree false).children.map Node.first = [some 'a', some 'b'] ∧
      ∃ t1, Node.insertAll false orderRoot orderRoutes = .ok t1 ∧
        ∀ path, (orderTree true).matchPath path = t1.matchPath path :=
  ⟨by decide, by decide,
    matchPath_order_independent "/a".toList 1 orderRoutes orderRoot (orderTree true) rfl rfl⟩



/-! ## Parsing without validation -/

/-- C11: with no public key configured, let two Authorization strings each
consist of a scheme word, one space and a token of three segments separated
by two dots, with the same middle segment.  Then `GetJWTPayload` returns the
same error and the same results for both, and so does `Router.jwt`: the same
error and the same claims, apart from `Impersonate`, which is the
Authorization string itself.  The scheme word, the header segment and the
signature segment do not enter the result. -/
theorem jwt_payload_only {H G J E : Type} (env : Env J E) (router : Router H G)
    (r1 r2 : Request) (ty1 head1 sig1 ty2 head2 sig2 payload : GoString)
    (hkey : router.JwtConf.PubRsa = [])
    (hget1 : r1.Header.Get "Authorization".toList
      = ty1 ++ ' ' :: (head1 ++ '.' :: (payload ++ '.' :: sig1)))
    (hget2 : r2.Header.Get "Authorization".toList
      = ty2 ++ ' ' :: (head2 ++ '.' :: (payload ++ '.' :: sig2)))
    (hty1 : ' ' ∉ ty1) (htok1 : ' ' ∉ head1 ++ '.' :: (payload ++ '.' :: sig1))
    (hty2 : ' ' ∉ ty2) (htok2 : ' ' ∉ head2 ++ '.' :: (payload ++ '.' :: sig2))
    (hh1 : '.' ∉ head1) (hs1 : '.' ∉ sig1) (hh2 : '.' ∉ head2) (hs2 : '.' ∉ sig2)
    (hp : '.' ∉ payload) :
    (∀ (σ F : Type) (results : List (Target σ F)) (s : σ),
      GetJWTPayload (ty1 ++ ' ' :: (head1 ++ '.' :: (payload ++ '.' :: sig1))) results s
        = GetJWTPayload (ty2 ++ ' ' :: (head2 ++ '.' :: (payload ++ '.' :: sig2))) results s) ∧
    (Router.jwt env router r1).2 = (Router.jwt env router r2).2 ∧
    (Router.jwt env router r1).1.decoded = (Router.jwt env router r2).1.decoded ∧
    (Router.jwt env router r1).1.Impersonate
      = ty1 ++ ' ' :: (head1 ++ '.' :: (payload ++ '.' :: sig1)) ∧
    (Router.jwt env router r2).1.Impersonate
      = ty2 ++ ' ' :: (head2 ++ '.' :: (payload ++ '.' :: sig2)) := by
  have hc1 : Router.credential env router r1
      = DecodeJWTSegment payload [env.intoMap, env.intoToken] (emptyClaims J) := by
    rw [credential_of_header env router r1 _ hget1 (by simp) hkey,
      GetJWTPayload_of_parts _ _ ty1 head1 payload sig1 hty1 htok1 hh1 hp hs1]
  have hc2 : Router.credential env router r2
      = DecodeJWTSegment payload [env.intoMap, env.intoToken] (emptyClaims J) := by
    rw [credential_of_header env router r2 _ hget2 (by simp) hkey,
      GetJWTPayload_of_parts _ _ ty2 head2 payload sig2 hty2 htok2 hh2 hp hs2]
  refine ⟨?_, ?_, ?_, ?_, ?_⟩
  · intro σ F results s
    rw [GetJWTPayload_of_parts _ _ ty1 head1 payload sig1 hty1 htok1 hh1 hp hs1,
      GetJWTPayload_of_parts _ _ ty2 head2 payload sig2 hty2 htok2 hh2 hp hs2]
  · rw [jwt_eq_credential, jwt_eq_credential, hc1, hc2]
  · rw [jwt_eq_credential, jwt_eq_credential, hc1, hc2]
    rfl
  · rw [jwt_eq_credential]
    exact hget1
  · rw [jwt_eq_credential]
    exact hget2

/-- C11, witness: `Bearer aa.e30.cc` and `Basic x.e30.` share the payload
`e30`, so they give the same error and the same claims. -/
theorem jwt_payload_only_witness :
    (Router.jwt idleEnv openRouter (authRequest "Bearer aa.e30.cc")).2
        = (Router.jwt idleEnv openRouter (authRequest "Basic x.e30.")).2 ∧
      (Router.jwt idleEnv openRouter (authRequest "Bearer aa.e30.cc")).1.decoded
        = (Router.jwt idleEnv openRouter (authRequest "Basic x.e30.")).1.decoded :=
  ⟨(jwt_payload_only idleEnv openRouter (authRequest "Bearer aa.e30.cc")
      (authRequest "Basic x.e30.") "Bearer".toList "aa".toList "cc".toList "Basic".toList
      "x".toList [] "e30".toList rfl rfl rfl (by decide) (by decide) (by decide) (by decide)
      (by decide) (by decide) (by decide) (by decide) (by decide)).2.1,
    (jwt_payload_only idleEnv openRouter (authRequest "Bearer aa.e30.cc")
      (authRequest "Basic x.e30.") "Bearer".toList "aa".toList "cc".toList "Basic".toList
      "x".toList [] "e30".toList rfl rfl rfl (by decide) (by decide) (by decide) (by decide)
      (by decide) (by decide) (by decide) (by decide) (by decide)).2.2.1⟩

/-! ## The user id check -/

/-- C12: `Router.jwt` returns the error `missing user id` exactly when the
step before produced no error, `ForceUser` is set and the user id is empty;
that step produces no error exactly when the header is absent and
authentication is not required, or the decoder that `PubRsa` selects returns
no error; and an error of that step is returned as it is and is not
`missing user id`. -/
theorem jwt_missing_user_iff {H G J E : Type} (env : Env J E) (router : Router H G)
    (r : Request) :
    ((Router.jwt env router r).2 = some (Error.new "missing user id") ↔
      (Router.credential env router r).2 = none ∧ router.JwtConf.ForceUser = true ∧
        (Router.credential env router r).1.UserId = []) ∧
    ((Router.credential env router r).2 = none ↔
      (r.Header.Get "Authorization".toList = [] ∧ router.JwtConf.ForceAuth = false) ∨
      (r.Header.Get "Authorization".toList ≠ [] ∧ router.JwtConf.PubRsa = [] ∧
        (GetJWTPayload (r.Header.Get "Authorization".toList) [env.intoMap, env.intoToken]
          (emptyClaims J)).2 = none) ∨
      (r.Header.Get "Authorization".toList ≠ [] ∧ router.JwtConf.PubRsa ≠ [] ∧
        (GetJWTPayloadAndValidate env.parse (r.Header.Get "Authorization".toList)
          router.JwtConf.PubRsa [env.intoMap, env.intoToken] (emptyClaims J)).2 = none)) ∧
    (∀ e, (Router.credential env router r).2 = some e →
      (Router.jwt env router r).2 = some e ∧ e ≠ Error.new "missing user id") := by
  have hnot := credential_not_missing_user env router r
  refine ⟨?_, ?_, ?_⟩
  · rw [jwt_eq_credential]
    simp only
    constructor
    · intro h
      split at h
      · rename_i hc
        exact ⟨Option.isNone_iff_eq_none.mp hc.1, hc.2⟩
      · exact absurd h hnot
    · intro h
      rw [if_pos ⟨Option.isNone_iff_eq_none.mpr h.1, h.2⟩]
  · unfold Router.credential
    generalize r.Header.Get "Authorization".toList = auth
    by_cases ha : auth = []
    · rw [if_pos ha]
      cases hf : router.JwtConf.ForceAuth <;> simp [ha]
    · rw [if_neg ha]
      by_cases hk : router.JwtConf.PubRsa = []
      · rw [if_pos hk]
        simp [ha, hk]
      · rw [if_neg hk]
        simp [ha, hk]
  · intro e he
    refine ⟨?_, fun e2 => hnot (by rw [he, e2])⟩
    rw [jwt_eq_credential]
    simp only
    rw [if_neg (fun hc => by rw [he] at hc; simp at hc)]
    exact he

/-- C12, witness: with a user id required and no header the error is `missing
user id`; with authentication required and no header the error of the header
check is returned as it is. -/
theorem jwt_missing_user_iff_witness :
    (Router.jwt idleEnv userOnlyRouter bareRequest).2 = some (Error.new "missing user id") ∧
      (Router.jwt idleEnv authRouter bareRequest).2
        = some (Error.new "missing Authorization header") :=
  ⟨(jwt_missing_user_iff idleEnv userOnlyRouter bareRequest).1.mpr ⟨rfl, rfl, rfl⟩,
    ((jwt_missing_user_iff idleEnv authRouter bareRequest).2.2
      (Error.new "missing Authorization header") rfl).1⟩

/-! ## The impersonation calls -/

/-- C13: the request that `Get` and `Post` hand to the client has the
Authorization header set to the credential (and, for `Post`, the given
Content-Type), but its context is the background context of
`http.NewRequest`, not the context with the timeout of five seconds: the
copy that `WithContext` returns is dropped. -/
theorem impersonate_request_context :
    (∀ (B E : Type) (env : HttpEnv B E) (this : JwtImpersonate) (url : GoString),
      JwtImpersonate.Get env this url =
        match env.newRequestError "GET".toList url with
        | some e => (none, some (.lib e))
        | none => respond (env.Do
            { Method := "GET".toList, URL := url, Body := none,
              Header := [("Authorization".toList, [this])], ctx := .background })) ∧
    (∀ (B E : Type) (env : HttpEnv B E) (this : JwtImpersonate) (url contentType : GoString)
        (body : Option B),
      JwtImpersonate.Post env this url contentType body =
        match env.newRequestError "POST".toList url with
        | some e => (none, some (.lib e))
        | none => respond (env.Do
            { Method := "POST".toList, URL := url, Body := body,
              Header := [("Authorization".toList, [this]), ("Content-Type".toList, [contentType])],
              ctx := .background })) ∧
    Context.background ≠ Context.withTimeout .background 5 ∧
    (JwtImpersonate.Get echoClient "Bearer x".toList "http://h/".toList).2 =
      some (.lib { Method := "GET".toList, URL := "http://h/".toList, Body := none,
                   Header := [("Authorization".toList, ["Bearer x".toList])],
                   ctx := .background }) := by
  refine ⟨?_, ?_, by decide, rfl⟩
  · intro B E env this url
    unfold JwtImpersonate.Get HttpEnv.NewRequest
    cases env.newRequestError "GET".toList url <;> rfl
  · intro B E env this url contentType body
    unfold JwtImpersonate.Post HttpEnv.NewRequest
    cases env.newRequestError "POST".toList url <;> rfl

end JwtHttpRouter
